import Mathlib

/-!
# Getris playing field (`field.go`): shallow embedding and verified properties

The Go source keeps the board as `[FIELD_HEIGHT][FIELD_WIDTH]*Cell`: every board slot
holds a *pointer* to a cell.  `setMino` stores pointers to freshly allocated cells,
`blank` and `eraseLine` mutate the cell behind a pointer (`toVoid`), and `copyLine`
copies pointers from one row to another.  The embedding therefore carries an explicit
heap (`Field.heap`, `Field.next`) so that sharing of a cell between two board slots is
visible.

Go `int` values are `Int`: rows and columns stay within a few board heights of the board,
far from the range where 64-bit arithmetic wraps.  An index outside an array, a nil
dereference and an explicit `panic` end the call with a `Fault`.  Loops of the form
`for cond { ... }` take a fuel argument; running out of fuel is the fault `outOfFuel`, and
the properties below state how much fuel makes the call return.  Counting loops
`for h := a; h < b; h++` and `range` loops are folds and structural recursions.
`draw` only renders the board and is left out.

The constants `FIELD_HEIGHT`, `FIELD_WIDTH`, `colorVOID`, `colorDropPred` and the types
`Cell`, `Coord`, `Mino` are declared in other files of the repository; they are parameters
(`Consts`) or modelled from the specification, as marked.
-/

namespace Getris

/-! ## Data model -/

/-- Cell states used by `field.go` (`VOID`, `Falling`, `DropPred`, `Fixed`). -/
inductive State where
  | VOID
  | Falling
  | DropPred
  | Fixed
  deriving DecidableEq, Repr

abbrev Color := Nat

/-- Modelled from the spec: the `Cell` type is declared outside `field.go`; a cell is a
state together with a colour. -/
structure Cell where
  state : State
  color : Color
  deriving DecidableEq, Repr

/-- Modelled from the spec: the `Coord` type is declared outside `field.go`; a signed
(row, column) pair. -/
structure Coord where
  h : Int
  w : Int
  deriving DecidableEq, Repr

/-- Modelled from the spec: the `Mino` type is declared outside `field.go`; the occupied
coordinates and the colour of a piece. -/
structure Mino where
  coords : List Coord
  color : Color
  deriving DecidableEq, Repr

/-- Move intents named in `field.go`. -/
inductive Move where
  | MoveLeft
  | MoveRight
  | MoveDrop
  | MoveHardDrop
  | RotLeft
  | RotRight
  deriving DecidableEq, Repr

/-- Constants and piece geometry that `field.go` uses but does not declare: the board
dimensions, the two palette colours it names, and the shape-dependent rotation of a
piece. -/
structure Consts where
  FIELD_HEIGHT : Nat
  FIELD_WIDTH : Nat
  colorVOID : Color
  colorDropPred : Color
  rotate : Move → Mino → Mino

/-- Ways a call can fail to return normally. -/
inductive Fault where
  | indexOutOfRange
  | nilDeref
  | explicitPanic
  | outOfFuel
  deriving DecidableEq, Repr

/-- The field: `board` maps a slot to the address of its cell, `heap` maps an address to
the cell stored there, `next` is the first address not yet handed out. -/
structure Field where
  heap : Nat → Cell
  next : Nat
  board : Int × Int → Nat
  curMino : Option Mino
  dropPredMino : Option Mino

/-! ## Coordinates and pieces -/

/-- Modelled from the spec: the accessor for the row of a coordinate. -/
def Coord.getHeight (c : Coord) : Int := c.h

/-- Modelled from the spec: the accessor for the column of a coordinate. -/
def Coord.getWidth (c : Coord) : Int := c.w

/-- Modelled from the spec: exceeds-top means row < 0. -/
def Coord.isExceedTop (c : Coord) : Bool := decide (c.h < 0)

/-- Modelled from the spec: exceeds-side means column < 0 or column ≥ WIDTH. -/
def Coord.isExceedSide (k : Consts) (c : Coord) : Bool :=
  decide (c.w < 0 ∨ (k.FIELD_WIDTH : Int) ≤ c.w)

/-- Modelled from the spec: exceeds-bottom means row ≥ HEIGHT. -/
def Coord.isExceedBottom (k : Consts) (c : Coord) : Bool :=
  decide ((k.FIELD_HEIGHT : Int) ≤ c.h)

/-- Translation of every coordinate of a piece by `dh` rows and `dw` columns. -/
def Mino.shift (m : Mino) (dh dw : Int) : Mino :=
  { m with coords := m.coords.map (fun c => ⟨c.h + dh, c.w + dw⟩) }

/-- Modelled from the spec: `Mino.move` is declared outside `field.go`; it returns a new
piece with the coordinates translated (left, right, one row down) and performs no bounds
check.  Rotations depend on the shape tables and are taken from `Consts.rotate`. -/
def Mino.move (k : Consts) (m : Mino) : Move → Mino
  | .MoveLeft => m.shift 0 (-1)
  | .MoveRight => m.shift 0 1
  | .MoveDrop => m.shift 1 0
  | mv => k.rotate mv m

/-! ## Cells on the heap -/

/-- Modelled from the spec: `newCell` is declared outside `field.go`; it constructs a cell
with the given state and colour.  It returns a pointer, so a fresh address is taken. -/
def newCell (f : Field) (s : State) (c : Color) : Nat × Field :=
  (f.next,
   { f with heap := fun p => if p = f.next then ⟨s, c⟩ else f.heap p, next := f.next + 1 })

/-- Modelled from the spec: `toVoid` is declared outside `field.go`; it resets the cell
behind the pointer to Void with the background colour. -/
def toVoid (k : Consts) (f : Field) (cell : Nat) : Field :=
  { f with heap := fun p => if p = cell then ⟨.VOID, k.colorVOID⟩ else f.heap p }

def inBoard (k : Consts) (h w : Int) : Bool :=
  decide (0 ≤ h ∧ h < (k.FIELD_HEIGHT : Int) ∧ 0 ≤ w ∧ w < (k.FIELD_WIDTH : Int))

def setCell (k : Consts) (f : Field) (h w : Int) (c : Nat) : Except Fault Field :=
  if inBoard k h w then
    .ok { f with board := fun q => if q = (h, w) then c else f.board q }
  else .error .indexOutOfRange

def getCell (k : Consts) (f : Field) (h w : Int) : Except Fault Nat :=
  if inBoard k h w then .ok (f.board (h, w)) else .error .indexOutOfRange

/-- The cell currently shown at slot `(h, w)`. -/
def Field.cellAt (f : Field) (h w : Int) : Cell := f.heap (f.board (h, w))

/-! ## Field operations -/

/-- The loop of `setMino` over the coordinates of the piece. -/
def setCoords (k : Consts) (s : State) (c : Color) : List Coord → Field → Except Fault Field
  | [], f => .ok f
  | coord :: rest, f =>
    if coord.isExceedTop then setCoords k s c rest f
    else
      let (cell, f1) := newCell f s c
      match setCell k f1 coord.getHeight coord.getWidth cell with
      | .error e => .error e
      | .ok f2 => setCoords k s c rest f2

def setMino (k : Consts) (f : Field) (m : Option Mino) (s : State) : Except Fault Field :=
  match m with
  | none => .ok f
  | some m =>
    match s with
    | .Falling => setCoords k .Falling m.color m.coords { f with curMino := some m }
    | .DropPred =>
      setCoords k .DropPred k.colorDropPred m.coords { f with dropPredMino := some m }
    | .Fixed =>
      setCoords k .Fixed m.color m.coords { f with curMino := none, dropPredMino := none }
    | .VOID => .error .explicitPanic

/-- The loop of `isGameOver`. -/
def gameOverCoords (k : Consts) (f : Field) : List Coord → Except Fault Bool
  | [] => .ok false
  | coord :: rest =>
    if coord.isExceedTop then gameOverCoords k f rest
    else
      match getCell k f coord.getHeight coord.getWidth with
      | .error e => .error e
      | .ok cell =>
        if (f.heap cell).state = .Fixed then .ok true else gameOverCoords k f rest

/-- The result of `isGameOver` together with the field after the call. -/
def isGameOver (k : Consts) (f : Field) (m : Mino) : Except Fault (Bool × Field) :=
  match gameOverCoords k f m.coords with
  | .error e => .error e
  | .ok b => .ok (b, f)

/-- The loop of `blank`. -/
def blankCoords (k : Consts) : List Coord → Field → Except Fault Field
  | [], f => .ok f
  | coord :: rest, f =>
    if coord.isExceedTop then blankCoords k rest f
    else
      match getCell k f coord.getHeight coord.getWidth with
      | .error e => .error e
      | .ok cell => blankCoords k rest (toVoid k f cell)

def blank (k : Consts) (f : Field) (m : Mino) : Except Fault Field :=
  blankCoords k m.coords f

def moveMino (k : Consts) (f : Field) (dst : Option Mino) (src : Mino) : Except Fault Field :=
  match blank k f src with
  | .error e => .error e
  | .ok f1 => setMino k f1 dst .Falling

/-- The loop of `legalMove`. -/
def legalCoords (k : Consts) (f : Field) : List Coord → Except Fault Bool
  | [] => .ok true
  | coord :: rest =>
    if coord.isExceedSide k || coord.isExceedBottom k then .ok false
    else if coord.isExceedTop then legalCoords k f rest
    else
      match getCell k f coord.getHeight coord.getWidth with
      | .error e => .error e
      | .ok cell =>
        if (f.heap cell).state = .Fixed then .ok false else legalCoords k f rest

def legalMove (k : Consts) (f : Field) (m : Mino) : Except Fault Bool :=
  legalCoords k f m.coords

/-- The loop of `atBottom`. -/
def bottomCoords (k : Consts) (f : Field) : List Coord → Except Fault Bool
  | [] => .ok false
  | coord :: rest =>
    if coord.isExceedTop then bottomCoords k f rest
    else if (k.FIELD_HEIGHT : Int) ≤ coord.getHeight then .ok true
    else
      match getCell k f coord.getHeight coord.getWidth with
      | .error e => .error e
      | .ok cell =>
        if (f.heap cell).state = .Fixed then .ok true else bottomCoords k f rest

def atBottom (k : Consts) (f : Field) (m : Mino) : Except Fault Bool :=
  bottomCoords k f m.coords

/-- The loop `for !f.atBottom(*new_m)` of `getHardDropMino`. -/
def hardDropLoop (k : Consts) (f : Field) : Nat → Mino → Option Mino → Except Fault (Option Mino)
  | 0, _, _ => .error .outOfFuel
  | fuel + 1, new_m, prev_m =>
    match atBottom k f new_m with
    | .error e => .error e
    | .ok true => .ok prev_m
    | .ok false => hardDropLoop k f fuel (new_m.move k .MoveDrop) (some new_m)

def getHardDropMino (k : Consts) (fuel : Nat) (f : Field) (m : Option Mino) :
    Except Fault (Option Mino) :=
  match m with
  | none => .error .nilDeref
  | some new_m => hardDropLoop k f fuel new_m f.curMino

def setDropPredMino (k : Consts) (fuel : Nat) (f : Field) (m : Option Mino) :
    Except Fault Field :=
  match getHardDropMino k fuel f m with
  | .error e => .error e
  | .ok new_m =>
    match f.dropPredMino with
    | none => setMino k f new_m .DropPred
    | some old =>
      match blank k f old with
      | .error e => .error e
      | .ok f1 => setMino k f1 new_m .DropPred

def addMino (k : Consts) (fuel : Nat) (f : Field) (m : Option Mino) : Except Fault Field :=
  match setDropPredMino k fuel f m with
  | .error e => .error e
  | .ok f1 => setMino k f1 m .Falling

/-! ### Rotation near a side wall -/

inductive ExceedSide where
  | exceedLeft
  | exceedRight
  | noExceedSide
  deriving DecidableEq, Repr

/-- First loop of `checkExceedSide`: the pair `(exLeftFlag, exRightFlag)`. -/
def exceedFlags (k : Consts) : List Coord → Bool × Bool
  | [] => (false, false)
  | coord :: rest =>
    if coord.isExceedTop then exceedFlags k rest
    else if coord.getWidth < 0 then (true, false)
    else if (k.FIELD_WIDTH : Int) ≤ coord.getWidth then (false, true)
    else exceedFlags k rest

/-- The key set `hMap` filled by `checkExceedSide` for the coordinates selected by `sel`. -/
def hMap (sel : Coord → Bool) (coords : List Coord) : List Int :=
  coords.foldl (fun acc coord => if sel coord then acc.insert coord.getHeight else acc) []

def checkExceedSide (k : Consts) (m : Mino) : ExceedSide × Nat :=
  match exceedFlags k m.coords with
  | (false, false) => (.noExceedSide, 0)
  | (true, _) => (.exceedLeft, (hMap (fun c => decide (c.getWidth < 0)) m.coords).length)
  | (false, true) =>
    (.exceedRight, (hMap (fun c => decide ((k.FIELD_WIDTH : Int) ≤ c.getWidth)) m.coords).length)

/-- The loop `for i := 0; i < n; i++ { new_m = new_m.move(mv) }`. -/
def slide (k : Consts) (mv : Move) : Nat → Mino → Mino
  | 0, m => m
  | n + 1, m => slide k mv n (m.move k mv)

/-- The tail of `attempt` once a candidate is accepted:
`setDropPredMino(new_m)` then `moveMino(new_m, *(f.curMino))`. -/
def acceptMove (k : Consts) (fuel : Nat) (f : Field) (new_m : Mino) : Except Fault Field :=
  match setDropPredMino k fuel f (some new_m) with
  | .error e => .error e
  | .ok f1 =>
    match f1.curMino with
    | none => .error .nilDeref
    | some cur => moveMino k f1 (some new_m) cur

def attempt (k : Consts) (fuel : Nat) (f : Field) (move : Move) : Except Fault Field :=
  if move = .MoveHardDrop then
    match getHardDropMino k fuel f f.curMino with
    | .error e => .error e
    | .ok new_m =>
      match f.curMino with
      | none => .error .nilDeref
      | some cur =>
        match moveMino k f new_m cur with
        | .error e => .error e
        | .ok f1 => setMino k f1 f1.curMino .Fixed
  else
    match f.curMino with
    | none => .error .nilDeref
    | some cur =>
      let new_m := cur.move k move
      match (if move = .MoveDrop then atBottom k f new_m else .ok false) with
      | .error e => .error e
      | .ok true => setMino k f f.curMino .Fixed
      | .ok false =>
        match legalMove k f new_m with
        | .error e => .error e
        | .ok true => acceptMove k fuel f new_m
        | .ok false =>
          if move = .RotLeft ∨ move = .RotRight then
            match checkExceedSide k new_m with
            | (.noExceedSide, _) => .ok f
            | (.exceedLeft, n) =>
              match legalMove k f (slide k .MoveRight n new_m) with
              | .error e => .error e
              | .ok false => .ok f
              | .ok true => acceptMove k fuel f (slide k .MoveRight n new_m)
            | (.exceedRight, n) =>
              match legalMove k f (slide k .MoveLeft n new_m) with
              | .error e => .error e
              | .ok false => .ok f
              | .ok true => acceptMove k fuel f (slide k .MoveLeft n new_m)
          else .ok f

/-! ### Line clear and compaction -/

/-- Body of the inner loop of `getCompleteHorizontalLines` at column `w`. -/
def allFixedStep (k : Consts) (f : Field) (h : Int) (all_fixed : Bool) (w : Nat) :
    Except Fault Bool :=
  match getCell k f h (w : Int) with
  | .error e => .error e
  | .ok cell => .ok (if (f.heap cell).state ≠ .Fixed then false else all_fixed)

/-- The inner loop of `getCompleteHorizontalLines` for row `h`: the final `all_fixed`. -/
def allFixedRow (k : Consts) (f : Field) (h : Int) : Except Fault Bool :=
  (List.range k.FIELD_WIDTH).foldlM (allFixedStep k f h) true

/-- Body of the outer loop of `getCompleteHorizontalLines` at row `h`. -/
def linesStep (k : Consts) (f : Field) (lines : List Int) (h : Nat) : Except Fault (List Int) :=
  match allFixedRow k f (h : Int) with
  | .error e => .error e
  | .ok all_fixed => .ok (if all_fixed then lines ++ [(h : Int)] else lines)

def getCompleteHorizontalLines (k : Consts) (f : Field) : Except Fault (List Int) :=
  (List.range k.FIELD_HEIGHT).foldlM (linesStep k f) []

/-- Body of the loop of `eraseLine` at column `w`. -/
def eraseStep (k : Consts) (h : Int) (f : Field) (w : Nat) : Except Fault Field :=
  match getCell k f h (w : Int) with
  | .error e => .error e
  | .ok cell => .ok (toVoid k f cell)

def eraseLine (k : Consts) (f : Field) (h : Int) : Except Fault Field :=
  (List.range k.FIELD_WIDTH).foldlM (eraseStep k h) f

def eraseLines (k : Consts) (f : Field) (lines : List Int) : Except Fault Field :=
  lines.foldlM (eraseLine k) f

/-- Body of the loop that fills `erasedMap`: `eMap[h] = true`. -/
def erasedMapStep (k : Consts) (eMap : Int → Bool) (h : Int) : Except Fault (Int → Bool) :=
  if 0 ≤ h ∧ h < (k.FIELD_HEIGHT : Int) then
    .ok (fun i => if i = h then true else eMap i)
  else .error .indexOutOfRange

/-- The closure `erasedMap` of `dropRemains`: a slice of `FIELD_HEIGHT` booleans, set to
true at every erased line. -/
def erasedMap (k : Consts) (eLines : List Int) : Except Fault (Int → Bool) :=
  eLines.foldlM (erasedMapStep k) (fun _ => false)

/-- The closure `nFixedLine` of `dropRemains`; the first argument is `h + 1` for the loop
variable `h` that runs from `FIELD_HEIGHT - 1` down to `0`, the second is `n`. -/
def nFixedLine (eMap : Int → Bool) : Nat → Nat → Nat
  | 0, n => n
  | h + 1, n => if eMap (h : Int) then n else nFixedLine eMap h (n + 1)

/-- The closure `copySrcL` of `dropRemains`; the argument is `h + 1` for the loop variable
`h` that runs from `FIELD_HEIGHT - (1 + nFixed)` down to `0`. -/
def copySrcL (k : Consts) (eMap : Int → Bool) : Nat → Int
  | 0 => (k.FIELD_HEIGHT : Int)
  | h + 1 => if !eMap (h : Int) then (h : Int) else copySrcL k eMap h

/-- Body of the loop of `copyLine` at column `w`:
`f.board[dstL][w] = f.board[srcL][w]`. -/
def copyStep (k : Consts) (dstL srcL : Int) (f : Field) (w : Nat) : Except Fault Field :=
  match getCell k f srcL (w : Int) with
  | .error e => .error e
  | .ok cell => setCell k f dstL (w : Int) cell

/-- The closure `copyLine` of `dropRemains`: the pointers of row `srcL` are stored in row
`dstL`. -/
def copyLine (k : Consts) (f : Field) (dstL srcL : Int) : Except Fault Field :=
  (List.range k.FIELD_WIDTH).foldlM (copyStep k dstL srcL) f

/-- The loop `for copySrcL >= 0 && erasedMap[copySrcL] { copySrcL-- }`. -/
def skipErased (k : Consts) (eMap : Int → Bool) : Nat → Int → Except Fault Int
  | 0, _ => .error .outOfFuel
  | fuel + 1, src =>
    if 0 ≤ src then
      if src < (k.FIELD_HEIGHT : Int) then
        if eMap src then skipErased k eMap fuel (src - 1) else .ok src
      else .error .indexOutOfRange
    else .ok src

/-- The loop `for copySrcL < 0 && copyDstL >= 0 { f.eraseLine(copyDstL); copyDstL-- }`;
it returns the final `copyDstL` and the field. -/
def voidFill (k : Consts) : Nat → Int → Int → Field → Except Fault (Int × Field)
  | 0, _, _, _ => .error .outOfFuel
  | fuel + 1, src, dst, f =>
    if src < 0 ∧ 0 ≤ dst then
      match eraseLine k f dst with
      | .error e => .error e
      | .ok f1 => voidFill k fuel src (dst - 1) f1
    else .ok (dst, f)

/-- The loop `for copySrcL >= 0 && copyDstL >= 0 { ... }` of `dropRemains`; `total` is the
fuel handed to the two inner loops. -/
def copyLoop (k : Consts) (eMap : Int → Bool) (total : Nat) :
    Nat → Int → Int → Field → Except Fault Field
  | 0, _, _, _ => .error .outOfFuel
  | fuel + 1, src, dst, f =>
    if 0 ≤ src ∧ 0 ≤ dst then
      match (if src < 0 then eraseLine k f dst else .ok f) with
      | .error e => .error e
      | .ok f1 =>
        match copyLine k f1 dst src with
        | .error e => .error e
        | .ok f2 =>
          match skipErased k eMap total (src - 1) with
          | .error e => .error e
          | .ok src1 =>
            match voidFill k total src1 (dst - 1) f2 with
            | .error e => .error e
            | .ok (dst1, f3) => copyLoop k eMap total fuel src1 dst1 f3
    else .ok f

def dropRemains (k : Consts) (fuel : Nat) (f : Field) (erasedLines : List Int) :
    Except Fault Field :=
  match eraseLines k f erasedLines with
  | .error e => .error e
  | .ok f1 =>
    if erasedLines.length = 0 then .ok f1
    else
      match erasedMap k erasedLines with
      | .error e => .error e
      | .ok eMap =>
        let nFixed := nFixedLine eMap k.FIELD_HEIGHT 0
        if k.FIELD_HEIGHT ≤ nFixed then .ok f1
        else
          let src := copySrcL k eMap (k.FIELD_HEIGHT - nFixed)
          if (k.FIELD_HEIGHT : Int) ≤ src then .ok f1
          else
            match (erasedLines.insertionSort (fun a b => a ≤ b)).getLast? with
            | none => .error .indexOutOfRange
            | some dst =>
              if dst ≤ src then .error .explicitPanic
              else copyLoop k eMap fuel fuel src dst f1

def attemptDescent (k : Consts) (fuel : Nat) (f : Field) : Except Fault Field :=
  match getCompleteHorizontalLines k f with
  | .error e => .error e
  | .ok lines =>
    if 0 < lines.length then
      match eraseLines k f lines with
      | .error e => .error e
      | .ok f1 => dropRemains k fuel f1 lines
    else .ok f

/-! ## Specification vocabulary -/

/-- State and colour shown at a slot, when the slot is Fixed. -/
def Field.fixedView (f : Field) (h w : Int) : Option Color :=
  if (f.cellAt h w).state = .Fixed then some (f.cellAt h w).color else none

/-- Specification of the legality test of one coordinate. -/
def Coord.legalOn (k : Consts) (f : Field) (c : Coord) : Prop :=
  0 ≤ c.w ∧ c.w < (k.FIELD_WIDTH : Int) ∧ c.h < (k.FIELD_HEIGHT : Int) ∧
    (0 ≤ c.h → (f.cellAt c.h c.w).state ≠ .Fixed)

instance (k : Consts) (f : Field) (c : Coord) : Decidable (c.legalOn k f) := by
  unfold Coord.legalOn; infer_instance

/-- Specification of the at-bottom test of one coordinate. -/
def Coord.bottomOn (k : Consts) (f : Field) (c : Coord) : Prop :=
  0 ≤ c.h ∧ ((k.FIELD_HEIGHT : Int) ≤ c.h ∨ (f.cellAt c.h c.w).state = .Fixed)

instance (k : Consts) (f : Field) (c : Coord) : Decidable (c.bottomOn k f) := by
  unfold Coord.bottomOn; infer_instance

/-- Every column of the list lies in `[0, FIELD_WIDTH)`. -/
def colsInRange (k : Consts) (cs : List Coord) : Prop :=
  ∀ c ∈ cs, 0 ≤ c.w ∧ c.w < (k.FIELD_WIDTH : Int)

instance (k : Consts) (cs : List Coord) : Decidable (colsInRange k cs) := by
  unfold colsInRange; infer_instance

/-- Every coordinate of the list with row ≥ 0 is a board slot. -/
def visibleOnBoard (k : Consts) (cs : List Coord) : Prop :=
  ∀ c ∈ cs, 0 ≤ c.h → inBoard k c.h c.w = true

instance (k : Consts) (cs : List Coord) : Decidable (visibleOnBoard k cs) := by
  unfold visibleOnBoard; infer_instance

/-! ## Concrete inputs -/

/-- A 4 × 3 board configuration used for concrete instances. -/
def exConsts : Consts := ⟨4, 3, 0, 9, fun _ m => m⟩

/-- A 4 × 3 field with distinct cells; the slot `(3, 1)` is Fixed, all others are Void. -/
def exField : Field :=
  { heap := fun p => if p = 10 then ⟨.Fixed, 5⟩ else ⟨.VOID, 0⟩
    next := 12
    board := fun q => (q.1 * 3 + q.2).toNat
    curMino := none
    dropPredMino := none }

/-- A two-cell vertical piece in column 1, rows 2 and 3. -/
def exMinoLow : Mino := ⟨[⟨2, 1⟩, ⟨3, 1⟩], 6⟩

/-- Row `h` is complete: all `FIELD_WIDTH` cells are Fixed. -/
def completeRow (k : Consts) (f : Field) (h : Int) : Prop :=
  ∀ w : Nat, w < k.FIELD_WIDTH → (f.cellAt h (w : Int)).state = .Fixed

instance (k : Consts) (f : Field) (h : Int) : Decidable (completeRow k f h) := by
  unfold completeRow; infer_instance

/-- The candidate after the side-slide correction of `attempt`: the rotated candidate
moved right, respectively left, by the count that `checkExceedSide` reports. -/
def slidCandidate (k : Consts) (cand : Mino) : Mino :=
  match checkExceedSide k cand with
  | (.exceedLeft, n) => slide k .MoveRight n cand
  | (.exceedRight, n) => slide k .MoveLeft n cand
  | (.noExceedSide, _) => cand

/-- A field whose current piece is the single cell `(0, 0)` on the 4 × 3 example board. -/
def exFieldCorner : Field :=
  { heap := fun p => if p = 10 then ⟨.Fixed, 5⟩ else if p = 0 then ⟨.Falling, 6⟩ else ⟨.VOID, 0⟩
    next := 12
    board := fun q => (q.1 * 3 + q.2).toNat
    curMino := some ⟨[⟨0, 0⟩], 6⟩
    dropPredMino := some ⟨[⟨3, 0⟩], 6⟩ }

/-- Every board slot holds an address that has been handed out. -/
def Field.fresh (k : Consts) (f : Field) : Prop :=
  ∀ h : Nat, h < k.FIELD_HEIGHT → ∀ w : Nat, w < k.FIELD_WIDTH →
    f.board ((h : Int), (w : Int)) < f.next

instance (k : Consts) (f : Field) : Decidable (f.fresh k) := by
  unfold Field.fresh; infer_instance

/-- The coordinates with row ≥ 0 of an optional piece are board slots. -/
def minoOnBoard (k : Consts) : Option Mino → Prop
  | none => True
  | some m => visibleOnBoard k m.coords

instance (k : Consts) (m : Option Mino) : Decidable (minoOnBoard k m) := by
  cases m <;> unfold minoOnBoard <;> infer_instance

/-- Well-formed field: every board slot points into the allocated part of the heap, and
the current piece and the preview piece, which `setMino` has drawn on the board, have
their visible coordinates on the board. -/
def Field.WF (k : Consts) (f : Field) : Prop :=
  f.fresh k ∧ minoOnBoard k f.curMino ∧ minoOnBoard k f.dropPredMino

instance (k : Consts) (f : Field) : Decidable (f.WF k) := by
  unfold Field.WF; infer_instance

/-- A 4 × 3 field whose current piece is the single cell `(2, 1)`, resting on the Fixed
slot `(3, 1)`; the preview coincides with the piece. -/
def exFieldLanding : Field :=
  { heap := fun p => if p = 10 then ⟨.Fixed, 5⟩ else if p = 7 then ⟨.Falling, 6⟩ else ⟨.VOID, 0⟩
    next := 12
    board := fun q => (q.1 * 3 + q.2).toNat
    curMino := some ⟨[⟨2, 1⟩], 6⟩
    dropPredMino := some ⟨[⟨2, 1⟩], 6⟩ }

/-- No coordinate of the list with row ≥ 0 lies on a Fixed cell. -/
def offFixed (f : Field) (cs : List Coord) : Prop :=
  ∀ c ∈ cs, 0 ≤ c.h → (f.cellAt c.h c.w).state ≠ .Fixed

/-- The two fields show the same Fixed cells, with the same colours, on the board. -/
def sameFixed (k : Consts) (f g : Field) : Prop :=
  ∀ h w, inBoard k h w = true → g.fixedView h w = f.fixedView h w

/-- The L-shaped piece of Fig1 in `attempt`, standing against the left wall. -/
def exMinoL : Mino := ⟨[⟨0, 0⟩, ⟨1, 0⟩, ⟨2, 0⟩, ⟨2, 1⟩], 6⟩

/-- The rotated candidate of Fig2 in `attempt`: one cell lies left of the wall. -/
def exMinoLRot : Mino := ⟨[⟨0, 1⟩, ⟨1, -1⟩, ⟨1, 0⟩, ⟨1, 1⟩], 6⟩

/-- A 4 × 5 board configuration whose rotation maps Fig1 to Fig2. -/
def exConstsRot : Consts := ⟨4, 5, 0, 9, fun _ m => if m = exMinoL then exMinoLRot else m⟩

/-- A 4 × 5 field with distinct cells: the current piece is Fig1, the preview is the piece
one row lower, and the slot `(0, 2)` is Fixed. -/
def exFieldRot : Field :=
  { heap := fun p =>
      if p = 2 then ⟨.Fixed, 5⟩
      else if p = 0 ∨ p = 5 ∨ p = 10 ∨ p = 11 then ⟨.Falling, 6⟩
      else if p = 15 ∨ p = 16 then ⟨.DropPred, 9⟩
      else ⟨.VOID, 0⟩
    next := 20
    board := fun q => (q.1 * 5 + q.2).toNat
    curMino := some exMinoL
    dropPredMino := some ⟨[⟨1, 0⟩, ⟨2, 0⟩, ⟨3, 0⟩, ⟨3, 1⟩], 6⟩ }

/-- The field `exFieldRot` without the Fixed cell at `(0, 2)`. -/
def exFieldRotFree : Field :=
  { exFieldRot with
    heap := fun p =>
      if p = 0 ∨ p = 5 ∨ p = 10 ∨ p = 11 then ⟨.Falling, 6⟩
      else if p = 15 ∨ p = 16 then ⟨.DropPred, 9⟩
      else ⟨.VOID, 0⟩ }

/-- Repeating `attempt(MoveDrop)` until the piece locks (curMino becomes nil); the second
argument bounds the number of repetitions. -/
def softDropUntilLock (k : Consts) (fuel : Nat) : Nat → Field → Except Fault Field
  | 0, _ => .error .outOfFuel
  | n + 1, f =>
    match attempt k fuel f .MoveDrop with
    | .error e => .error e
    | .ok f1 =>
      match f1.curMino with
      | none => .ok f1
      | some _ => softDropUntilLock k fuel n f1

/-- A 4 × 3 field whose current piece is the single cell `(0, 1)`; the preview is its drop
projection `(2, 1)`, above the Fixed slot `(3, 1)`. -/
def exFieldFalling : Field :=
  { heap := fun p =>
      if p = 10 then ⟨.Fixed, 5⟩
      else if p = 1 then ⟨.Falling, 6⟩
      else if p = 7 then ⟨.DropPred, 9⟩
      else ⟨.VOID, 0⟩
    next := 12
    board := fun q => (q.1 * 3 + q.2).toNat
    curMino := some ⟨[⟨0, 1⟩], 6⟩
    dropPredMino := some ⟨[⟨2, 1⟩], 6⟩ }

/-- Number of erased rows strictly below row `i` on the screen (row index greater than `i`)
among the first `n` rows. -/
def cntAbove (eMap : Int → Bool) : Nat → Int → Nat
  | 0, _ => 0
  | n + 1, i => cntAbove eMap n i + (if i < (n : Int) ∧ eMap (n : Int) = true then 1 else 0)

/-- The cell that `toVoid` leaves behind. -/
def voidCell (k : Consts) : Cell := ⟨.VOID, k.colorVOID⟩

/-- State of the copy loop of `dropRemains` at the loop head, relative to the field `f1`
that entered the loop: the read row `src` is a kept row, the write row `dst` is where it
lands, the rows up to `dst` are untouched and the kept rows below `src` are in place. -/
def CopyInv (k : Consts) (eMap : Int → Bool) (f1 : Field) (src dst : Int) (g : Field) : Prop :=
  0 ≤ src ∧ src < dst ∧ dst < (k.FIELD_HEIGHT : Int) ∧ eMap src = false ∧
  dst = src + (cntAbove eMap k.FIELD_HEIGHT src : Int) ∧
  g.heap = f1.heap ∧ g.next = f1.next ∧ g.curMino = f1.curMino ∧
  g.dropPredMino = f1.dropPredMino ∧
  (∀ r w, r ≤ dst → g.board (r, w) = f1.board (r, w)) ∧
  (∀ i w, src < i → i < (k.FIELD_HEIGHT : Int) → eMap i = false →
    0 ≤ w → w < (k.FIELD_WIDTH : Int) →
    g.board (i + (cntAbove eMap k.FIELD_HEIGHT i : Int), w) = f1.board (i, w))

/-- What `dropRemains` leaves behind, relative to the field `f1` after `eraseLines`: every
kept row `i` has its pointers in row `i + cntAbove i`; the top rows, as many as there are
erased rows, keep their pointers and the cells behind those pointers are reset; no other
cell is touched. -/
def DropPost (k : Consts) (eMap : Int → Bool) (f1 g : Field) : Prop :=
  g.next = f1.next ∧ g.curMino = f1.curMino ∧ g.dropPredMino = f1.dropPredMino ∧
  (∀ i w, 0 ≤ i → i < (k.FIELD_HEIGHT : Int) → eMap i = false →
    0 ≤ w → w < (k.FIELD_WIDTH : Int) →
    g.board (i + (cntAbove eMap k.FIELD_HEIGHT i : Int), w) = f1.board (i, w)) ∧
  (∀ r w, 0 ≤ r → r < (cntAbove eMap k.FIELD_HEIGHT (-1) : Int) →
    g.board (r, w) = f1.board (r, w)) ∧
  (∀ p, (∃ r : Int, 0 ≤ r ∧ r < (cntAbove eMap k.FIELD_HEIGHT (-1) : Int) ∧
      ∃ w : Nat, w < k.FIELD_WIDTH ∧ f1.board (r, (w : Int)) = p) → g.heap p = voidCell k) ∧
  (∀ p, (¬ ∃ r : Int, 0 ≤ r ∧ r < (cntAbove eMap k.FIELD_HEIGHT (-1) : Int) ∧
      ∃ w : Nat, w < k.FIELD_WIDTH ∧ f1.board (r, (w : Int)) = p) → g.heap p = f1.heap p)
/-- The rows that `getCompleteHorizontalLines` reports, as a map on row indices. -/
def completeMap (k : Consts) (f : Field) : Int → Bool :=
  fun i => decide (0 ≤ i ∧ i < (k.FIELD_HEIGHT : Int) ∧ completeRow k f i)

/-- A cell shared by two different board slots is a Void cell of the background colour. -/
def Field.sharedVoid (k : Consts) (f : Field) : Prop :=
  ∀ h w h2 w2, inBoard k h w = true → inBoard k h2 w2 = true → (h, w) ≠ (h2, w2) →
    f.board (h, w) = f.board (h2, w2) → f.cellAt h w = voidCell k

/-- The cell shown at a slot after a call, when the call returned. -/
def cellAfter (r : Except Fault Field) (h w : Int) : Option Cell :=
  match r with
  | .ok g => some (g.cellAt h w)
  | .error _ => none

/-- The 20 × 10 board configuration. -/
def exConsts20 : Consts := ⟨20, 10, 0, 9, fun _ m => m⟩

/-- A 20 × 10 field with distinct cells, as left by five vertical bars stacked in column 0,
two horizontal bars in row 19 and a last vertical bar in column 9: column 0 is Fixed in
every row up to the top row 0, the bottom row 19 is complete, column 9 is Fixed in rows 16
to 19, every other cell is Void. -/
def exFieldTop : Field :=
  { heap := fun p =>
      if p % 10 = 0 ∨ 190 ≤ p ∨ (p % 10 = 9 ∧ 160 ≤ p) then ⟨.Fixed, 3⟩ else ⟨.VOID, 0⟩
    next := 200
    board := fun q => (q.1 * 10 + q.2).toNat
    curMino := none
    dropPredMino := none }

/-- A 20 × 10 field with distinct cells: rows 5 and 9 are complete, slot `(7, 0)` is Fixed,
every other cell is Void. -/
def exFieldTwo : Field :=
  { heap := fun p =>
      if (50 ≤ p ∧ p < 60) ∨ (90 ≤ p ∧ p < 100) ∨ p = 70 then ⟨.Fixed, 3⟩ else ⟨.VOID, 0⟩
    next := 200
    board := fun q => (q.1 * 10 + q.2).toNat
    curMino := none
    dropPredMino := none }

/-- The cursor pairs `(copySrcL, copyDstL)` with which the body of the copy loop of
`dropRemains` is entered, in order; the recursion is that of `copyLoop`. -/
def copyLoopCursors (k : Consts) (eMap : Int → Bool) (total : Nat) :
    Nat → Int → Int → Field → List (Int × Int)
  | 0, _, _, _ => []
  | fuel + 1, src, dst, f =>
    if 0 ≤ src ∧ 0 ≤ dst then
      (src, dst) ::
        match (if src < 0 then eraseLine k f dst else .ok f) with
        | .error _ => []
        | .ok f1 =>
          match copyLine k f1 dst src with
          | .error _ => []
          | .ok f2 =>
            match skipErased k eMap total (src - 1) with
            | .error _ => []
            | .ok src1 =>
              match voidFill k total src1 (dst - 1) f2 with
              | .error _ => []
              | .ok (dst1, f3) => copyLoopCursors k eMap total fuel src1 dst1 f3
    else []

/-- The pair `(copySrcL, copyDstL)` that `dropRemains` compares in its fail-fast test
`if copySrcL >= copyDstL`, when the call gets that far. -/
def dropRemainsCheck (k : Consts) (f : Field) (erasedLines : List Int) : Option (Int × Int) :=
  match eraseLines k f erasedLines with
  | .error _ => none
  | .ok _ =>
    if erasedLines.length = 0 then none
    else
      match erasedMap k erasedLines with
      | .error _ => none
      | .ok eMap =>
        let nFixed := nFixedLine eMap k.FIELD_HEIGHT 0
        if k.FIELD_HEIGHT ≤ nFixed then none
        else
          let src := copySrcL k eMap (k.FIELD_HEIGHT - nFixed)
          if (k.FIELD_HEIGHT : Int) ≤ src then none
          else
            match (erasedLines.insertionSort (fun a b => a ≤ b)).getLast? with
            | none => none
            | some dst => some (src, dst)

/-- The cursor pairs with which `dropRemains` enters the body of its copy loop. -/
def dropRemainsCursors (k : Consts) (fuel : Nat) (f : Field) (erasedLines : List Int) :
    List (Int × Int) :=
  match eraseLines k f erasedLines with
  | .error _ => []
  | .ok f1 =>
    if erasedLines.length = 0 then []
    else
      match erasedMap k erasedLines with
      | .error _ => []
      | .ok eMap =>
        let nFixed := nFixedLine eMap k.FIELD_HEIGHT 0
        if k.FIELD_HEIGHT ≤ nFixed then []
        else
          let src := copySrcL k eMap (k.FIELD_HEIGHT - nFixed)
          if (k.FIELD_HEIGHT : Int) ≤ src then []
          else
            match (erasedLines.insertionSort (fun a b => a ≤ b)).getLast? with
            | none => []
            | some dst =>
              if dst ≤ src then []
              else copyLoopCursors k eMap fuel fuel src dst f1

/-- The field after a call, when the call returned; the field `dflt` otherwise. -/
def fieldAfter (r : Except Fault Field) (dflt : Field) : Field :=
  match r with
  | .ok g => g
  | .error _ => dflt

/-- What `attempt` does with a rotation once the slid candidate `s` is fixed: if `s` is
legal the rotation is accepted, with enough fuel for the preview loop, and curMino becomes
`s`; if `s` is not legal the field is returned unchanged. -/
def slideOutcome (k : Consts) (f : Field) (mv : Move) (s : Mino) : Prop :=
  (legalMove k f s = .ok true →
    ∃ N, ∀ fuel, N ≤ fuel → ∃ g, attempt k fuel f mv = .ok g ∧ g.curMino = some s) ∧
  (legalMove k f s = .ok false → ∀ fuel, attempt k fuel f mv = .ok f)

/-- The piece of Fig1 in `attempt`, two rows higher: its two upper cells are above the
board. -/
def exMinoHigh : Mino := ⟨[⟨-2, 0⟩, ⟨-1, 0⟩, ⟨0, 0⟩, ⟨0, 1⟩], 6⟩

/-- The rotated candidate of Fig2, two rows higher: all cells are above the board and one
of them lies left of the wall. -/
def exMinoHighRot : Mino := ⟨[⟨-2, 1⟩, ⟨-1, -1⟩, ⟨-1, 0⟩, ⟨-1, 1⟩], 6⟩

/-- A 4 × 5 board configuration whose rotation maps `exMinoHigh` to `exMinoHighRot`. -/
def exConstsHigh : Consts :=
  ⟨4, 5, 0, 9, fun _ m => if m = exMinoHigh then exMinoHighRot else m⟩

/-- A 4 × 5 field with distinct cells and no Fixed cell: the current piece is `exMinoHigh`,
the preview is its projection on the floor. -/
def exFieldHigh : Field :=
  { heap := fun p =>
      if p = 0 ∨ p = 1 then ⟨.Falling, 6⟩
      else if p = 5 ∨ p = 10 ∨ p = 15 ∨ p = 16 then ⟨.DropPred, 9⟩
      else ⟨.VOID, 0⟩
    next := 20
    board := fun q => (q.1 * 5 + q.2).toNat
    curMino := some exMinoHigh
    dropPredMino := some ⟨[⟨1, 0⟩, ⟨2, 0⟩, ⟨3, 0⟩, ⟨3, 1⟩], 6⟩ }
/-- The S-shaped piece in rows 17 and 18 of the 20 × 10 board. -/
def exMinoS : Mino := ⟨[⟨17, 2⟩, ⟨17, 3⟩, ⟨18, 1⟩, ⟨18, 2⟩], 6⟩

/-- The drop projection of `exMinoS` on the empty board: one row lower, on the floor. -/
def exMinoSPred : Mino := ⟨[⟨18, 2⟩, ⟨18, 3⟩, ⟨19, 1⟩, ⟨19, 2⟩], 6⟩

/-- A 20 × 10 field with distinct cells and no Fixed cell: the current piece `exMinoS` is
drawn Falling, and its projection `exMinoSPred` is drawn DropPred where the piece does not
cover it. -/
def exFieldS : Field :=
  { heap := fun p =>
      if p = 172 ∨ p = 173 ∨ p = 181 ∨ p = 182 then ⟨.Falling, 6⟩
      else if p = 183 ∨ p = 191 ∨ p = 192 then ⟨.DropPred, 9⟩
      else ⟨.VOID, 0⟩
    next := 200
    board := fun q => (q.1 * 10 + q.2).toNat
    curMino := some exMinoS
    dropPredMino := some exMinoSPred }

/-! ## Verified properties -/

/-! ### Reading the board -/


theorem inBoard_iff (k : Consts) (h w : Int) :
    inBoard k h w = true ↔ 0 ≤ h ∧ h < (k.FIELD_HEIGHT : Int) ∧ 0 ≤ w ∧ w < (k.FIELD_WIDTH : Int) := by
  simp [inBoard]

theorem getCell_ok (k : Consts) (f : Field) (h w : Int) (hb : inBoard k h w = true) :
    getCell k f h w = .ok (f.board (h, w)) := by
  simp [getCell, hb]

theorem getCell_err (k : Consts) (f : Field) (h w : Int) (hb : inBoard k h w = false) :
    getCell k f h w = .error .indexOutOfRange := by
  simp [getCell, hb]

theorem legalCoords_eq (k : Consts) (f : Field) (cs : List Coord) :
    legalCoords k f cs = .ok (decide (∀ c ∈ cs, c.legalOn k f)) := by
  induction cs with
  | nil => simp [legalCoords]
  | cons c cs ih =>
    unfold legalCoords
    by_cases h1 : c.w < 0 ∨ (k.FIELD_WIDTH : Int) ≤ c.w
    · have : ¬ c.legalOn k f := by unfold Coord.legalOn; omega
      simp [Coord.isExceedSide, h1, this]
    · by_cases h2 : (k.FIELD_HEIGHT : Int) ≤ c.h
      · have : ¬ c.legalOn k f := by unfold Coord.legalOn; omega
        simp [Coord.isExceedSide, Coord.isExceedBottom, h2, this]
      · by_cases h3 : c.h < 0
        · have : c.legalOn k f := by unfold Coord.legalOn; omega
          simp [Coord.isExceedSide, Coord.isExceedBottom, Coord.isExceedTop, h1, h2, h3, ih, this]
        · have hb : inBoard k c.h c.w = true := by rw [inBoard_iff]; omega
          simp only [Coord.isExceedSide, Coord.isExceedBottom, Coord.isExceedTop, h1, h2, h3,
            Coord.getHeight, Coord.getWidth, getCell_ok k f _ _ hb]
          by_cases h4 : (f.heap (f.board (c.h, c.w))).state = .Fixed
          · have : ¬ c.legalOn k f := by
              unfold Coord.legalOn Field.cellAt; intro h; exact h.2.2.2 (by omega) h4
            simp [h4, this]
          · have : c.legalOn k f := by
              unfold Coord.legalOn Field.cellAt; exact ⟨by omega, by omega, by omega, fun _ => h4⟩
            simp [h4, ih, this]

theorem bottomCoords_eq (k : Consts) (f : Field) (cs : List Coord) (hc : colsInRange k cs) :
    bottomCoords k f cs = .ok (decide (∃ c ∈ cs, c.bottomOn k f)) := by
  induction cs with
  | nil => simp [bottomCoords]
  | cons c cs ih =>
    have hc1 := hc c (List.mem_cons_self _ _)
    have ih := ih (fun c hm => hc c (List.mem_cons_of_mem _ hm))
    unfold bottomCoords
    by_cases h3 : c.h < 0
    · have : ¬ c.bottomOn k f := by unfold Coord.bottomOn; omega
      simp [Coord.isExceedTop, h3, ih, this]
    · by_cases h2 : (k.FIELD_HEIGHT : Int) ≤ c.h
      · have : c.bottomOn k f := by unfold Coord.bottomOn; omega
        simp [Coord.isExceedTop, Coord.getHeight, h3, h2, this]
      · have hb : inBoard k c.h c.w = true := by rw [inBoard_iff]; omega
        simp only [Coord.isExceedTop, h3, h2, Coord.getHeight, Coord.getWidth,
          getCell_ok k f _ _ hb]
        by_cases h4 : (f.heap (f.board (c.h, c.w))).state = .Fixed
        · have : c.bottomOn k f := by
            unfold Coord.bottomOn Field.cellAt; exact ⟨by omega, Or.inr h4⟩
          simp [h4, this]
        · have : ¬ c.bottomOn k f := by
            unfold Coord.bottomOn Field.cellAt; rintro ⟨_, h | h⟩
            · exact h2 h
            · exact h4 h
          simp [h4, ih, this]

theorem gameOverCoords_eq (k : Consts) (f : Field) (cs : List Coord) (hc : visibleOnBoard k cs) :
    gameOverCoords k f cs =
      .ok (decide (∃ c ∈ cs, 0 ≤ c.h ∧ (f.cellAt c.h c.w).state = .Fixed)) := by
  induction cs with
  | nil => simp [gameOverCoords]
  | cons c cs ih =>
    have hc1 := hc c (List.mem_cons_self _ _)
    have ih := ih (fun c hm => hc c (List.mem_cons_of_mem _ hm))
    unfold gameOverCoords
    by_cases h3 : c.h < 0
    · have : ¬ (0 ≤ c.h) := by omega
      simp [Coord.isExceedTop, h3, ih, this]
    · have hb : inBoard k c.h c.w = true := hc1 (by omega)
      simp only [Coord.isExceedTop, h3, Coord.getHeight, Coord.getWidth, getCell_ok k f _ _ hb]
      by_cases h4 : (f.heap (f.board (c.h, c.w))).state = .Fixed
      · have : 0 ≤ c.h ∧ (f.cellAt c.h c.w).state = .Fixed := ⟨by omega, h4⟩
        simp [h4, this]
      · have : ¬ (0 ≤ c.h ∧ (f.cellAt c.h c.w).state = .Fixed) := fun h => h4 h.2
        simp [h4, ih, this]

/-! ### C2, C7, C10: the three read-only tests -/

/-- C2: for every board and every piece with arbitrary signed coordinates, `legalMove`
returns a boolean (it never reads the board outside its bounds), and it returns true
exactly when every coordinate has its column in `[0, FIELD_WIDTH)`, its row below
`FIELD_HEIGHT`, and, when its row is at least 0, lies on a cell that is not Fixed. -/
theorem C2_legalMove_iff (k : Consts) (f : Field) (m : Mino) :
    (∃ b, legalMove k f m = .ok b) ∧
    (legalMove k f m = .ok true ↔
      ∀ c ∈ m.coords, 0 ≤ c.w ∧ c.w < (k.FIELD_WIDTH : Int) ∧ c.h < (k.FIELD_HEIGHT : Int) ∧
        (0 ≤ c.h → (f.cellAt c.h c.w).state ≠ .Fixed)) := by
  unfold legalMove
  rw [legalCoords_eq]
  refine ⟨⟨_, rfl⟩, ?_⟩
  simp [Coord.legalOn]

/-- C7: for every field and every piece whose coordinates with row at least 0 lie inside
the board, `isGameOver` returns true exactly when some coordinate with row at least 0
lies on a Fixed cell, and the field after the call is the field before it (board cells,
curMino and dropPredMino included). -/
theorem C7_isGameOver_iff (k : Consts) (f : Field) (m : Mino)
    (hm : ∀ c ∈ m.coords, 0 ≤ c.h →
      c.h < (k.FIELD_HEIGHT : Int) ∧ 0 ≤ c.w ∧ c.w < (k.FIELD_WIDTH : Int)) :
    ∃ b, isGameOver k f m = .ok (b, f) ∧
      (b = true ↔ ∃ c ∈ m.coords, 0 ≤ c.h ∧ (f.cellAt c.h c.w).state = .Fixed) := by
  have hv : visibleOnBoard k m.coords := by
    intro c hc h0
    have := hm c hc h0
    rw [inBoard_iff]; omega
  unfold isGameOver
  rw [gameOverCoords_eq k f m.coords hv]
  exact ⟨_, rfl, by simp⟩

/-- Instance of C7: on the 4 × 3 example field the piece in column 1, rows 2 and 3,
overlaps the Fixed slot `(3, 1)`; game over is reported and the field is returned as it
was. -/
theorem C7_isGameOver_witness :
    (∀ c ∈ exMinoLow.coords, 0 ≤ c.h →
      c.h < (exConsts.FIELD_HEIGHT : Int) ∧ 0 ≤ c.w ∧ c.w < (exConsts.FIELD_WIDTH : Int)) ∧
    ∃ b, isGameOver exConsts exField exMinoLow = .ok (b, exField) ∧
      (b = true ↔ ∃ c ∈ exMinoLow.coords, 0 ≤ c.h ∧ (exField.cellAt c.h c.w).state = .Fixed) :=
  ⟨by decide, C7_isGameOver_iff exConsts exField exMinoLow (by decide)⟩

/-- C10: for every board and every piece whose columns all lie in `[0, FIELD_WIDTH)`,
`atBottom` returns a boolean, and it returns true exactly when some coordinate with row
at least 0 has row at least `FIELD_HEIGHT` or lies on a Fixed cell; a piece all of whose
rows are negative is never at-bottom. -/
theorem C10_atBottom_iff (k : Consts) (f : Field) (m : Mino)
    (hm : ∀ c ∈ m.coords, 0 ≤ c.w ∧ c.w < (k.FIELD_WIDTH : Int)) :
    (∃ b, atBottom k f m = .ok b) ∧
    (atBottom k f m = .ok true ↔
      ∃ c ∈ m.coords, 0 ≤ c.h ∧
        ((k.FIELD_HEIGHT : Int) ≤ c.h ∨ (f.cellAt c.h c.w).state = .Fixed)) ∧
    ((∀ c ∈ m.coords, c.h < 0) → atBottom k f m = .ok false) := by
  unfold atBottom
  rw [bottomCoords_eq k f m.coords hm]
  refine ⟨⟨_, rfl⟩, by simp [Coord.bottomOn], ?_⟩
  intro hneg
  have : ¬ ∃ c ∈ m.coords, c.bottomOn k f := by
    rintro ⟨c, hc, h0, _⟩
    have := hneg c hc
    omega
  simp [this]

/-- Instance of C10: on the 4 × 3 example field the piece in column 1, rows 2 and 3, is
at-bottom because slot `(3, 1)` is Fixed. -/
theorem C10_atBottom_witness :
    (∀ c ∈ exMinoLow.coords, 0 ≤ c.w ∧ c.w < (exConsts.FIELD_WIDTH : Int)) ∧
    atBottom exConsts exField exMinoLow = .ok true :=
  ⟨by decide,
   (C10_atBottom_iff exConsts exField exMinoLow (by decide)).2.1.mpr
     ⟨⟨3, 1⟩, by decide, by decide, Or.inr (by decide)⟩⟩

/-! ### Complete rows -/

theorem allFixedRow_fold (k : Consts) (f : Field) (h : Int)
    (hh : 0 ≤ h ∧ h < (k.FIELD_HEIGHT : Int)) (l : List Nat) (hl : ∀ w ∈ l, w < k.FIELD_WIDTH)
    (b : Bool) :
    l.foldlM (allFixedStep k f h) b
      = .ok (b && decide (∀ w ∈ l, (f.cellAt h (w : Int)).state = .Fixed)) := by
  induction l generalizing b with
  | nil => simp [pure, Except.pure]
  | cons w l ih =>
    have hw := hl w (List.mem_cons_self _ _)
    have ih := ih (fun w hm => hl w (List.mem_cons_of_mem _ hm))
    have hb : inBoard k h (w : Int) = true := by rw [inBoard_iff]; omega
    simp only [List.foldlM_cons, allFixedStep, getCell_ok k f _ _ hb, bind, Except.bind]
    rw [ih]
    by_cases h4 : (f.heap (f.board (h, (w : Int)))).state = .Fixed
    · have : (f.cellAt h (w : Int)).state = .Fixed := h4
      simp [h4, this]
    · have : ¬ (f.cellAt h (w : Int)).state = .Fixed := h4
      simp [h4, this]

theorem allFixedRow_eq (k : Consts) (f : Field) (h : Int)
    (hh : 0 ≤ h ∧ h < (k.FIELD_HEIGHT : Int)) :
    allFixedRow k f h = .ok (decide (completeRow k f h)) := by
  unfold allFixedRow
  rw [allFixedRow_fold k f h hh _ (fun w hw => List.mem_range.mp hw)]
  simp [completeRow]

theorem completeLines_fold (k : Consts) (f : Field) (l : List Nat)
    (hl : ∀ h ∈ l, h < k.FIELD_HEIGHT) (acc : List Int) :
    l.foldlM (linesStep k f) acc
      = .ok (acc ++ (l.filter (fun (h : Nat) => decide (completeRow k f (h : Int)))).map
          Int.ofNat) := by
  induction l generalizing acc with
  | nil => simp [pure, Except.pure]
  | cons h l ih =>
    have hh := hl h (List.mem_cons_self _ _)
    have ih := ih (fun w hm => hl w (List.mem_cons_of_mem _ hm))
    simp only [List.foldlM_cons, linesStep, allFixedRow_eq k f (h : Int) ⟨by omega, by omega⟩,
      bind, Except.bind]
    rw [ih]
    by_cases hc : completeRow k f (h : Int)
    · simp [hc, List.filter_cons]
    · simp [hc, List.filter_cons]

theorem getCompleteHorizontalLines_eq (k : Consts) (f : Field) :
    getCompleteHorizontalLines k f =
      .ok (((List.range k.FIELD_HEIGHT).filter
        (fun (h : Nat) => decide (completeRow k f (h : Int)))).map Int.ofNat) := by
  unfold getCompleteHorizontalLines
  rw [completeLines_fold k f _ (fun h hh => List.mem_range.mp hh)]
  simp

theorem dropRemains_nil (k : Consts) (fuel : Nat) (f : Field) :
    dropRemains k fuel f [] = .ok f := by
  simp [dropRemains, eraseLines, pure, Except.pure]

/-- C8: for every board that has no complete row (each row has a cell that is not Fixed),
`attemptDescent` returns the field unchanged; and `dropRemains` called with an empty list
returns the field unchanged. -/
theorem C8_no_complete_row_unchanged (k : Consts) (fuel : Nat) (f : Field)
    (hrow : ∀ h : Nat, h < k.FIELD_HEIGHT →
      ∃ w : Nat, w < k.FIELD_WIDTH ∧ (f.cellAt (h : Int) (w : Int)).state ≠ .Fixed) :
    attemptDescent k fuel f = .ok f ∧ dropRemains k fuel f [] = .ok f := by
  refine ⟨?_, dropRemains_nil k fuel f⟩
  have hnil : (List.range k.FIELD_HEIGHT).filter
      (fun (h : Nat) => decide (completeRow k f (h : Int))) = [] := by
    rw [List.filter_eq_nil_iff]
    intro h hh
    obtain ⟨w, hw, hne⟩ := hrow h (List.mem_range.mp hh)
    simp only [decide_eq_true_eq]
    intro hc
    exact hne (hc w hw)
  unfold attemptDescent
  rw [getCompleteHorizontalLines_eq, hnil]
  simp

/-- Instance of C8: the 4 × 3 example field has a single Fixed cell, so no row is
complete and `attemptDescent` returns it unchanged. -/
theorem C8_no_complete_row_witness :
    (∀ h : Nat, h < exConsts.FIELD_HEIGHT →
      ∃ w : Nat, w < exConsts.FIELD_WIDTH ∧
        (exField.cellAt (h : Int) (w : Int)).state ≠ .Fixed) ∧
    attemptDescent exConsts 5 exField = .ok exField ∧
    dropRemains exConsts 5 exField [] = .ok exField :=
  ⟨by decide, C8_no_complete_row_unchanged exConsts 5 exField (by decide)⟩

/-! ### Rejected moves -/

/-- C4: for every field with a current piece `p` and every move among MoveLeft, MoveRight,
RotLeft, RotRight whose candidate `p.move` is illegal: if the move is a translation, or it
is a rotation and either the candidate does not exceed a side or the slid candidate is
still illegal, then `attempt` returns the field it was given (heap, board, curMino and
dropPredMino all as before). -/
theorem C4_rejected_move_unchanged (k : Consts) (fuel : Nat) (f : Field) (p : Mino)
    (move : Move) (hcur : f.curMino = some p)
    (hillegal : legalMove k f (p.move k move) = .ok false)
    (hrej : (move = .MoveLeft ∨ move = .MoveRight) ∨
      ((move = .RotLeft ∨ move = .RotRight) ∧
        ((checkExceedSide k (p.move k move)).1 = .noExceedSide ∨
          legalMove k f (slidCandidate k (p.move k move)) = .ok false))) :
    attempt k fuel f move = .ok f := by
  rcases hrej with (h | h) | ⟨h | h, hs⟩
  · subst h; simp [attempt, hcur, hillegal]
  · subst h; simp [attempt, hcur, hillegal]
  · subst h
    simp only [attempt, hcur, hillegal]
    unfold slidCandidate at hs
    rcases hce : checkExceedSide k (p.move k .RotLeft) with ⟨ex, n⟩
    rw [hce] at hs
    cases ex <;> simp_all
  · subst h
    simp only [attempt, hcur, hillegal]
    unfold slidCandidate at hs
    rcases hce : checkExceedSide k (p.move k .RotRight) with ⟨ex, n⟩
    rw [hce] at hs
    cases ex <;> simp_all

/-- Instance of C4: the single-cell piece at the left wall cannot move left; the field is
returned unchanged. -/
theorem C4_rejected_move_witness :
    attempt exConsts 6 exFieldCorner .MoveLeft = .ok exFieldCorner :=
  C4_rejected_move_unchanged exConsts 6 exFieldCorner ⟨[⟨0, 0⟩], 6⟩ .MoveLeft rfl
    rfl (Or.inl (Or.inl rfl))

/-! ### Writing and blanking a piece -/

theorem fresh_lt (k : Consts) (f : Field) (hf : f.fresh k) (h w : Int)
    (hb : inBoard k h w = true) : f.board (h, w) < f.next := by
  rw [inBoard_iff] at hb
  have := hf h.toNat (by omega) w.toNat (by omega)
  rwa [Int.toNat_of_nonneg hb.1, Int.toNat_of_nonneg hb.2.2.1] at this

theorem setCoords_spec (k : Consts) (s : State) (c : Color) (cs : List Coord) :
    ∀ f : Field, visibleOnBoard k cs → f.fresh k →
    ∃ g, setCoords k s c cs f = .ok g ∧ g.fresh k ∧ g.curMino = f.curMino ∧
      g.dropPredMino = f.dropPredMino ∧ f.next ≤ g.next ∧
      (∀ p, p < f.next → g.heap p = f.heap p) ∧
      (∀ h w, inBoard k h w = true →
        g.cellAt h w = if (⟨h, w⟩ : Coord) ∈ cs then ⟨s, c⟩ else f.cellAt h w) ∧
      (∀ h w, inBoard k h w = true → (⟨h, w⟩ : Coord) ∉ cs → g.board (h, w) = f.board (h, w)) := by
  induction cs with
  | nil =>
    intro f _ hf
    exact ⟨f, rfl, hf, rfl, rfl, le_refl _, fun _ _ => rfl, by simp, fun _ _ _ _ => rfl⟩
  | cons co cs ih =>
    intro f hv hf
    have hv1 := hv co (List.mem_cons_self _ _)
    have hvs : visibleOnBoard k cs := fun c hm => hv c (List.mem_cons_of_mem _ hm)
    unfold setCoords
    by_cases h3 : co.h < 0
    · obtain ⟨g, hg, hfr, hcur, hpred, hnext, hheap, hcell, hboard⟩ := ih f hvs hf
      refine ⟨g, by simp [Coord.isExceedTop, h3, hg], hfr, hcur, hpred, hnext, hheap, ?_, ?_⟩
      · intro h w hb
        have hne : (⟨h, w⟩ : Coord) ≠ co := by
          rintro rfl
          have h3a : h < 0 := h3
          rw [inBoard_iff] at hb; omega
        rw [hcell h w hb]
        simp [hne]
      · intro h w hb hnot
        exact hboard h w hb (fun hm => hnot (List.mem_cons_of_mem _ hm))
    · have hb1 : inBoard k co.h co.w = true := hv1 (by omega)
      -- the field after the allocation and the store
      let f2 : Field :=
        { f with
          heap := fun p => if p = f.next then ⟨s, c⟩ else f.heap p
          next := f.next + 1
          board := fun q => if q = (co.h, co.w) then f.next else f.board q }
      have hf2 : f2.fresh k := by
        intro h hh w hw
        show (if ((h : Int), (w : Int)) = (co.h, co.w) then f.next else f.board (↑h, ↑w))
          < f.next + 1
        have := hf h hh w hw
        split <;> omega
      obtain ⟨g, hg, hfr, hcur, hpred, hnext, hheap, hcell, hboard⟩ := ih f2 hvs hf2
      refine ⟨g, ?_, hfr, hcur, hpred, ?_, ?_, ?_, ?_⟩
      · simp only [Coord.isExceedTop, h3, decide_False, Bool.false_eq_true, if_false, newCell,
          Coord.getHeight, Coord.getWidth, setCell, hb1, if_true]
        exact hg
      · have : f2.next = f.next + 1 := rfl
        omega
      · intro p hp
        rw [hheap p (by show p < f.next + 1; omega)]
        show (if p = f.next then _ else f.heap p) = f.heap p
        rw [if_neg (by omega)]
      · intro h w hb
        rw [hcell h w hb]
        by_cases hm : (⟨h, w⟩ : Coord) ∈ cs
        · simp [hm]
        · rw [if_neg hm]
          by_cases he : (⟨h, w⟩ : Coord) = co
          · subst he
            simp [Field.cellAt, f2]
          · have hne : (h, w) ≠ (co.h, co.w) := by
              intro hq
              apply he
              cases co
              simp only [Prod.mk.injEq] at hq
              simp [hq.1, hq.2]
            have hlt := fresh_lt k f hf h w hb
            have : ¬ f.board (h, w) = f.next := by omega
            simp [Field.cellAt, f2, hne, he, hm, this]
      · intro h w hb hnot
        have hm : (⟨h, w⟩ : Coord) ∉ cs := fun hm => hnot (List.mem_cons_of_mem _ hm)
        have he : (⟨h, w⟩ : Coord) ≠ co := fun he => hnot (he ▸ List.mem_cons_self _ _)
        have hne : (h, w) ≠ (co.h, co.w) := by
          intro hq
          apply he
          cases co
          simp only [Prod.mk.injEq] at hq
          simp [hq.1, hq.2]
        rw [hboard h w hb hm]
        simp [f2, hne]

theorem blankCoords_spec (k : Consts) (cs : List Coord) :
    ∀ f : Field, visibleOnBoard k cs →
    ∃ g, blankCoords k cs f = .ok g ∧ g.board = f.board ∧ g.next = f.next ∧
      g.curMino = f.curMino ∧ g.dropPredMino = f.dropPredMino ∧
      (∀ p, g.heap p =
        if ∃ c ∈ cs, 0 ≤ c.h ∧ f.board (c.h, c.w) = p then ⟨.VOID, k.colorVOID⟩
        else f.heap p) := by
  induction cs with
  | nil =>
    intro f _
    exact ⟨f, rfl, rfl, rfl, rfl, rfl, by simp⟩
  | cons co cs ih =>
    intro f hv
    have hv1 := hv co (List.mem_cons_self _ _)
    have hvs : visibleOnBoard k cs := fun c hm => hv c (List.mem_cons_of_mem _ hm)
    unfold blankCoords
    by_cases h3 : co.h < 0
    · obtain ⟨g, hg, hboard, hnext, hcur, hpred, hheap⟩ := ih f hvs
      refine ⟨g, by simp [Coord.isExceedTop, h3, hg], hboard, hnext, hcur, hpred, ?_⟩
      intro p
      rw [hheap p]
      have : ¬ (0 ≤ co.h) := by omega
      simp [this]
    · have hb1 : inBoard k co.h co.w = true := hv1 (by omega)
      obtain ⟨g, hg, hboard, hnext, hcur, hpred, hheap⟩ :=
        ih (toVoid k f (f.board (co.h, co.w))) hvs
      refine ⟨g, ?_, hboard, hnext, hcur, hpred, ?_⟩
      · simp only [Coord.isExceedTop, h3, decide_False, Bool.false_eq_true, if_false,
          Coord.getHeight, Coord.getWidth, getCell_ok k f _ _ hb1]
        exact hg
      · intro p
        rw [hheap p]
        have h0 : 0 ≤ co.h := by omega
        by_cases h1 : ∃ c ∈ cs, 0 ≤ c.h ∧ f.board (c.h, c.w) = p
        · have h2 : ∃ c ∈ co :: cs, 0 ≤ c.h ∧ f.board (c.h, c.w) = p := by
            obtain ⟨c, hc, hh⟩ := h1
            exact ⟨c, List.mem_cons_of_mem _ hc, hh⟩
          simp only [toVoid]
          rw [if_pos h1, if_pos h2]
        · by_cases h4 : f.board (co.h, co.w) = p
          · have h2 : ∃ c ∈ co :: cs, 0 ≤ c.h ∧ f.board (c.h, c.w) = p :=
              ⟨co, List.mem_cons_self _ _, h0, h4⟩
            simp only [toVoid]
            rw [if_neg h1, if_pos h2, if_pos h4.symm]
          · have h2 : ¬ ∃ c ∈ co :: cs, 0 ≤ c.h ∧ f.board (c.h, c.w) = p := by
              rintro ⟨c, hc, hh⟩
              rcases List.mem_cons.mp hc with rfl | hc
              · exact h4 hh.2
              · exact h1 ⟨c, hc, hh⟩
            simp only [toVoid]
            rw [if_neg h1, if_neg h2, if_neg (fun h => h4 h.symm)]

/-- Blanking a piece that lies on no Fixed cell changes no Fixed cell. -/
theorem blankCoords_fixedView (k : Consts) (cs : List Coord) (f g : Field)
    (hv : visibleOnBoard k cs) (hg : blankCoords k cs f = .ok g)
    (hnf : ∀ c ∈ cs, 0 ≤ c.h → (f.cellAt c.h c.w).state ≠ .Fixed) :
    ∀ h w, g.fixedView h w = f.fixedView h w := by
  obtain ⟨g1, hg1, hboard, _, _, _, hheap⟩ := blankCoords_spec k cs f hv
  rw [hg] at hg1
  cases hg1
  intro h w
  unfold Field.fixedView Field.cellAt
  rw [hboard, hheap]
  by_cases h1 : ∃ c ∈ cs, 0 ≤ c.h ∧ f.board (c.h, c.w) = f.board (h, w)
  · have hn : (f.heap (f.board (h, w))).state ≠ .Fixed := by
      obtain ⟨c, hc, h0, he⟩ := h1
      have hn := hnf c hc h0
      unfold Field.cellAt at hn
      rwa [he] at hn
    simp [h1, hn]
  · simp [h1]

theorem blankCoords_fresh (k : Consts) (cs : List Coord) (f g : Field)
    (hv : visibleOnBoard k cs) (hg : blankCoords k cs f = .ok g) (hf : f.fresh k) :
    g.fresh k := by
  obtain ⟨g1, hg1, hboard, hnext, _, _, _⟩ := blankCoords_spec k cs f hv
  rw [hg] at hg1
  cases hg1
  intro h hh w hw
  rw [hboard, hnext]
  exact hf h hh w hw

/-- C6: for every well-formed field with current piece `p`: if the piece obtained from `p`
by one downward step is at-bottom, then `attempt(MoveDrop)` returns a field in which every
coordinate of `p` with row at least 0 holds a Fixed cell of the colour of `p`, curMino and
dropPredMino are nil, and every board slot that is not a coordinate of `p` shows the same
cell (state and colour) as before; in particular the downward candidate is not drawn. -/
theorem C6_soft_drop_locks_current (k : Consts) (fuel : Nat) (f : Field) (p : Mino)
    (hwf : f.WF k) (hcur : f.curMino = some p)
    (hbot : atBottom k f (p.move k .MoveDrop) = .ok true) :
    ∃ g, attempt k fuel f .MoveDrop = .ok g ∧ g.curMino = none ∧ g.dropPredMino = none ∧
      (∀ c ∈ p.coords, 0 ≤ c.h → g.cellAt c.h c.w = ⟨.Fixed, p.color⟩) ∧
      (∀ h w, inBoard k h w = true → (⟨h, w⟩ : Coord) ∉ p.coords →
        g.cellAt h w = f.cellAt h w) := by
  obtain ⟨hfresh, hon, _⟩ := hwf
  rw [hcur] at hon
  have hv : visibleOnBoard k p.coords := hon
  obtain ⟨g, hg, _, hgcur, hgpred, _, _, hcell, _⟩ :=
    setCoords_spec k .Fixed p.color p.coords
      { f with curMino := none, dropPredMino := none } hv hfresh
  refine ⟨g, ?_, hgcur, hgpred, ?_, ?_⟩
  · simp only [attempt, hcur, hbot, setMino]
    simpa using hg
  · intro c hc h0
    have := hcell c.h c.w (hv c hc h0)
    rw [this, if_pos hc]
  · intro h w hb hnot
    rw [hcell h w hb, if_neg hnot]
    rfl

/-- Instance of C6: the single-cell piece at `(2, 1)` rests on the Fixed slot `(3, 1)`; a
soft drop locks it where it is. -/
theorem C6_soft_drop_locks_witness :
    exFieldLanding.WF exConsts ∧
    ∃ g, attempt exConsts 6 exFieldLanding .MoveDrop = .ok g ∧ g.curMino = none ∧
      g.dropPredMino = none ∧
      (∀ c ∈ (⟨[⟨2, 1⟩], 6⟩ : Mino).coords, 0 ≤ c.h → g.cellAt c.h c.w = ⟨.Fixed, 6⟩) ∧
      (∀ h w, inBoard exConsts h w = true → (⟨h, w⟩ : Coord) ∉ (⟨[⟨2, 1⟩], 6⟩ : Mino).coords →
        g.cellAt h w = exFieldLanding.cellAt h w) :=
  ⟨by decide, C6_soft_drop_locks_current exConsts 6 exFieldLanding ⟨[⟨2, 1⟩], 6⟩ (by decide)
    rfl rfl⟩

/-! ### Descent of a piece -/

theorem shift_zero (m : Mino) : m.shift 0 0 = m := by
  cases m with
  | mk coords color =>
    simp only [Mino.shift, Mino.mk.injEq, and_true]
    conv_rhs => rw [← List.map_id coords]
    apply List.map_congr_left
    intro c _
    cases c
    simp

theorem shift_shift (m : Mino) (a b : Int) : (m.shift a 0).shift b 0 = m.shift (a + b) 0 := by
  cases m with
  | mk coords color =>
    simp only [Mino.shift, Mino.mk.injEq, and_true, List.map_map]
    apply List.map_congr_left
    intro c _
    simp only [Function.comp, Coord.mk.injEq]
    constructor <;> ring

theorem move_drop (k : Consts) (m : Mino) : m.move k .MoveDrop = m.shift 1 0 := rfl

theorem shift_color (m : Mino) (a b : Int) : (m.shift a b).color = m.color := rfl

theorem mem_shift (m : Mino) (a b : Int) (c : Coord) :
    c ∈ (m.shift a b).coords ↔ ∃ c0 ∈ m.coords, c = ⟨c0.h + a, c0.w + b⟩ := by
  simp only [Mino.shift, List.mem_map]
  constructor
  · rintro ⟨c0, h0, rfl⟩; exact ⟨c0, h0, rfl⟩
  · rintro ⟨c0, h0, rfl⟩; exact ⟨c0, h0, rfl⟩

theorem colsInRange_shift (k : Consts) (m : Mino) (a : Int) (hc : colsInRange k m.coords) :
    colsInRange k (m.shift a 0).coords := by
  intro c hm
  obtain ⟨c0, h0, rfl⟩ := (mem_shift m a 0 c).mp hm
  have := hc c0 h0
  simp only
  omega

theorem atBottom_eq (k : Consts) (f : Field) (m : Mino) (hc : colsInRange k m.coords) :
    atBottom k f m = .ok (decide (∃ c ∈ m.coords, c.bottomOn k f)) :=
  bottomCoords_eq k f m.coords hc

theorem legalMove_eq (k : Consts) (f : Field) (m : Mino) :
    legalMove k f m = .ok (decide (∀ c ∈ m.coords, c.legalOn k f)) :=
  legalCoords_eq k f m.coords

theorem legalMove_true_iff (k : Consts) (f : Field) (m : Mino) :
    legalMove k f m = .ok true ↔ ∀ c ∈ m.coords, c.legalOn k f := by
  rw [legalMove_eq]; simp

theorem atBottom_false_iff (k : Consts) (f : Field) (m : Mino) (hc : colsInRange k m.coords) :
    atBottom k f m = .ok false ↔ ∀ c ∈ m.coords, ¬ c.bottomOn k f := by
  rw [atBottom_eq k f m hc]; simp

theorem atBottom_true_iff (k : Consts) (f : Field) (m : Mino) (hc : colsInRange k m.coords) :
    atBottom k f m = .ok true ↔ ∃ c ∈ m.coords, c.bottomOn k f := by
  rw [atBottom_eq k f m hc]; simp

/-- A piece is legal exactly when its columns are in range and it is not at-bottom. -/
theorem legal_iff_cols_not_bottom (k : Consts) (f : Field) (m : Mino) :
    legalMove k f m = .ok true ↔ colsInRange k m.coords ∧ atBottom k f m = .ok false := by
  constructor
  · intro hl
    rw [legalMove_true_iff] at hl
    have hc : colsInRange k m.coords := fun c hm => ⟨(hl c hm).1, (hl c hm).2.1⟩
    refine ⟨hc, (atBottom_false_iff k f m hc).mpr ?_⟩
    rintro c hm ⟨h0, hh | hh⟩
    · have := (hl c hm).2.2.1; omega
    · exact (hl c hm).2.2.2 h0 hh
  · rintro ⟨hc, hb⟩
    rw [atBottom_false_iff k f m hc] at hb
    rw [legalMove_true_iff]
    intro c hm
    have h1 := hc c hm
    have h2 := hb c hm
    unfold Coord.bottomOn at h2
    refine ⟨h1.1, h1.2, ?_, ?_⟩
    · by_contra hh
      exact h2 ⟨by omega, Or.inl (by omega)⟩
    · intro h0 hfx
      exact h2 ⟨h0, Or.inr hfx⟩

theorem legal_visibleOnBoard (k : Consts) (f : Field) (m : Mino)
    (hl : legalMove k f m = .ok true) : visibleOnBoard k m.coords := by
  rw [legalMove_true_iff] at hl
  intro c hm h0
  have := hl c hm
  unfold Coord.legalOn at this
  rw [inBoard_iff]
  omega

/-- A non-empty piece with columns in range is at-bottom after enough downward steps. -/
theorem atBottom_eventually (k : Consts) (f : Field) (m : Mino) (hne : m.coords ≠ [])
    (hc : colsInRange k m.coords) :
    ∃ J : Nat, atBottom k f (m.shift (J : Int) 0) = .ok true := by
  obtain ⟨c0, hc0⟩ := List.exists_mem_of_ne_nil _ hne
  refine ⟨((k.FIELD_HEIGHT : Int) - c0.h).toNat, ?_⟩
  rw [atBottom_true_iff k f _ (colsInRange_shift k m _ hc)]
  refine ⟨⟨c0.h + (((k.FIELD_HEIGHT : Int) - c0.h).toNat : Int), c0.w + 0⟩,
    (mem_shift m _ 0 _).mpr ⟨c0, hc0, rfl⟩, ?_, Or.inl ?_⟩
  · simp only; omega
  · simp only; omega

/-- The depth of the descent: the piece is not at-bottom after `0 .. d` steps and is
at-bottom after `d + 1` steps. -/
theorem exists_depth (k : Consts) (f : Field) (m : Mino) (hne : m.coords ≠ [])
    (hl : legalMove k f m = .ok true) :
    ∃ d : Nat, (∀ j : Nat, j ≤ d → atBottom k f (m.shift (j : Int) 0) = .ok false) ∧
      atBottom k f (m.shift ((d : Int) + 1) 0) = .ok true := by
  obtain ⟨hc, hb0⟩ := (legal_iff_cols_not_bottom k f m).mp hl
  have hex := atBottom_eventually k f m hne hc
  classical
  have hfind := Nat.find_spec hex
  have hmin := fun j => Nat.find_min hex (m := j)
  have hpos : Nat.find hex ≠ 0 := by
    intro h0
    rw [h0] at hfind
    simp only [Nat.cast_zero, shift_zero] at hfind
    rw [hb0] at hfind
    cases hfind
  obtain ⟨d, hd⟩ := Nat.exists_eq_succ_of_ne_zero hpos
  refine ⟨d, ?_, ?_⟩
  · intro j hj
    have hnot := hmin j (by omega)
    have hcj := colsInRange_shift k m (j : Int) hc
    rw [atBottom_eq k f _ hcj] at hnot ⊢
    simpa using hnot
  · rw [hd] at hfind
    simpa using hfind

theorem hardDropLoop_depth (k : Consts) (f : Field) (m : Mino) (d : Nat)
    (hlow : ∀ j : Nat, j ≤ d → atBottom k f (m.shift (j : Int) 0) = .ok false)
    (hhit : atBottom k f (m.shift ((d : Int) + 1) 0) = .ok true) :
    ∀ (n i : Nat) (prev : Option Mino) (fuel : Nat), i + n = d → n + 2 ≤ fuel →
      hardDropLoop k f fuel (m.shift (i : Int) 0) prev = .ok (some (m.shift (d : Int) 0)) := by
  intro n
  induction n with
  | zero =>
    intro i prev fuel hi hfuel
    have hid : i = d := by omega
    subst hid
    obtain ⟨fuel1, rfl⟩ : ∃ x, fuel = x + 2 := ⟨fuel - 2, by omega⟩
    simp only [hardDropLoop, hlow i (le_refl _), move_drop, shift_shift, hhit]
  | succ n ih =>
    intro i prev fuel hi hfuel
    obtain ⟨fuel1, rfl⟩ : ∃ x, fuel = x + 1 := ⟨fuel - 1, by omega⟩
    simp only [hardDropLoop, hlow i (by omega), move_drop, shift_shift]
    have := ih (i + 1) (some (m.shift (i : Int) 0)) fuel1 (by omega) (by omega)
    simpa using this

/-! ### Accepted moves -/

theorem fixedView_none_iff (f : Field) (h w : Int) :
    f.fixedView h w = none ↔ (f.cellAt h w).state ≠ .Fixed := by
  unfold Field.fixedView
  split <;> simp_all

theorem sameFixed_refl (k : Consts) (f : Field) : sameFixed k f f := fun _ _ _ => rfl

theorem sameFixed_trans (k : Consts) (f g e : Field) (h1 : sameFixed k f g)
    (h2 : sameFixed k g e) : sameFixed k f e :=
  fun h w hb => (h2 h w hb).trans (h1 h w hb)

theorem offFixed_of_sameFixed (k : Consts) (f g : Field) (cs : List Coord)
    (hs : sameFixed k f g) (hv : visibleOnBoard k cs) (ho : offFixed f cs) : offFixed g cs := by
  intro c hc h0
  rw [← fixedView_none_iff, hs c.h c.w (hv c hc h0), fixedView_none_iff]
  exact ho c hc h0

theorem legal_offFixed (k : Consts) (f : Field) (m : Mino) (hl : legalMove k f m = .ok true) :
    offFixed f m.coords := by
  rw [legalMove_true_iff] at hl
  intro c hc h0
  exact (hl c hc).2.2.2 h0

theorem blank_sameFixed (k : Consts) (f g : Field) (m : Mino)
    (hv : visibleOnBoard k m.coords) (ho : offFixed f m.coords) (hg : blank k f m = .ok g) :
    sameFixed k f g :=
  fun h w _ => blankCoords_fixedView k m.coords f g hv hg ho h w

/-- Drawing a piece in a state other than Fixed on slots that are not Fixed keeps the Fixed
cells. -/
theorem setCoords_sameFixed (k : Consts) (s : State) (c : Color) (cs : List Coord) (f g : Field)
    (hs : s ≠ .Fixed) (hv : visibleOnBoard k cs) (hf : f.fresh k) (ho : offFixed f cs)
    (hg : setCoords k s c cs f = .ok g) : sameFixed k f g := by
  obtain ⟨g1, hg1, _, _, _, _, _, hcell, _⟩ := setCoords_spec k s c cs f hv hf
  rw [hg] at hg1
  cases hg1
  intro h w hb
  unfold Field.fixedView
  rw [hcell h w hb]
  by_cases hm : (⟨h, w⟩ : Coord) ∈ cs
  · have h0 : 0 ≤ h := by rw [inBoard_iff] at hb; exact hb.1
    have := ho ⟨h, w⟩ hm h0
    simp [hm, hs, this]
  · simp [hm]

/-- Locking a piece: the Fixed cells afterwards are the old ones and the visible
coordinates of the piece, in the colour given. -/
theorem setCoords_fixedView (k : Consts) (c : Color) (cs : List Coord) (f g : Field)
    (hv : visibleOnBoard k cs) (hf : f.fresh k) (hg : setCoords k .Fixed c cs f = .ok g) :
    ∀ h w, inBoard k h w = true →
      g.fixedView h w = if (⟨h, w⟩ : Coord) ∈ cs then some c else f.fixedView h w := by
  obtain ⟨g1, hg1, _, _, _, _, _, hcell, _⟩ := setCoords_spec k .Fixed c cs f hv hf
  rw [hg] at hg1
  cases hg1
  intro h w hb
  unfold Field.fixedView
  rw [hcell h w hb]
  by_cases hm : (⟨h, w⟩ : Coord) ∈ cs
  · simp [hm]
  · simp [hm]

theorem acceptMove_spec (k : Consts) (fuel : Nat) (f : Field) (p new_m q : Mino)
    (hwf : f.WF k) (hcur : f.curMino = some p)
    (hnew : legalMove k f new_m = .ok true)
    (hdrop : getHardDropMino k fuel f (some new_m) = .ok (some q))
    (hq : legalMove k f q = .ok true) :
    ∃ g, acceptMove k fuel f new_m = .ok g ∧ g.WF k ∧ g.curMino = some new_m ∧
      g.dropPredMino = some q ∧
      (offFixed f p.coords →
        (∀ old, f.dropPredMino = some old → offFixed f old.coords) → sameFixed k f g) := by
  obtain ⟨hfresh, hon, hpon⟩ := hwf
  rw [hcur] at hon
  have hvp : visibleOnBoard k p.coords := hon
  have hvq := legal_visibleOnBoard k f q hq
  have hvn := legal_visibleOnBoard k f new_m hnew
  -- step 1: blank the old preview, if any
  have step1 : ∃ f1, (match f.dropPredMino with
        | none => (.ok f : Except Fault Field)
        | some old => blank k f old) = .ok f1 ∧ f1.fresh k ∧ f1.curMino = some p ∧
        ((∀ old, f.dropPredMino = some old → offFixed f old.coords) → sameFixed k f f1) := by
    cases hpred : f.dropPredMino with
    | none => exact ⟨f, rfl, hfresh, hcur, fun _ => sameFixed_refl k f⟩
    | some old =>
      rw [hpred] at hpon
      have hvo : visibleOnBoard k old.coords := hpon
      obtain ⟨f1, hf1, hb, hn, hc, _, _⟩ := blankCoords_spec k old.coords f hvo
      refine ⟨f1, hf1, blankCoords_fresh k old.coords f f1 hvo hf1 hfresh, by rw [hc, hcur], ?_⟩
      intro ho
      exact blank_sameFixed k f f1 old hvo (ho old rfl) hf1
  obtain ⟨f1, hf1, hfresh1, hcur1, hsame1⟩ := step1
  -- step 2: draw the new preview
  obtain ⟨f2, hf2, hfresh2, hcur2, hpred2, _, _, _, _⟩ :=
    setCoords_spec k .DropPred k.colorDropPred q.coords { f1 with dropPredMino := some q }
      hvq hfresh1
  -- step 3: blank the current piece
  obtain ⟨f3, hf3, hb3, hn3, hcur3, hpred3, _⟩ := blankCoords_spec k p.coords f2 hvp
  have hfresh3 := blankCoords_fresh k p.coords f2 f3 hvp hf3 hfresh2
  -- step 4: draw the accepted piece
  obtain ⟨g, hg, hfreshg, hcurg, hpredg, _, _, _, _⟩ :=
    setCoords_spec k .Falling new_m.color new_m.coords { f3 with curMino := some new_m }
      hvn hfresh3
  have hsd : setDropPredMino k fuel f (some new_m) = .ok f2 := by
    unfold setDropPredMino
    rw [hdrop]
    cases hpred : f.dropPredMino with
    | none =>
      rw [hpred] at hf1
      cases hf1
      simpa [setMino] using hf2
    | some old =>
      rw [hpred] at hf1
      simp only at hf1 ⊢
      rw [hf1]
      simpa [setMino] using hf2
  refine ⟨g, ?_, ⟨hfreshg, ?_, ?_⟩, hcurg, ?_, ?_⟩
  · unfold acceptMove
    rw [hsd]
    have : f2.curMino = some p := by rw [hcur2]; exact hcur1
    simp only [this, moveMino, blank, hf3, setMino]
    exact hg
  · rw [hcurg]; exact hvn
  · rw [hpredg]
    show minoOnBoard k f3.dropPredMino
    rw [hpred3, hpred2]; exact hvq
  · rw [hpredg]
    show f3.dropPredMino = some q
    rw [hpred3, hpred2]
  · intro hop hoo
    have s1 := hsame1 hoo
    have s2 : sameFixed k f1 f2 :=
      setCoords_sameFixed k .DropPred k.colorDropPred q.coords
        { f1 with dropPredMino := some q } f2 (by decide) hvq hfresh1
        (offFixed_of_sameFixed k f f1 q.coords s1 hvq (legal_offFixed k f q hq)) hf2
    have s12 := sameFixed_trans k f f1 f2 s1 s2
    have s3 : sameFixed k f2 f3 :=
      blank_sameFixed k f2 f3 p hvp (offFixed_of_sameFixed k f f2 p.coords s12 hvp hop) hf3
    have s123 := sameFixed_trans k f f2 f3 s12 s3
    have s4 : sameFixed k f3 g :=
      setCoords_sameFixed k .Falling new_m.color new_m.coords
        { f3 with curMino := some new_m } g (by decide) hvn hfresh3
        (offFixed_of_sameFixed k f f3 new_m.coords s123 hvn (legal_offFixed k f new_m hnew)) hg
    exact sameFixed_trans k f f3 g s123 s4

/-! ### Rotation with side-slide correction -/

theorem slide_right (k : Consts) (n : Nat) (m : Mino) :
    slide k .MoveRight n m = m.shift 0 (n : Int) := by
  induction n generalizing m with
  | zero => simp [slide, shift_zero]
  | succ n ih =>
    simp only [slide, Mino.move, ih]
    cases m with
    | mk coords color =>
      simp only [Mino.shift, Mino.mk.injEq, and_true, List.map_map]
      apply List.map_congr_left
      intro c _
      simp only [Function.comp, Coord.mk.injEq]
      constructor <;> push_cast <;> ring

theorem slide_left (k : Consts) (n : Nat) (m : Mino) :
    slide k .MoveLeft n m = m.shift 0 (-(n : Int)) := by
  induction n generalizing m with
  | zero => simp [slide, shift_zero]
  | succ n ih =>
    simp only [slide, Mino.move, ih]
    cases m with
    | mk coords color =>
      simp only [Mino.shift, Mino.mk.injEq, and_true, List.map_map]
      apply List.map_congr_left
      intro c _
      simp only [Function.comp, Coord.mk.injEq]
      constructor <;> push_cast <;> ring

/-- The first loop of `checkExceedSide` raises a flag exactly when a coordinate with row ≥ 0
exceeds a side, and never both flags. -/
theorem exceedFlags_spec (k : Consts) (cs : List Coord) :
    (exceedFlags k cs = (false, false) ↔
      ∀ c ∈ cs, 0 ≤ c.h → 0 ≤ c.w ∧ c.w < (k.FIELD_WIDTH : Int)) ∧
    exceedFlags k cs ≠ (true, true) := by
  induction cs with
  | nil => simp [exceedFlags]
  | cons c cs ih =>
    unfold exceedFlags
    by_cases h3 : c.h < 0
    · have : ¬ 0 ≤ c.h := by omega
      simp [Coord.isExceedTop, h3, ih, this]
    · by_cases h1 : c.w < 0
      · simp only [Coord.isExceedTop, h3, Coord.getWidth, h1]
        refine ⟨?_, by simp⟩
        simp only [decide_False, Bool.false_eq_true, if_false, if_true, Prod.mk.injEq,
          Bool.true_eq_false, false_and, false_iff, not_forall]
        exact ⟨c, List.mem_cons_self _ _, by omega, by omega⟩
      · by_cases h2 : (k.FIELD_WIDTH : Int) ≤ c.w
        · simp only [Coord.isExceedTop, h3, Coord.getWidth, h1, h2]
          refine ⟨?_, by simp⟩
          simp only [decide_False, Bool.false_eq_true, if_false, if_true, Prod.mk.injEq,
            Bool.true_eq_false, and_false, false_iff, not_forall]
          exact ⟨c, List.mem_cons_self _ _, by omega, by omega⟩
        · simp only [Coord.isExceedTop, h3, Coord.getWidth, h1, h2]
          refine ⟨?_, ih.2⟩
          simp only [decide_False, Bool.false_eq_true, if_false, ih.1, List.mem_cons,
            forall_eq_or_imp]
          constructor
          · intro h; exact ⟨fun _ => by omega, h⟩
          · intro h; exact h.2

theorem checkExceedSide_none_iff (k : Consts) (m : Mino) :
    (checkExceedSide k m).1 = .noExceedSide ↔
      ∀ c ∈ m.coords, 0 ≤ c.h → 0 ≤ c.w ∧ c.w < (k.FIELD_WIDTH : Int) := by
  rw [← (exceedFlags_spec k m.coords).1]
  unfold checkExceedSide
  rcases hfl : exceedFlags k m.coords with ⟨a, b⟩
  cases a <;> cases b <;> simp

/-- In `attempt`, a rotation whose candidate is illegal and is reported as exceeding a side
is decided by the legality of the slid candidate alone. -/
theorem attempt_rot_slide (k : Consts) (fuel : Nat) (f : Field) (p : Mino) (mv : Move)
    (hmv : mv = .RotLeft ∨ mv = .RotRight) (hcur : f.curMino = some p)
    (hill : legalMove k f (p.move k mv) = .ok false)
    (hex : (checkExceedSide k (p.move k mv)).1 ≠ .noExceedSide) :
    attempt k fuel f mv =
      match legalMove k f (slidCandidate k (p.move k mv)) with
      | .error e => .error e
      | .ok false => .ok f
      | .ok true => acceptMove k fuel f (slidCandidate k (p.move k mv)) := by
  have hne : mv ≠ .MoveHardDrop := by rcases hmv with h | h <;> simp [h]
  have hnd : mv ≠ .MoveDrop := by rcases hmv with h | h <;> simp [h]
  unfold slidCandidate
  simp only [attempt, hne, hnd, if_false, hcur, hill, hmv, if_true]
  rcases hce : checkExceedSide k (p.move k mv) with ⟨ex, n⟩
  rw [hce] at hex
  cases ex
  · rfl
  · rfl
  · exact absurd rfl hex

/-- The preview loop finishes on every legal non-empty piece, given enough fuel, and
returns a legal translate of the piece. -/
theorem getHardDropMino_legal (k : Consts) (f : Field) (m : Mino) (hne : m.coords ≠ [])
    (hl : legalMove k f m = .ok true) :
    ∃ (d : Nat), legalMove k f (m.shift (d : Int) 0) = .ok true ∧
      atBottom k f (m.shift ((d : Int) + 1) 0) = .ok true ∧
      ∀ fuel, d + 2 ≤ fuel →
        getHardDropMino k fuel f (some m) = .ok (some (m.shift (d : Int) 0)) := by
  obtain ⟨d, hlow, hhit⟩ := exists_depth k f m hne hl
  have hc := ((legal_iff_cols_not_bottom k f m).mp hl).1
  refine ⟨d, ?_, hhit, ?_⟩
  · exact (legal_iff_cols_not_bottom k f _).mpr
      ⟨colsInRange_shift k m _ hc, hlow d (le_refl _)⟩
  · intro fuel hfuel
    have := hardDropLoop_depth k f m d hlow hhit d 0 f.curMino fuel (by omega) hfuel
    simpa [getHardDropMino, shift_zero] using this

theorem slidCandidate_shift (k : Consts) (m : Mino) :
    slidCandidate k m = m.shift 0 ((checkExceedSide k m).2 : Int) ∨
    slidCandidate k m = m.shift 0 (-((checkExceedSide k m).2 : Int)) ∨
    slidCandidate k m = m := by
  unfold slidCandidate
  rcases hce : checkExceedSide k m with ⟨ex, n⟩
  cases ex
  · exact Or.inl (slide_right k n m)
  · exact Or.inr (Or.inl (slide_left k n m))
  · exact Or.inr (Or.inr rfl)

theorem slidCandidate_ne_nil (k : Consts) (m : Mino) (hne : m.coords ≠ []) :
    (slidCandidate k m).coords ≠ [] := by
  rcases slidCandidate_shift k m with h | h | h <;> rw [h]
  · simpa [Mino.shift] using hne
  · simpa [Mino.shift] using hne
  · exact hne

/-- C5 as stated fails: on the 4 × 5 example field the rotated candidate (Fig2) has one
cell left of the wall and is three columns wide; the candidate moved two columns toward
the interior is legal, but `attempt` only tries one column, where slot `(0, 2)` is Fixed,
and returns the field unchanged with the unrotated piece still current. -/
theorem C5_counterexample :
    exFieldRot.curMino = some exMinoL ∧
    exMinoL.move exConstsRot .RotLeft = exMinoLRot ∧
    (∃ c ∈ exMinoLRot.coords, 0 ≤ c.h ∧ c.w < 0) ∧
    legalMove exConstsRot exFieldRot (exMinoLRot.shift 0 2) = .ok true ∧
    (∀ fuel, attempt exConstsRot fuel exFieldRot .RotLeft = .ok exFieldRot) ∧
    (∀ s : Int, exFieldRot.curMino ≠ some (exMinoLRot.shift 0 s)) := by
  refine ⟨rfl, rfl, by decide, rfl, ?_, ?_⟩
  · intro fuel
    rw [attempt_rot_slide exConstsRot fuel exFieldRot exMinoL .RotLeft (Or.inl rfl) rfl rfl
      (by decide)]
    rfl
  · intro s
    simp [exFieldRot, exMinoL, exMinoLRot, Mino.shift]

/-! ### Soft drops against a hard drop -/

theorem hardDropLoop_mono (k : Consts) (f : Field) :
    ∀ (fuel : Nat) (m : Mino) (prev r : Option Mino),
      hardDropLoop k f fuel m prev = .ok r →
      ∀ extra, hardDropLoop k f (fuel + extra) m prev = .ok r := by
  intro fuel
  induction fuel with
  | zero => intro m prev r h; simp [hardDropLoop] at h
  | succ fuel ih =>
    intro m prev r h extra
    have he : fuel + 1 + extra = (fuel + extra) + 1 := by omega
    rw [he]
    unfold hardDropLoop at h ⊢
    rcases hb : atBottom k f m with e | b
    · rw [hb] at h; simp at h
    · rw [hb] at h
      cases b
      · simp only at h ⊢
        exact ih _ _ _ h extra
      · simpa using h

theorem bottomOn_congr (k : Consts) (f g : Field) (hs : sameFixed k f g) (c : Coord)
    (hc : 0 ≤ c.w ∧ c.w < (k.FIELD_WIDTH : Int)) : c.bottomOn k g ↔ c.bottomOn k f := by
  unfold Coord.bottomOn
  by_cases hh : (k.FIELD_HEIGHT : Int) ≤ c.h
  · simp [hh]
  · by_cases h0 : 0 ≤ c.h
    · have hb : inBoard k c.h c.w = true := by rw [inBoard_iff]; omega
      have h1 := hs c.h c.w hb
      have : (g.cellAt c.h c.w).state = .Fixed ↔ (f.cellAt c.h c.w).state = .Fixed := by
        have hg := fixedView_none_iff g c.h c.w
        have hf := fixedView_none_iff f c.h c.w
        rw [h1] at hg
        constructor
        · intro h; by_contra hn; exact (hg.mp (hf.mpr hn)) h
        · intro h; by_contra hn; exact (hf.mp (hg.mpr hn)) h
      simp [hh, h0, this]
    · simp [h0]

theorem atBottom_congr (k : Consts) (f g : Field) (hs : sameFixed k f g) (m : Mino)
    (hc : colsInRange k m.coords) : atBottom k g m = atBottom k f m := by
  rw [atBottom_eq k g m hc, atBottom_eq k f m hc]
  congr 1
  apply decide_eq_decide.mpr
  constructor
  · rintro ⟨c, hm, hb⟩; exact ⟨c, hm, (bottomOn_congr k f g hs c (hc c hm)).mp hb⟩
  · rintro ⟨c, hm, hb⟩; exact ⟨c, hm, (bottomOn_congr k f g hs c (hc c hm)).mpr hb⟩

theorem legalMove_congr (k : Consts) (f g : Field) (hs : sameFixed k f g) (m : Mino)
    (hl : legalMove k f m = .ok true) : legalMove k g m = .ok true := by
  obtain ⟨hc, hb⟩ := (legal_iff_cols_not_bottom k f m).mp hl
  exact (legal_iff_cols_not_bottom k g m).mpr ⟨hc, by rw [atBottom_congr k f g hs m hc]; exact hb⟩

theorem setMino_fixed_spec (k : Consts) (f : Field) (m : Mino) (hf : f.fresh k)
    (hv : visibleOnBoard k m.coords) :
    ∃ g, setMino k f (some m) .Fixed = .ok g ∧ g.curMino = none ∧ g.dropPredMino = none ∧
      ∀ h w, inBoard k h w = true →
        g.fixedView h w = if (⟨h, w⟩ : Coord) ∈ m.coords then some m.color
          else f.fixedView h w := by
  obtain ⟨g, hg, _, hcur, hpred, _, _, _, _⟩ :=
    setCoords_spec k .Fixed m.color m.coords
      { f with curMino := none, dropPredMino := none } hv hf
  refine ⟨g, by simpa [setMino] using hg, hcur, hpred, ?_⟩
  exact setCoords_fixedView k m.color m.coords
      { f with curMino := none, dropPredMino := none } g hv hf hg

/-- A hard drop locks the piece that the descent loop returns. -/
theorem hardDrop_locks (k : Consts) (fuel : Nat) (f : Field) (p q : Mino)
    (hwf : f.WF k) (hcur : f.curMino = some p) (hleg : legalMove k f p = .ok true)
    (hdrop : getHardDropMino k fuel f (some p) = .ok (some q))
    (hq : legalMove k f q = .ok true) :
    ∃ g, attempt k fuel f .MoveHardDrop = .ok g ∧ g.curMino = none ∧
      ∀ h w, inBoard k h w = true →
        g.fixedView h w = if (⟨h, w⟩ : Coord) ∈ q.coords then some q.color
          else f.fixedView h w := by
  obtain ⟨hfresh, _, _⟩ := hwf
  have hvp := legal_visibleOnBoard k f p hleg
  have hvq := legal_visibleOnBoard k f q hq
  obtain ⟨f1, hf1, _, _, _, _, _⟩ := blankCoords_spec k p.coords f hvp
  have hfresh1 := blankCoords_fresh k p.coords f f1 hvp hf1 hfresh
  have s1 : sameFixed k f f1 := blank_sameFixed k f f1 p hvp (legal_offFixed k f p hleg) hf1
  obtain ⟨f2, hf2, hfresh2, hcur2, _, _, _, _, _⟩ :=
    setCoords_spec k .Falling q.color q.coords { f1 with curMino := some q } hvq hfresh1
  have s2 : sameFixed k f1 f2 :=
    setCoords_sameFixed k .Falling q.color q.coords { f1 with curMino := some q } f2
      (by decide) hvq hfresh1
      (offFixed_of_sameFixed k f f1 q.coords s1 hvq (legal_offFixed k f q hq)) hf2
  obtain ⟨g, hg, hgcur, _, hview⟩ := setMino_fixed_spec k f2 q hfresh2 hvq
  refine ⟨g, ?_, hgcur, ?_⟩
  · have hc2 : f2.curMino = some q := hcur2
    simp only [attempt, if_true, hcur, hdrop, moveMino, blank, hf1, setMino]
    rw [hf2]
    simp only [hc2]
    simpa [setMino] using hg
  · intro h w hb
    rw [hview h w hb, s2 h w hb, s1 h w hb]

/-- Soft drops from the piece `i` rows below `p` down to the resting depth `d` end with the
piece at depth `d` locked. -/
theorem softDrop_locks (k : Consts) (fuel : Nat) (f : Field) (p : Mino) (d : Nat)
    (hc : colsInRange k p.coords)
    (hlow : ∀ j : Nat, j ≤ d → atBottom k f (p.shift (j : Int) 0) = .ok false)
    (hhit : atBottom k f (p.shift ((d : Int) + 1) 0) = .ok true)
    (hfuel : d + 2 ≤ fuel) :
    ∀ (r i n : Nat) (fi : Field), i + r = d → r + 1 ≤ n →
      fi.WF k → fi.curMino = some (p.shift (i : Int) 0) →
      fi.dropPredMino = some (p.shift (d : Int) 0) → sameFixed k f fi →
      ∃ g, softDropUntilLock k fuel n fi = .ok g ∧ g.curMino = none ∧
        ∀ h w, inBoard k h w = true →
          g.fixedView h w = if (⟨h, w⟩ : Coord) ∈ (p.shift (d : Int) 0).coords
            then some p.color else f.fixedView h w := by
  have hlegal : ∀ j : Nat, j ≤ d → legalMove k f (p.shift (j : Int) 0) = .ok true :=
    fun j hj => (legal_iff_cols_not_bottom k f _).mpr ⟨colsInRange_shift k p _ hc, hlow j hj⟩
  intro r
  induction r with
  | zero =>
    intro i n fi hi hn hwf hcur hpred hs
    have hid : i = d := by omega
    subst hid
    obtain ⟨n1, rfl⟩ : ∃ x, n = x + 1 := ⟨n - 1, by omega⟩
    have hb : atBottom k fi ((p.shift (i : Int) 0).move k .MoveDrop) = .ok true := by
      rw [move_drop, shift_shift,
        atBottom_congr k f fi hs _ (colsInRange_shift k p _ hc)]
      exact hhit
    have hv : visibleOnBoard k (p.shift (i : Int) 0).coords :=
      legal_visibleOnBoard k f _ (hlegal i (le_refl _))
    obtain ⟨g, hg, hgcur, _, hview⟩ := setMino_fixed_spec k fi _ hwf.1 hv
    refine ⟨g, ?_, hgcur, ?_⟩
    · simp only [softDropUntilLock, attempt, hcur, hb]
      simp only [reduceCtorEq, if_false, if_true, hg, hgcur]
    · intro h w hb
      rw [hview h w hb, hs h w hb, shift_color]
  | succ r ih =>
    intro i n fi hi hn hwf hcur hpred hs
    obtain ⟨n1, rfl⟩ : ∃ x, n = x + 1 := ⟨n - 1, by omega⟩
    have hcn := colsInRange_shift k p ((i : Int) + 1) hc
    have hb : atBottom k fi ((p.shift (i : Int) 0).move k .MoveDrop) = .ok false := by
      rw [move_drop, shift_shift, atBottom_congr k f fi hs _ hcn]
      have := hlow (i + 1) (by omega)
      simpa using this
    have hnew : legalMove k fi ((p.shift (i : Int) 0).move k .MoveDrop) = .ok true := by
      rw [move_drop, shift_shift]
      have := hlegal (i + 1) (by omega)
      exact legalMove_congr k f fi hs _ (by simpa using this)
    have hq : legalMove k fi (p.shift (d : Int) 0) = .ok true :=
      legalMove_congr k f fi hs _ (hlegal d (le_refl _))
    have hlow1 : ∀ j : Nat, j ≤ d → atBottom k fi (p.shift (j : Int) 0) = .ok false := by
      intro j hj
      rw [atBottom_congr k f fi hs _ (colsInRange_shift k p _ hc)]
      exact hlow j hj
    have hhit1 : atBottom k fi (p.shift ((d : Int) + 1) 0) = .ok true := by
      rw [atBottom_congr k f fi hs _ (colsInRange_shift k p _ hc)]
      exact hhit
    have hdrop : getHardDropMino k fuel fi (some ((p.shift (i : Int) 0).move k .MoveDrop)) =
        .ok (some (p.shift (d : Int) 0)) := by
      rw [move_drop, shift_shift]
      have := hardDropLoop_depth k fi p d hlow1 hhit1 r (i + 1) fi.curMino fuel (by omega)
        (by omega)
      simpa [getHardDropMino] using this
    obtain ⟨g1, hg1, hwf1, hcur1, hpred1, hsame1⟩ :=
      acceptMove_spec k fuel fi _ _ _ hwf hcur hnew hdrop hq
    have hoff : offFixed fi (p.shift (i : Int) 0).coords :=
      legal_offFixed k fi _ (legalMove_congr k f fi hs _ (hlegal i (by omega)))
    have hs1 : sameFixed k fi g1 := by
      apply hsame1 hoff
      intro old hold
      rw [hpred] at hold
      cases hold
      exact legal_offFixed k fi _ hq
    have hcur1a : g1.curMino = some (p.shift (((i + 1 : Nat)) : Int) 0) := by
      rw [hcur1, move_drop, shift_shift]
      simp
    obtain ⟨g, hg, hgcur, hview⟩ :=
      ih (i + 1) n1 g1 (by omega) (by omega) hwf1 hcur1a hpred1
        (sameFixed_trans k f fi g1 hs hs1)
    refine ⟨g, ?_, hgcur, hview⟩
    have hatt : attempt k fuel fi .MoveDrop = .ok g1 := by
      simp only [attempt, hcur, hb, hnew]
      simpa using hg1
    simp only [softDropUntilLock, hatt, hcur1]
    exact hg

/-- C3: for every well-formed field whose current piece `p` is legal (and has at least one
cell) and whose preview piece `q` is the drop projection `getHardDropMino(p)`: with enough
fuel, repeating `attempt(MoveDrop)` until curMino is nil and a single
`attempt(MoveHardDrop)` from the same field both return, both leave curMino nil, and both
lock `q`: in each resulting board the Fixed cells are the Fixed cells of the starting board
together with the coordinates of `q`, the latter in the colour of `p`.  Hence the two
boards have Fixed cells at the same slots with the same colours. -/
theorem C3_soft_drops_equal_hard_drop (k : Consts) (f : Field) (p q : Mino) (fuel0 : Nat)
    (hwf : f.WF k) (hcur : f.curMino = some p) (hne : p.coords ≠ [])
    (hleg : legalMove k f p = .ok true) (hpred : f.dropPredMino = some q)
    (hproj : getHardDropMino k fuel0 f (some p) = .ok (some q)) :
    ∃ N, ∀ fuel n, N ≤ fuel → N ≤ n →
      ∃ g1 g2, softDropUntilLock k fuel n f = .ok g1 ∧
        attempt k fuel f .MoveHardDrop = .ok g2 ∧
        g1.curMino = none ∧ g2.curMino = none ∧
        (∀ h w, inBoard k h w = true →
          g1.fixedView h w =
            (if (⟨h, w⟩ : Coord) ∈ q.coords then some p.color else f.fixedView h w) ∧
          g2.fixedView h w =
            (if (⟨h, w⟩ : Coord) ∈ q.coords then some p.color else f.fixedView h w) ∧
          g1.fixedView h w = g2.fixedView h w) := by
  obtain ⟨d, hlow, hhit⟩ := exists_depth k f p hne hleg
  have hc := ((legal_iff_cols_not_bottom k f p).mp hleg).1
  have hqd : q = p.shift (d : Int) 0 := by
    have h1 := hardDropLoop_depth k f p d hlow hhit d 0 f.curMino (fuel0 + (d + 2))
      (by omega) (by omega)
    have h2 := hardDropLoop_mono k f fuel0 p f.curMino (some q)
      (by simpa [getHardDropMino] using hproj) (d + 2)
    simp only [Nat.cast_zero, shift_zero] at h1
    rw [h1] at h2
    cases h2
    rfl
  subst hqd
  have hq : legalMove k f (p.shift (d : Int) 0) = .ok true :=
    (legal_iff_cols_not_bottom k f _).mpr ⟨colsInRange_shift k p _ hc, hlow d (le_refl _)⟩
  refine ⟨d + 2, fun fuel n hfuel hn => ?_⟩
  have hdrop : getHardDropMino k fuel f (some p) = .ok (some (p.shift (d : Int) 0)) := by
    have := hardDropLoop_depth k f p d hlow hhit d 0 f.curMino fuel (by omega) (by omega)
    simpa [getHardDropMino, shift_zero] using this
  obtain ⟨g2, hg2, hcur2, hview2⟩ := hardDrop_locks k fuel f p _ hwf hcur hleg hdrop hq
  obtain ⟨g1, hg1, hcur1, hview1⟩ :=
    softDrop_locks k fuel f p d hc hlow hhit hfuel d 0 n f (by omega) (by omega) hwf
      (by simpa [shift_zero] using hcur) hpred (sameFixed_refl k f)
  refine ⟨g1, g2, hg1, hg2, hcur1, hcur2, fun h w hb => ?_⟩
  have e1 := hview1 h w hb
  have e2 := hview2 h w hb
  rw [shift_color] at e2
  exact ⟨e1, e2, e1.trans e2.symm⟩

/-- Instance of C3: on the 4 × 3 example the single cell at `(0, 1)` rests at `(2, 1)`
above the Fixed slot `(3, 1)`, by soft drops as by a hard drop. -/
theorem C3_soft_drops_equal_hard_drop_witness :
    exFieldFalling.WF exConsts ∧
    ∃ N, ∀ fuel n, N ≤ fuel → N ≤ n →
      ∃ g1 g2, softDropUntilLock exConsts fuel n exFieldFalling = .ok g1 ∧
        attempt exConsts fuel exFieldFalling .MoveHardDrop = .ok g2 ∧
        g1.curMino = none ∧ g2.curMino = none ∧
        (∀ h w, inBoard exConsts h w = true →
          g1.fixedView h w =
            (if (⟨h, w⟩ : Coord) ∈ (⟨[⟨2, 1⟩], 6⟩ : Mino).coords then some 6
              else exFieldFalling.fixedView h w) ∧
          g2.fixedView h w =
            (if (⟨h, w⟩ : Coord) ∈ (⟨[⟨2, 1⟩], 6⟩ : Mino).coords then some 6
              else exFieldFalling.fixedView h w) ∧
          g1.fixedView h w = g2.fixedView h w) :=
  ⟨by decide,
   C3_soft_drops_equal_hard_drop exConsts exFieldFalling ⟨[⟨0, 1⟩], 6⟩ ⟨[⟨2, 1⟩], 6⟩ 5
     (by decide) rfl (by decide) rfl rfl rfl⟩

/-! ### The loops of `dropRemains` -/

theorem eraseStep_fold (k : Consts) (h : Int) (hh : 0 ≤ h ∧ h < (k.FIELD_HEIGHT : Int))
    (l : List Nat) (hl : ∀ w ∈ l, w < k.FIELD_WIDTH) :
    ∀ f : Field, ∃ g, l.foldlM (eraseStep k h) f = .ok g ∧ g.board = f.board ∧
      g.next = f.next ∧ g.curMino = f.curMino ∧ g.dropPredMino = f.dropPredMino ∧
      ∀ p, g.heap p = if ∃ w ∈ l, f.board (h, (w : Int)) = p then voidCell k else f.heap p := by
  induction l with
  | nil => intro f; exact ⟨f, rfl, rfl, rfl, rfl, rfl, by simp⟩
  | cons w l ih =>
    intro f
    have hw := hl w (List.mem_cons_self _ _)
    have hb : inBoard k h (w : Int) = true := by rw [inBoard_iff]; omega
    obtain ⟨g, hg, hboard, hnext, hcur, hpred, hheap⟩ :=
      ih (fun w hm => hl w (List.mem_cons_of_mem _ hm)) (toVoid k f (f.board (h, (w : Int))))
    refine ⟨g, ?_, hboard, hnext, hcur, hpred, ?_⟩
    · simp only [List.foldlM_cons, eraseStep, getCell_ok k f _ _ hb, bind, Except.bind]
      exact hg
    · intro p
      rw [hheap p]
      simp only [toVoid, List.mem_cons, exists_eq_or_imp, voidCell]
      by_cases h1 : ∃ w ∈ l, f.board (h, (w : Int)) = p
      · simp [h1]
      · by_cases h2 : f.board (h, (w : Int)) = p
        · simp [h1, h2]
        · have h3 : ¬ p = f.board (h, (w : Int)) := fun e => h2 e.symm
          simp [h1, h2, h3]

theorem eraseLine_spec (k : Consts) (f : Field) (h : Int)
    (hh : 0 ≤ h ∧ h < (k.FIELD_HEIGHT : Int)) :
    ∃ g, eraseLine k f h = .ok g ∧ g.board = f.board ∧ g.next = f.next ∧
      g.curMino = f.curMino ∧ g.dropPredMino = f.dropPredMino ∧
      ∀ p, g.heap p =
        if ∃ w : Nat, w < k.FIELD_WIDTH ∧ f.board (h, (w : Int)) = p then voidCell k
        else f.heap p := by
  obtain ⟨g, hg, hboard, hnext, hcur, hpred, hheap⟩ :=
    eraseStep_fold k h hh (List.range k.FIELD_WIDTH) (fun w hw => List.mem_range.mp hw) f
  refine ⟨g, hg, hboard, hnext, hcur, hpred, ?_⟩
  intro p
  rw [hheap p]
  simp only [List.mem_range]

theorem eraseLines_spec (k : Consts) (lines : List Int)
    (hl : ∀ l ∈ lines, 0 ≤ l ∧ l < (k.FIELD_HEIGHT : Int)) :
    ∀ f : Field, ∃ g, eraseLines k f lines = .ok g ∧ g.board = f.board ∧ g.next = f.next ∧
      g.curMino = f.curMino ∧ g.dropPredMino = f.dropPredMino ∧
      ∀ p, g.heap p =
        if ∃ l ∈ lines, ∃ w : Nat, w < k.FIELD_WIDTH ∧ f.board (l, (w : Int)) = p
        then voidCell k else f.heap p := by
  induction lines with
  | nil => intro f; exact ⟨f, rfl, rfl, rfl, rfl, rfl, by simp⟩
  | cons l lines ih =>
    intro f
    obtain ⟨f1, hf1, hboard1, hnext1, hcur1, hpred1, hheap1⟩ :=
      eraseLine_spec k f l (hl l (List.mem_cons_self _ _))
    obtain ⟨g, hg, hboard, hnext, hcur, hpred, hheap⟩ :=
      ih (fun x hm => hl x (List.mem_cons_of_mem _ hm)) f1
    refine ⟨g, ?_, hboard.trans hboard1, hnext.trans hnext1, hcur.trans hcur1,
      hpred.trans hpred1, ?_⟩
    · simp only [eraseLines, List.foldlM_cons, hf1, bind, Except.bind]
      exact hg
    · intro p
      rw [hheap p, hheap1 p, hboard1]
      simp only [List.mem_cons, exists_eq_or_imp]
      by_cases h1 : ∃ x ∈ lines, ∃ w : Nat, w < k.FIELD_WIDTH ∧ f.board (x, (w : Int)) = p
      · simp [h1]
      · simp [h1]

theorem erasedMap_fold (k : Consts) (lines : List Int)
    (hl : ∀ l ∈ lines, 0 ≤ l ∧ l < (k.FIELD_HEIGHT : Int)) :
    ∀ e0 : Int → Bool, ∃ eMap, lines.foldlM (erasedMapStep k) e0 = .ok eMap ∧
      ∀ i, eMap i = true ↔ (i ∈ lines ∨ e0 i = true) := by
  induction lines with
  | nil => intro e0; exact ⟨e0, rfl, by simp⟩
  | cons l lines ih =>
    intro e0
    have h1 := hl l (List.mem_cons_self _ _)
    obtain ⟨eMap, he, hiff⟩ :=
      ih (fun x hm => hl x (List.mem_cons_of_mem _ hm)) (fun i => if i = l then true else e0 i)
    refine ⟨eMap, ?_, ?_⟩
    · simp only [List.foldlM_cons, erasedMapStep, h1, and_self, if_true, bind, Except.bind]
      exact he
    · intro i
      rw [hiff i]
      by_cases hi : i = l
      · simp [hi]
      · simp [hi]

theorem erasedMap_spec (k : Consts) (lines : List Int)
    (hl : ∀ l ∈ lines, 0 ≤ l ∧ l < (k.FIELD_HEIGHT : Int)) :
    ∃ eMap, erasedMap k lines = .ok eMap ∧ ∀ i, eMap i = true ↔ i ∈ lines := by
  obtain ⟨eMap, he, hiff⟩ := erasedMap_fold k lines hl (fun _ => false)
  exact ⟨eMap, he, fun i => by rw [hiff i]; simp⟩

theorem copyStep_fold (k : Consts) (dst src : Int)
    (hd : 0 ≤ dst ∧ dst < (k.FIELD_HEIGHT : Int)) (hs : 0 ≤ src ∧ src < (k.FIELD_HEIGHT : Int))
    (l : List Nat) (hl : ∀ w ∈ l, w < k.FIELD_WIDTH) :
    ∀ f : Field, ∃ g, l.foldlM (copyStep k dst src) f = .ok g ∧ g.heap = f.heap ∧
      g.next = f.next ∧ g.curMino = f.curMino ∧ g.dropPredMino = f.dropPredMino ∧
      ∀ r w, g.board (r, w) =
        if r = dst ∧ ∃ x ∈ l, w = (x : Int) then f.board (src, w) else f.board (r, w) := by
  induction l with
  | nil => intro f; exact ⟨f, rfl, rfl, rfl, rfl, rfl, by simp⟩
  | cons x l ih =>
    intro f
    have hx := hl x (List.mem_cons_self _ _)
    have hbs : inBoard k src (x : Int) = true := by rw [inBoard_iff]; omega
    have hbd : inBoard k dst (x : Int) = true := by rw [inBoard_iff]; omega
    obtain ⟨g, hg, hheap, hnext, hcur, hpred, hboard⟩ :=
      ih (fun w hm => hl w (List.mem_cons_of_mem _ hm))
        { f with board := fun q => if q = (dst, (x : Int)) then f.board (src, (x : Int))
                                   else f.board q }
    refine ⟨g, ?_, hheap, hnext, hcur, hpred, ?_⟩
    · simp only [List.foldlM_cons, copyStep, getCell_ok k f _ _ hbs, setCell, hbd, if_true, bind,
        Except.bind]
      exact hg
    · intro r w
      rw [hboard r w]
      simp only [List.mem_cons, exists_eq_or_imp, Prod.mk.injEq]
      by_cases h1 : r = dst
      · by_cases h2 : ∃ a ∈ l, w = (a : Int)
        · by_cases h3 : src = dst ∧ w = (x : Int)
          · simp [h1, h2, h3]
          · simp [h1, h2, h3]
        · by_cases h3 : w = (x : Int)
          · simp [h1, h2, h3]
          · simp [h1, h2, h3]
      · simp [h1]

theorem copyLine_spec (k : Consts) (f : Field) (dst src : Int)
    (hd : 0 ≤ dst ∧ dst < (k.FIELD_HEIGHT : Int))
    (hs : 0 ≤ src ∧ src < (k.FIELD_HEIGHT : Int)) :
    ∃ g, copyLine k f dst src = .ok g ∧ g.heap = f.heap ∧ g.next = f.next ∧
      g.curMino = f.curMino ∧ g.dropPredMino = f.dropPredMino ∧
      (∀ r w, r ≠ dst → g.board (r, w) = f.board (r, w)) ∧
      (∀ w, 0 ≤ w → w < (k.FIELD_WIDTH : Int) → g.board (dst, w) = f.board (src, w)) := by
  obtain ⟨g, hg, hheap, hnext, hcur, hpred, hboard⟩ :=
    copyStep_fold k dst src hd hs (List.range k.FIELD_WIDTH) (fun w hw => List.mem_range.mp hw) f
  refine ⟨g, hg, hheap, hnext, hcur, hpred, ?_, ?_⟩
  · intro r w hr
    rw [hboard r w]
    simp [hr]
  · intro w h0 hw
    rw [hboard dst w]
    have : ∃ x ∈ List.range k.FIELD_WIDTH, w = (x : Int) :=
      ⟨w.toNat, List.mem_range.mpr (by omega), by omega⟩
    rw [if_pos ⟨rfl, this⟩]

/-! ### Counting erased rows -/

theorem cntAbove_zero_of (eMap : Int → Bool) (n : Nat) (i : Int)
    (h : ∀ r : Nat, i < (r : Int) → r < n → eMap (r : Int) = false) : cntAbove eMap n i = 0 := by
  induction n with
  | zero => rfl
  | succ n ih =>
    have h1 := ih (fun r h1 h2 => h r h1 (by omega))
    simp only [cntAbove, h1, zero_add]
    by_cases hi : i < (n : Int)
    · have := h n hi (by omega)
      simp [this]
    · simp [hi]

theorem cntAbove_le (eMap : Int → Bool) (n : Nat) (i : Int) (hi : i < (n : Int)) :
    (cntAbove eMap n i : Int) ≤ (n : Int) - 1 - i := by
  induction n with
  | zero => simp only [cntAbove]; push_cast; omega
  | succ n ih =>
    simp only [cntAbove]
    by_cases h1 : i < (n : Int)
    · have := ih h1
      split <;> push_cast <;> omega
    · have h0 : cntAbove eMap n i = 0 := cntAbove_zero_of eMap n i (fun r h2 h3 => by omega)
      rw [h0]
      simp only [h1, false_and, if_false]
      push_cast; omega

theorem cntAbove_full (eMap : Int → Bool) (n : Nat) (a : Int) (ha : -1 ≤ a) (han : a < (n : Int))
    (h : ∀ r : Int, a < r → r < (n : Int) → eMap r = true) :
    (cntAbove eMap n a : Int) = (n : Int) - 1 - a := by
  induction n with
  | zero => simp only [cntAbove]; push_cast at *; omega
  | succ n ih =>
    simp only [cntAbove]
    by_cases h1 : a < (n : Int)
    · have := ih h1 (fun r h2 h3 => h r h2 (by push_cast; omega))
      have he := h (n : Int) h1 (by push_cast; omega)
      simp only [h1, he, and_self, if_true]
      push_cast; omega
    · have h0 : cntAbove eMap n a = 0 := cntAbove_zero_of eMap n a (fun r h2 h3 => by omega)
      rw [h0]
      simp only [h1, false_and, if_false]
      push_cast at *; omega

/-- Between a row `a` and a kept row `b` below it that has only erased rows in between, the
count grows by the number of rows in between. -/
theorem cntAbove_gap (eMap : Int → Bool) (n : Nat) (a b : Int) (ha : -1 ≤ a) (hab : a < b)
    (hbn : b < (n : Int)) (hb : eMap b = false)
    (h : ∀ r : Int, a < r → r < b → eMap r = true) :
    (cntAbove eMap n a : Int) = cntAbove eMap n b + (b - a - 1) := by
  induction n with
  | zero => push_cast at hbn; omega
  | succ n ih =>
    simp only [cntAbove]
    by_cases h1 : b < (n : Int)
    · have := ih h1
      have h2 : a < (n : Int) := by omega
      simp only [h1, h2, true_and]
      split <;> push_cast <;> omega
    · have hbe : b = (n : Int) := by push_cast at hbn; omega
      subst hbe
      have h0 : cntAbove eMap n (n : Int) = 0 :=
        cntAbove_zero_of eMap n _ (fun r h2 h3 => by omega)
      have hf := cntAbove_full eMap n a ha hab h
      rw [h0]
      simp only [hb, Bool.false_eq_true, and_false, if_false]
      push_cast; omega

/-- A kept row further down lands strictly further down. -/
theorem cntAbove_strict (eMap : Int → Bool) (n : Nat) (a b : Int) (hab : a < b)
    (hbn : b < (n : Int)) (hb : eMap b = false) :
    a + (cntAbove eMap n a : Int) < b + cntAbove eMap n b := by
  induction n with
  | zero => simp only [cntAbove]; push_cast; omega
  | succ n ih =>
    simp only [cntAbove]
    by_cases h1 : b < (n : Int)
    · have := ih h1
      have h2 : a < (n : Int) := by omega
      simp only [h1, h2, true_and]
      split <;> push_cast <;> omega
    · have hbe : b = (n : Int) := by push_cast at hbn; omega
      subst hbe
      have h0 : cntAbove eMap n (n : Int) = 0 :=
        cntAbove_zero_of eMap n _ (fun r h2 h3 => by omega)
      have hf := cntAbove_le eMap n a hab
      rw [h0]
      simp only [hb, Bool.false_eq_true, and_false, if_false]
      push_cast; omega

theorem skipErased_spec (k : Consts) (eMap : Int → Bool) :
    ∀ (fuel : Nat) (src : Int), -1 ≤ src → src < (k.FIELD_HEIGHT : Int) → src + 2 ≤ (fuel : Int) →
      ∃ s, skipErased k eMap fuel src = .ok s ∧ -1 ≤ s ∧ s ≤ src ∧
        (0 ≤ s → eMap s = false) ∧ ∀ r, s < r → r ≤ src → eMap r = true := by
  intro fuel
  induction fuel with
  | zero => intro src h1 _ h3; push_cast at h3; omega
  | succ fuel ih =>
    intro src h1 h2 h3
    unfold skipErased
    by_cases h0 : 0 ≤ src
    · by_cases he : eMap src = true
      · obtain ⟨s, hs, hs1, hs2, hs3, hs4⟩ := ih (src - 1) (by omega) (by omega)
          (by push_cast at h3; omega)
        refine ⟨s, by simp [h0, h2, he, hs], hs1, by omega, hs3, ?_⟩
        intro r hr1 hr2
        by_cases hr : r = src
        · rw [hr]; exact he
        · exact hs4 r hr1 (by omega)
      · refine ⟨src, by simp [h0, h2, he], h1, le_refl _, fun _ => by simpa using he, ?_⟩
        intro r hr1 hr2; omega
    · refine ⟨src, by simp [h0], h1, le_refl _, fun h => absurd h h0, ?_⟩
      intro r hr1 hr2; omega

theorem voidFill_skip (k : Consts) (fuel : Nat) (src dst : Int) (f : Field) (hs : 0 ≤ src) :
    voidFill k (fuel + 1) src dst f = .ok (dst, f) := by
  unfold voidFill
  have : ¬ src < 0 := by omega
  simp [this]

theorem voidFill_spec (k : Consts) (src : Int) (hs : src < 0) :
    ∀ (fuel : Nat) (dst : Int) (f : Field), -1 ≤ dst → dst < (k.FIELD_HEIGHT : Int) →
      dst + 2 ≤ (fuel : Int) →
      ∃ g, voidFill k fuel src dst f = .ok (-1, g) ∧ g.board = f.board ∧ g.next = f.next ∧
        g.curMino = f.curMino ∧ g.dropPredMino = f.dropPredMino ∧
        (∀ p, (∃ r : Int, 0 ≤ r ∧ r ≤ dst ∧
            ∃ w : Nat, w < k.FIELD_WIDTH ∧ f.board (r, (w : Int)) = p) →
          g.heap p = voidCell k) ∧
        (∀ p, (¬ ∃ r : Int, 0 ≤ r ∧ r ≤ dst ∧
            ∃ w : Nat, w < k.FIELD_WIDTH ∧ f.board (r, (w : Int)) = p) →
          g.heap p = f.heap p) := by
  intro fuel
  induction fuel with
  | zero => intro dst f h1 _ h3; push_cast at h3; omega
  | succ fuel ih =>
    intro dst f h1 h2 h3
    unfold voidFill
    by_cases h0 : 0 ≤ dst
    · obtain ⟨f1, hf1, hboard1, hnext1, hcur1, hpred1, hheap1⟩ :=
        eraseLine_spec k f dst ⟨h0, h2⟩
      obtain ⟨g, hg, hboard, hnext, hcur, hpred, hvoid, hkeep⟩ :=
        ih (dst - 1) f1 (by omega) (by omega) (by push_cast at h3; omega)
      rw [hboard1] at hvoid hkeep
      refine ⟨g, by simp [hs, h0, hf1, hg], hboard.trans hboard1, hnext.trans hnext1,
        hcur.trans hcur1, hpred.trans hpred1, ?_, ?_⟩
      · rintro p ⟨r, hr0, hr1, hw⟩
        by_cases hrd : r = dst
        · subst hrd
          by_cases ha : ∃ r : Int, 0 ≤ r ∧ r ≤ r - 1 ∧
              ∃ w : Nat, w < k.FIELD_WIDTH ∧ f.board (r, (w : Int)) = p
          · obtain ⟨r2, _, h, _⟩ := ha; omega
          · by_cases hb : ∃ r2 : Int, 0 ≤ r2 ∧ r2 ≤ r - 1 ∧
                ∃ w : Nat, w < k.FIELD_WIDTH ∧ f.board (r2, (w : Int)) = p
            · exact hvoid p hb
            · rw [hkeep p hb, hheap1 p, if_pos hw]
        · exact hvoid p ⟨r, hr0, by omega, hw⟩
      · intro p hnot
        have hb : ¬ ∃ r2 : Int, 0 ≤ r2 ∧ r2 ≤ dst - 1 ∧
            ∃ w : Nat, w < k.FIELD_WIDTH ∧ f.board (r2, (w : Int)) = p := by
          rintro ⟨r, hr0, hr1, hw⟩
          exact hnot ⟨r, hr0, by omega, hw⟩
        have hc : ¬ ∃ w : Nat, w < k.FIELD_WIDTH ∧ f.board (dst, (w : Int)) = p :=
          fun hw => hnot ⟨dst, h0, le_refl _, hw⟩
        rw [hkeep p hb, hheap1 p, if_neg hc]
    · have hd : dst = -1 := by omega
      subst hd
      refine ⟨f, by simp, rfl, rfl, rfl, rfl, ?_, fun _ _ => rfl⟩
      rintro p ⟨r, hr0, hr1, _⟩
      omega

theorem nFixedLine_spec (eMap : Int → Bool) :
    ∀ (n acc : Nat), ∃ t, t ≤ n ∧ nFixedLine eMap n acc = acc + t ∧
      (∀ r : Nat, n - t ≤ r → r < n → eMap (r : Int) = false) ∧
      (t < n → eMap ((n - t - 1 : Nat) : Int) = true) := by
  intro n
  induction n with
  | zero => intro acc; exact ⟨0, le_refl _, rfl, fun r h1 h2 => by omega, fun h => by omega⟩
  | succ n ih =>
    intro acc
    unfold nFixedLine
    by_cases he : eMap (n : Int) = true
    · refine ⟨0, by omega, by simp [he], fun r h1 h2 => by omega, fun _ => ?_⟩
      simpa using he
    · obtain ⟨t, ht, hres, hlow, hhit⟩ := ih (acc + 1)
      refine ⟨t + 1, by omega, by simp [he, hres]; omega, ?_, ?_⟩
      · intro r h1 h2
        by_cases hr : r = n
        · subst hr; simpa using he
        · exact hlow r (by omega) (by omega)
      · intro h
        have := hhit (by omega)
        have e : n + 1 - (t + 1) - 1 = n - t - 1 := by omega
        rw [e]; exact this

theorem copySrcL_spec (k : Consts) (eMap : Int → Bool) :
    ∀ n : Nat, n ≤ k.FIELD_HEIGHT →
      (copySrcL k eMap n = (k.FIELD_HEIGHT : Int) ∧ ∀ r : Nat, r < n → eMap (r : Int) = true) ∨
      ∃ s : Nat, s < n ∧ copySrcL k eMap n = (s : Int) ∧ eMap (s : Int) = false ∧
        ∀ r : Nat, s < r → r < n → eMap (r : Int) = true := by
  intro n
  induction n with
  | zero => intro _; exact Or.inl ⟨rfl, fun r h => by omega⟩
  | succ n ih =>
    intro hn
    unfold copySrcL
    by_cases he : eMap (n : Int) = true
    · rcases ih (by omega) with ⟨h1, h2⟩ | ⟨s, hs, h1, h2, h3⟩
      · refine Or.inl ⟨by simp [he, h1], ?_⟩
        intro r hr
        by_cases hrn : r = n
        · subst hrn; exact he
        · exact h2 r (by omega)
      · refine Or.inr ⟨s, by omega, by simp [he, h1], h2, ?_⟩
        intro r hr1 hr2
        by_cases hrn : r = n
        · subst hrn; exact he
        · exact h3 r hr1 (by omega)
    · refine Or.inr ⟨n, by omega, by simp [he], by simpa using he, ?_⟩
      intro r hr1 hr2; omega

theorem copyLoop_spec (k : Consts) (eMap : Int → Bool) (f1 : Field) (total : Nat)
    (htotal : k.FIELD_HEIGHT < total) :
    ∀ (n : Nat) (src dst : Int) (g : Field) (fuel : Nat),
      CopyInv k eMap f1 src dst g → src < (n : Int) → n + 1 ≤ fuel →
      ∃ g2, copyLoop k eMap total fuel src dst g = .ok g2 ∧ DropPost k eMap f1 g2 := by
  intro n
  induction n with
  | zero =>
    intro src dst g fuel hinv hn _
    have := hinv.1
    push_cast at hn; omega
  | succ n ih =>
    intro src dst g fuel hinv hn hfuel
    obtain ⟨hs0, hsd, hdH, hes, hdst, hheap, hnext, hcur, hpred, hrows, hkept⟩ := hinv
    obtain ⟨fuel1, rfl⟩ : ∃ x, fuel = x + 1 := ⟨fuel - 1, by omega⟩
    -- the copy
    obtain ⟨g2, hg2, hheap2, hnext2, hcur2, hpred2, hother2, hrow2⟩ :=
      copyLine_spec k g dst src ⟨by omega, hdH⟩ ⟨hs0, by omega⟩
    -- the next read row
    obtain ⟨s1, hs1, hs1lo, hs1hi, hs1kept, hs1gap⟩ :=
      skipErased_spec k eMap total (src - 1) (by omega) (by omega) (by omega)
    have hgap : ∀ r : Int, s1 < r → r < src → eMap r = true :=
      fun r h1 h2 => hs1gap r h1 (by omega)
    have hcnt := cntAbove_gap eMap k.FIELD_HEIGHT s1 src hs1lo (by omega) (by omega) hes hgap
    have hnot : ¬ src < 0 := by omega
    have hcond : 0 ≤ src ∧ 0 ≤ dst := ⟨hs0, by omega⟩
    -- kept rows at or below `src` are in place after the copy
    have hkept2 : ∀ i w, s1 < i → i < (k.FIELD_HEIGHT : Int) → eMap i = false →
        0 ≤ w → w < (k.FIELD_WIDTH : Int) →
        g2.board (i + (cntAbove eMap k.FIELD_HEIGHT i : Int), w) = f1.board (i, w) := by
      intro i w hi1 hi2 hie hw0 hw1
      by_cases hlt : i < src
      · have := hgap i hi1 hlt
        rw [this] at hie; cases hie
      · by_cases heq : i = src
        · subst heq
          rw [← hdst, hrow2 w hw0 hw1]
          exact hrows i w (by omega)
        · have hstrict := cntAbove_strict eMap k.FIELD_HEIGHT src i (by omega) hi2 hie
          rw [hother2 _ w (by omega)]
          exact hkept i w (by omega) hi2 hie hw0 hw1
    have hrows2 : ∀ r w, r ≤ dst - 1 → g2.board (r, w) = f1.board (r, w) := by
      intro r w hr
      rw [hother2 r w (by omega)]
      exact hrows r w (by omega)
    by_cases hs1neg : s1 < 0
    · -- the read rows are exhausted: the remaining rows are reset
      have hs1e : s1 = -1 := by omega
      subst hs1e
      have hK : (cntAbove eMap k.FIELD_HEIGHT (-1) : Int) = dst := by omega
      obtain ⟨g3, hg3, hboard3, hnext3, hcur3, hpred3, hvoid3, hkeep3⟩ :=
        voidFill_spec k (-1) (by omega) total (dst - 1) g2 (by omega) (by omega)
          (by omega)
      have hexit : copyLoop k eMap total fuel1 (-1) (-1) g3 = .ok g3 := by
        obtain ⟨fuel2, rfl⟩ : ∃ x, fuel1 = x + 1 := ⟨fuel1 - 1, by omega⟩
        simp [copyLoop]
      refine ⟨g3, ?_, ?_⟩
      · unfold copyLoop
        simp only [hcond, and_self, if_true, hnot, if_false, hg2, hs1, hg3]
        exact hexit
      · have hsame : ∀ r : Int, 0 ≤ r → r < dst → ∀ w, g2.board (r, w) = f1.board (r, w) :=
          fun r _ h2 w => hrows2 r w (by omega)
        refine ⟨by rw [hnext3, hnext2, hnext], by rw [hcur3, hcur2, hcur],
          by rw [hpred3, hpred2, hpred], ?_, ?_, ?_, ?_⟩
        · intro i w hi0 hi1 hie hw0 hw1
          rw [hboard3]
          exact hkept2 i w (by omega) hi1 hie hw0 hw1
        · intro r w hr0 hr1
          rw [hboard3]
          exact hsame r hr0 (by omega) w
        · rintro p ⟨r, hr0, hr1, w, hw, hp⟩
          apply hvoid3 p
          exact ⟨r, hr0, by omega, w, hw, by rw [hsame r hr0 (by omega)]; exact hp⟩
        · intro p hnotp
          rw [hkeep3 p, hheap2, hheap]
          rintro ⟨r, hr0, hr1, w, hw, hp⟩
          exact hnotp ⟨r, hr0, by omega, w, hw, by rw [← hsame r hr0 (by omega)]; exact hp⟩
    · -- another row to copy
      have hs1nn : 0 ≤ s1 := by omega
      have hvf : voidFill k total s1 (dst - 1) g2 = .ok (dst - 1, g2) := by
        obtain ⟨t2, rfl⟩ : ∃ x, total = x + 1 := ⟨total - 1, by omega⟩
        exact voidFill_skip k t2 s1 (dst - 1) g2 hs1nn
      have hinv2 : CopyInv k eMap f1 s1 (dst - 1) g2 :=
        ⟨hs1nn, by omega, by omega, hs1kept hs1nn, by omega, by rw [hheap2, hheap],
          by rw [hnext2, hnext], by rw [hcur2, hcur], by rw [hpred2, hpred], hrows2, hkept2⟩
      obtain ⟨g4, hg4, hpost⟩ := ih s1 (dst - 1) g2 fuel1 hinv2 (by push_cast at hn; omega)
        (by omega)
      refine ⟨g4, ?_, hpost⟩
      unfold copyLoop
      simp only [hcond, and_self, if_true, hnot, if_false, hg2, hs1, hvf]
      exact hg4

theorem cntAbove_top (eMap : Int → Bool) (m : Nat) (i : Int) :
    ∀ n : Nat, m ≤ n → (∀ r : Nat, m ≤ r → r < n → eMap (r : Int) = false) →
      cntAbove eMap n i = cntAbove eMap m i := by
  intro n
  induction n with
  | zero => intro hm _; have : m = 0 := by omega
            subst this; rfl
  | succ n ih =>
    intro hm h
    by_cases hmn : m = n + 1
    · subst hmn; rfl
    · have h1 := ih (by omega) (fun r h1 h2 => h r h1 (by omega))
      have h2 := h n (by omega) (by omega)
      simp [cntAbove, h1, h2]

theorem pairwise_le_getLast (l : List Int) (hp : l.Pairwise (fun a b => a ≤ b)) (hne : l ≠ []) :
    ∀ x ∈ l, x ≤ l.getLast hne := by
  induction l with
  | nil => exact absurd rfl hne
  | cons a t ih =>
    intro x hx
    by_cases ht : t = []
    · subst ht
      simp only [List.mem_singleton] at hx
      simp [hx]
    · rw [List.getLast_cons ht]
      rw [List.pairwise_cons] at hp
      rcases List.mem_cons.mp hx with rfl | hxt
      · exact hp.1 _ (List.getLast_mem ht)
      · exact ih hp.2 ht x hxt

theorem sorted_last_max (lines : List Int) (hne : lines ≠ []) :
    ∃ d, (lines.insertionSort (fun a b => a ≤ b)).getLast? = some d ∧ d ∈ lines ∧
      ∀ x ∈ lines, x ≤ d := by
  have hperm := List.perm_insertionSort (fun a b : Int => a ≤ b) lines
  have hsne : lines.insertionSort (fun a b => a ≤ b) ≠ [] := by
    intro h
    rw [h] at hperm
    exact hne (List.Perm.eq_nil hperm.symm)
  have hsorted : (lines.insertionSort (fun a b => a ≤ b)).Pairwise (fun a b => a ≤ b) :=
    List.sorted_insertionSort (fun a b : Int => a ≤ b) lines
  refine ⟨(lines.insertionSort (fun a b => a ≤ b)).getLast hsne, List.getLast?_eq_getLast _ hsne,
    hperm.mem_iff.mp (List.getLast_mem hsne), ?_⟩
  intro x hx
  exact pairwise_le_getLast _ hsorted hsne x (hperm.mem_iff.mpr hx)

/-- `dropRemains` on a non-empty list of rows of the board: with fuel above the board
height the call returns, without reaching the panic, and the result is described by
`DropPost` relative to the field after `eraseLines`. -/
theorem dropRemains_spec (k : Consts) (fuel : Nat) (f : Field) (lines : List Int)
    (hl : ∀ l ∈ lines, 0 ≤ l ∧ l < (k.FIELD_HEIGHT : Int)) (hne : lines ≠ [])
    (hfuel : k.FIELD_HEIGHT < fuel) :
    ∃ eMap f1 g, (∀ i, eMap i = true ↔ i ∈ lines) ∧ eraseLines k f lines = .ok f1 ∧
      dropRemains k fuel f lines = .ok g ∧ DropPost k eMap f1 g := by
  obtain ⟨f1, hf1, hboard1, hnext1, hcur1, hpred1, hheap1⟩ := eraseLines_spec k lines hl f
  obtain ⟨eMap, heMap, hmem⟩ := erasedMap_spec k lines hl
  obtain ⟨t, htH, hnf, hlow, hhit⟩ := nFixedLine_spec eMap k.FIELD_HEIGHT 0
  obtain ⟨l0, hl0⟩ := List.exists_mem_of_ne_nil _ hne
  have hl0r := hl l0 hl0
  have hfalse : ∀ i, eMap i = false ↔ i ∉ lines := by
    intro i
    rw [← hmem i]
    cases eMap i <;> simp
  have htlt : t < k.FIELD_HEIGHT := by
    by_contra hge
    have := hlow l0.toNat (by omega) (by omega)
    rw [Int.toNat_of_nonneg hl0r.1] at this
    exact ((hfalse l0).mp this) hl0
  have hetrue := hhit htlt
  have hlen : ¬ lines.length = 0 := by
    intro h; exact hne (List.length_eq_zero.mp h)
  have hnotge : ¬ k.FIELD_HEIGHT ≤ nFixedLine eMap k.FIELD_HEIGHT 0 := by rw [hnf]; omega
  -- rows from `FIELD_HEIGHT - t` on are kept
  have hkeptlow : ∀ i : Int, (k.FIELD_HEIGHT : Int) - t ≤ i → i < (k.FIELD_HEIGHT : Int) →
      eMap i = false := by
    intro i h1 h2
    have := hlow i.toNat (by omega) (by omega)
    rwa [Int.toNat_of_nonneg (by omega)] at this
  have hcntlow : ∀ i : Int, (k.FIELD_HEIGHT : Int) - t - 1 ≤ i →
      cntAbove eMap k.FIELD_HEIGHT i = 0 := by
    intro i hi
    apply cntAbove_zero_of
    intro r h1 h2
    exact hkeptlow r (by omega) (by omega)
  have htop : ∀ i, cntAbove eMap k.FIELD_HEIGHT i = cntAbove eMap (k.FIELD_HEIGHT - t) i := by
    intro i
    exact cntAbove_top eMap (k.FIELD_HEIGHT - t) i k.FIELD_HEIGHT (by omega)
      (fun r h1 h2 => hlow r h1 h2)
  have hnotge2 : ¬ k.FIELD_HEIGHT ≤ t := by omega
  refine ⟨eMap, f1, ?_⟩
  rcases copySrcL_spec k eMap (k.FIELD_HEIGHT - t) (by omega) with ⟨hsrc, hall⟩ | ⟨s, hs, hsrc, hskept, hsgap⟩
  · -- all rows down to the lowest erased row are erased: nothing to copy
    refine ⟨f1, hmem, hf1, ?_, ?_⟩
    · unfold dropRemains
      simp only [hf1, hlen, if_false, heMap, hnf, zero_add, hnotge2, hsrc, le_refl, if_true]
    have hallInt : ∀ r : Int, -1 < r → r < ((k.FIELD_HEIGHT - t : Nat) : Int) → eMap r = true := by
      intro r h1 h2
      have := hall r.toNat (by omega)
      rwa [Int.toNat_of_nonneg (by omega)] at this
    have hK : (cntAbove eMap k.FIELD_HEIGHT (-1) : Int) = (k.FIELD_HEIGHT : Int) - t := by
      rw [htop]
      have := cntAbove_full eMap (k.FIELD_HEIGHT - t) (-1) (le_refl _) (by omega) hallInt
      omega
    · refine ⟨rfl, rfl, rfl, ?_, fun _ _ _ _ => rfl, ?_, fun _ _ => rfl⟩
      · intro i w hi0 hi1 hie hw0 hw1
        have hige : (k.FIELD_HEIGHT : Int) - t ≤ i := by
          by_contra hlt
          have := hallInt i (by omega) (by omega)
          rw [this] at hie; cases hie
        rw [hcntlow i (by omega)]
        simp
      · rintro p ⟨r, hr0, hr1, w, hw, hp⟩
        rw [hheap1 p]
        have hr : r ∈ lines := (hmem r).mp (hallInt r (by omega) (by omega))
        rw [hboard1] at hp
        rw [if_pos ⟨r, hr, w, hw, hp⟩]
  · -- the copy loop runs
    obtain ⟨d, hd, hdmem, hdmax⟩ := sorted_last_max lines hne
    have hdr := hl d hdmem
    have hde : d = (k.FIELD_HEIGHT : Int) - t - 1 := by
      have h1 : (((k.FIELD_HEIGHT - t - 1 : Nat) : Int)) ∈ lines := (hmem _).mp hetrue
      have h2 := hdmax _ h1
      have h3 : ¬ ((k.FIELD_HEIGHT : Int) - t ≤ d) := by
        intro hge
        have := hkeptlow d hge hdr.2
        exact ((hfalse d).mp this) hdmem
      omega
    have hsgapInt : ∀ r : Int, (s : Int) < r → r < ((k.FIELD_HEIGHT - t : Nat) : Int) →
        eMap r = true := by
      intro r h1 h2
      have := hsgap r.toNat (by omega) (by omega)
      rwa [Int.toNat_of_nonneg (by omega)] at this
    have hsd : (s : Int) < d := by
      have : (s : Int) ≠ d := by
        intro h
        rw [← h] at hdmem
        exact ((hfalse _).mp hskept) hdmem
      omega
    have hinv : CopyInv k eMap f1 (s : Int) d f1 := by
      refine ⟨by omega, hsd, hdr.2, hskept, ?_, rfl, rfl, rfl, rfl, fun _ _ _ => rfl, ?_⟩
      · rw [htop]
        have := cntAbove_full eMap (k.FIELD_HEIGHT - t) (s : Int) (by omega) (by omega) hsgapInt
        omega
      · intro i w hi0 hi1 hie hw0 hw1
        have hige : (k.FIELD_HEIGHT : Int) - t ≤ i := by
          by_contra hlt
          have := hsgapInt i hi0 (by omega)
          rw [this] at hie; cases hie
        rw [hcntlow i (by omega)]
        simp
    obtain ⟨g, hg, hpost⟩ :=
      copyLoop_spec k eMap f1 fuel hfuel (s + 1) (s : Int) d f1 fuel hinv (by push_cast; omega)
        (by omega)
    refine ⟨g, hmem, hf1, ?_, hpost⟩
    have h1 : ¬ (k.FIELD_HEIGHT : Int) ≤ (s : Int) := by omega
    have h2 : ¬ d ≤ (s : Int) := by omega
    unfold dropRemains
    simp only [hf1, hlen, if_false, heMap, hnf, zero_add, hnotge2, hsrc, h1, hd, h2]
    exact hg
/-! ### Line clear as a whole -/

theorem completeMap_iff (k : Consts) (f : Field) (i : Int) :
    completeMap k f i = true ↔ 0 ≤ i ∧ i < (k.FIELD_HEIGHT : Int) ∧ completeRow k f i := by
  simp [completeMap]

theorem mem_completeLines (k : Consts) (f : Field) (i : Int) :
    i ∈ ((List.range k.FIELD_HEIGHT).filter
        (fun (h : Nat) => decide (completeRow k f (h : Int)))).map Int.ofNat ↔
      0 ≤ i ∧ i < (k.FIELD_HEIGHT : Int) ∧ completeRow k f i := by
  simp only [List.mem_map, List.mem_filter, List.mem_range, decide_eq_true_eq]
  constructor
  · rintro ⟨a, ⟨h1, h2⟩, rfl⟩
    exact ⟨Int.ofNat_nonneg a, by simpa using h1, h2⟩
  · rintro ⟨h0, h1, h2⟩
    refine ⟨i.toNat, ⟨by omega, ?_⟩, ?_⟩
    · rw [Int.toNat_of_nonneg h0]; exact h2
    · simp [Int.toNat_of_nonneg h0]

/-- What `attemptDescent` does to the pointers and to the heap, for every field: each row
that is not complete has its pointers moved down by the number of complete rows below it;
the top rows, as many as there are complete rows, keep their pointers; the cells behind
the pointers of the complete rows and of those top rows are reset, no other cell is
touched. -/
theorem attemptDescent_spec (k : Consts) (fuel : Nat) (f : Field)
    (hfuel : k.FIELD_HEIGHT < fuel) :
    ∃ g, attemptDescent k fuel f = .ok g ∧ g.next = f.next ∧ g.curMino = f.curMino ∧
      g.dropPredMino = f.dropPredMino ∧
      (∀ i w, 0 ≤ i → i < (k.FIELD_HEIGHT : Int) → ¬ completeRow k f i →
        0 ≤ w → w < (k.FIELD_WIDTH : Int) →
        g.board (i + (cntAbove (completeMap k f) k.FIELD_HEIGHT i : Int), w) = f.board (i, w)) ∧
      (∀ r w, 0 ≤ r → r < (cntAbove (completeMap k f) k.FIELD_HEIGHT (-1) : Int) →
        g.board (r, w) = f.board (r, w)) ∧
      (∀ p, (∃ r : Int, 0 ≤ r ∧ r < (k.FIELD_HEIGHT : Int) ∧
          (completeRow k f r ∨ r < (cntAbove (completeMap k f) k.FIELD_HEIGHT (-1) : Int)) ∧
          ∃ w : Nat, w < k.FIELD_WIDTH ∧ f.board (r, (w : Int)) = p) → g.heap p = voidCell k) ∧
      (∀ p, (¬ ∃ r : Int, 0 ≤ r ∧ r < (k.FIELD_HEIGHT : Int) ∧
          (completeRow k f r ∨ r < (cntAbove (completeMap k f) k.FIELD_HEIGHT (-1) : Int)) ∧
          ∃ w : Nat, w < k.FIELD_WIDTH ∧ f.board (r, (w : Int)) = p) → g.heap p = f.heap p) := by
  have hlines := getCompleteHorizontalLines_eq k f
  generalize hL : ((List.range k.FIELD_HEIGHT).filter
      (fun (h : Nat) => decide (completeRow k f (h : Int)))).map Int.ofNat = lines at hlines
  have hmemL : ∀ i, i ∈ lines ↔ 0 ≤ i ∧ i < (k.FIELD_HEIGHT : Int) ∧ completeRow k f i := by
    intro i; rw [← hL]; exact mem_completeLines k f i
  have hrange : ∀ l ∈ lines, 0 ≤ l ∧ l < (k.FIELD_HEIGHT : Int) :=
    fun l hl => ⟨((hmemL l).mp hl).1, ((hmemL l).mp hl).2.1⟩
  by_cases hnil : lines = []
  · -- no complete row
    have hnone : ∀ r : Int, 0 ≤ r → r < (k.FIELD_HEIGHT : Int) → ¬ completeRow k f r := by
      intro r h0 h1 hc
      have := (hmemL r).mpr ⟨h0, h1, hc⟩
      rw [hnil] at this; cases this
    have hcnt : ∀ i, cntAbove (completeMap k f) k.FIELD_HEIGHT i = 0 := by
      intro i
      apply cntAbove_zero_of
      intro r _ hr
      have := hnone r (by omega) (by omega)
      simp [completeMap, this]
    refine ⟨f, by simp [attemptDescent, hlines, hnil], rfl, rfl, rfl, ?_, fun _ _ _ _ => rfl,
      ?_, fun _ _ => rfl⟩
    · intro i w _ _ _ _ _
      rw [hcnt i]; simp
    · rintro p ⟨r, hr0, hr1, hc | hc, _⟩
      · exact absurd hc (hnone r hr0 hr1)
      · rw [hcnt (-1)] at hc; simp at hc; omega
  · obtain ⟨f1, hf1, hboard1, hnext1, hcur1, hpred1, hheap1⟩ := eraseLines_spec k lines hrange f
    obtain ⟨eMap, f2, g, hmem, hf2, hg, hpost⟩ := dropRemains_spec k fuel f1 lines hrange hnil hfuel
    obtain ⟨f2a, hf2a, hboard2, hnext2, hcur2, hpred2, hheap2⟩ :=
      eraseLines_spec k lines hrange f1
    rw [hf2] at hf2a
    cases hf2a
    have heq : eMap = completeMap k f := by
      funext i
      have h1 := hmem i
      have h2 := completeMap_iff k f i
      have h3 := hmemL i
      cases ha : eMap i <;> cases hb : completeMap k f i <;> simp_all
    subst heq
    obtain ⟨pnext, pcur, ppred, pkept, ptop, pvoid, pkeep⟩ := hpost
    have hb2 : f2.board = f.board := hboard2.trans hboard1
    have hlen : 0 < lines.length := List.length_pos.mpr hnil
    refine ⟨g, ?_, by rw [pnext, hnext2, hnext1], by rw [pcur, hcur2, hcur1],
      by rw [ppred, hpred2, hpred1], ?_, ?_, ?_, ?_⟩
    · simp only [attemptDescent, hlines, hlen, if_true, hf1]
      exact hg
    · intro i w hi0 hi1 hnc hw0 hw1
      have : completeMap k f i = false := by
        simp [completeMap, hnc]
      rw [pkept i w hi0 hi1 this hw0 hw1, hb2]
    · intro r w hr0 hr1
      rw [ptop r w hr0 hr1, hb2]
    · rintro p ⟨r, hr0, hr1, hc | hc, w, hw, hp⟩
      · by_cases htop : ∃ r : Int, 0 ≤ r ∧
            r < (cntAbove (completeMap k f) k.FIELD_HEIGHT (-1) : Int) ∧
            ∃ w : Nat, w < k.FIELD_WIDTH ∧ f2.board (r, (w : Int)) = p
        · exact pvoid p htop
        · rw [pkeep p htop, hheap2 p, hboard1]
          rw [if_pos ⟨r, (hmemL r).mpr ⟨hr0, hr1, hc⟩, w, hw, hp⟩]
      · exact pvoid p ⟨r, hr0, hc, w, hw, by rw [hb2]; exact hp⟩
    · intro p hnot
      have htop : ¬ ∃ r : Int, 0 ≤ r ∧
          r < (cntAbove (completeMap k f) k.FIELD_HEIGHT (-1) : Int) ∧
          ∃ w : Nat, w < k.FIELD_WIDTH ∧ f2.board (r, (w : Int)) = p := by
        rintro ⟨r, hr0, hr1, w, hw, hp⟩
        have hle := cntAbove_le (completeMap k f) k.FIELD_HEIGHT (-1) (by omega)
        exact hnot ⟨r, hr0, by omega, Or.inr hr1, w, hw, by rw [← hb2]; exact hp⟩
      have hcomp : ¬ ∃ l ∈ lines, ∃ w : Nat, w < k.FIELD_WIDTH ∧ f.board (l, (w : Int)) = p := by
        rintro ⟨l, hl, w, hw, hp⟩
        obtain ⟨h0, h1, hc⟩ := (hmemL l).mp hl
        exact hnot ⟨l, h0, h1, Or.inl hc, w, hw, hp⟩
      rw [pkeep p htop, hheap2 p, hboard1, if_neg hcomp, hheap1 p, if_neg hcomp]

/-- What `attemptDescent` shows on the board when no live cell is shared between two slots:
the top rows, as many as there are complete rows, are Void, and every row that is not
complete and does not start among those top rows appears unchanged, moved down by the
number of complete rows below it. -/
theorem attemptDescent_cells (k : Consts) (fuel : Nat) (f : Field)
    (hfuel : k.FIELD_HEIGHT < fuel) (hsv : f.sharedVoid k) :
    ∃ g, attemptDescent k fuel f = .ok g ∧
      (∀ r w, 0 ≤ r → r < (cntAbove (completeMap k f) k.FIELD_HEIGHT (-1) : Int) →
        0 ≤ w → w < (k.FIELD_WIDTH : Int) → g.cellAt r w = voidCell k) ∧
      (∀ i w, (cntAbove (completeMap k f) k.FIELD_HEIGHT (-1) : Int) ≤ i →
        i < (k.FIELD_HEIGHT : Int) → ¬ completeRow k f i →
        0 ≤ w → w < (k.FIELD_WIDTH : Int) →
        g.cellAt (i + (cntAbove (completeMap k f) k.FIELD_HEIGHT i : Int)) w = f.cellAt i w) := by
  obtain ⟨g, hg, _, _, _, hkept, htop, hvoid, hkeep⟩ := attemptDescent_spec k fuel f hfuel
  have hKle := cntAbove_le (completeMap k f) k.FIELD_HEIGHT (-1) (by omega)
  refine ⟨g, hg, ?_, ?_⟩
  · intro r w hr0 hr1 hw0 hw1
    unfold Field.cellAt
    rw [htop r w hr0 hr1]
    apply hvoid
    exact ⟨r, hr0, by omega, Or.inr hr1, w.toNat, by omega, by rw [Int.toNat_of_nonneg hw0]⟩
  · intro i w hiK hiH hnc hw0 hw1
    have hi0 : 0 ≤ i := by omega
    unfold Field.cellAt
    rw [hkept i w hi0 hiH hnc hw0 hw1]
    by_cases hp : ∃ r : Int, 0 ≤ r ∧ r < (k.FIELD_HEIGHT : Int) ∧
        (completeRow k f r ∨ r < (cntAbove (completeMap k f) k.FIELD_HEIGHT (-1) : Int)) ∧
        ∃ w2 : Nat, w2 < k.FIELD_WIDTH ∧ f.board (r, (w2 : Int)) = f.board (i, w)
    · rw [hvoid _ hp]
      obtain ⟨r, hr0, hr1, hc, w2, hw2, he⟩ := hp
      have hne : (i, w) ≠ (r, (w2 : Int)) := by
        intro heq
        have hir : i = r := (Prod.mk.injEq _ _ _ _ ▸ heq).1
        subst hir
        rcases hc with hc | hc
        · exact hnc hc
        · omega
      have := hsv i w r (w2 : Int) (by rw [inBoard_iff]; omega) (by rw [inBoard_iff]; omega)
        hne he.symm
      exact this.symm
    · rw [hkeep _ hp]

theorem cntAbove_two (eMap : Int → Bool) (r1 r2 : Int) (h1 : 0 ≤ r1) (h12 : r1 < r2)
    (he : ∀ r : Int, eMap r = true ↔ (r = r1 ∨ r = r2)) (i : Int) :
    ∀ n : Nat, cntAbove eMap n i =
      (if i < r1 ∧ r1 < (n : Int) then 1 else 0) + (if i < r2 ∧ r2 < (n : Int) then 1 else 0) := by
  intro n
  induction n with
  | zero =>
    have a : ¬ (i < r1 ∧ r1 < ((0 : Nat) : Int)) := by push_cast; omega
    have b : ¬ (i < r2 ∧ r2 < ((0 : Nat) : Int)) := by push_cast; omega
    simp only [cntAbove, a, b, if_false]
  | succ n ih =>
    simp only [cntAbove, ih, he (n : Int)]
    split_ifs <;> omega

/-- C9 (amended): for every board on which no live cell is shared between two slots and
exactly two non-adjacent rows `r1 < r2` are complete, `attemptDescent` (with fuel above the
board height) returns a board whose rows 0 and 1 are Void, in which every row `i` with
`2 ≤ i < r1` appears unchanged at row `i + 2`, every row `i` with `r1 < i < r2` and
`2 ≤ i` appears unchanged at row `i + 1`, and every row below `r2` is unchanged. -/
theorem C9_two_rows_cleared (k : Consts) (fuel : Nat) (f : Field) (r1 r2 : Int)
    (hsv : f.sharedVoid k) (hfuel : k.FIELD_HEIGHT < fuel)
    (h1 : 0 ≤ r1) (h12 : r1 + 1 < r2) (h2 : r2 < (k.FIELD_HEIGHT : Int))
    (hc1 : completeRow k f r1) (hc2 : completeRow k f r2)
    (honly : ∀ i : Nat, i < k.FIELD_HEIGHT → completeRow k f (i : Int) →
      (i : Int) = r1 ∨ (i : Int) = r2) :
    ∃ g, attemptDescent k fuel f = .ok g ∧
      (∀ w, 0 ≤ w → w < (k.FIELD_WIDTH : Int) →
        g.cellAt 0 w = voidCell k ∧ g.cellAt 1 w = voidCell k) ∧
      (∀ i w, 2 ≤ i → i < r1 → 0 ≤ w → w < (k.FIELD_WIDTH : Int) →
        g.cellAt (i + 2) w = f.cellAt i w) ∧
      (∀ i w, 2 ≤ i → r1 < i → i < r2 → 0 ≤ w → w < (k.FIELD_WIDTH : Int) →
        g.cellAt (i + 1) w = f.cellAt i w) ∧
      (∀ i w, r2 < i → i < (k.FIELD_HEIGHT : Int) → 0 ≤ w → w < (k.FIELD_WIDTH : Int) →
        g.cellAt i w = f.cellAt i w) := by
  have he : ∀ r : Int, completeMap k f r = true ↔ (r = r1 ∨ r = r2) := by
    intro r
    rw [completeMap_iff]
    constructor
    · rintro ⟨h0, hH, hc⟩
      have := honly r.toNat (by omega) (by rw [Int.toNat_of_nonneg h0]; exact hc)
      rw [Int.toNat_of_nonneg h0] at this
      exact this
    · rintro (rfl | rfl)
      · exact ⟨h1, by omega, hc1⟩
      · exact ⟨by omega, h2, hc2⟩
  have hcnt := fun i => cntAbove_two (completeMap k f) r1 r2 h1 (by omega) he i k.FIELD_HEIGHT
  have hnc : ∀ i : Int, i ≠ r1 → i ≠ r2 → ¬ completeRow k f i ∨ ¬ (0 ≤ i ∧ i < (k.FIELD_HEIGHT : Int)) := by
    intro i n1 n2
    by_cases hr : 0 ≤ i ∧ i < (k.FIELD_HEIGHT : Int)
    · left
      intro hc
      rcases (he i).mp ((completeMap_iff k f i).mpr ⟨hr.1, hr.2, hc⟩) with h | h
      · exact n1 h
      · exact n2 h
    · right; exact hr
  have hK : (cntAbove (completeMap k f) k.FIELD_HEIGHT (-1) : Int) = 2 := by
    rw [hcnt (-1)]
    have a : (-1 : Int) < r1 ∧ r1 < (k.FIELD_HEIGHT : Int) := ⟨by omega, by omega⟩
    have b : (-1 : Int) < r2 ∧ r2 < (k.FIELD_HEIGHT : Int) := ⟨by omega, by omega⟩
    simp [a, b]
  obtain ⟨g, hg, htop, hkept⟩ := attemptDescent_cells k fuel f hfuel hsv
  rw [hK] at htop hkept
  refine ⟨g, hg, ?_, ?_, ?_, ?_⟩
  · intro w hw0 hw1
    exact ⟨htop 0 w (le_refl _) (by omega) hw0 hw1, htop 1 w (by omega) (by omega) hw0 hw1⟩
  · intro i w hi2 hi1 hw0 hw1
    have hn : ¬ completeRow k f i := by
      rcases hnc i (by omega) (by omega) with h | h
      · exact h
      · exact absurd ⟨by omega, by omega⟩ h
    have := hkept i w hi2 (by omega) hn hw0 hw1
    rw [hcnt i] at this
    have a : i < r1 ∧ r1 < (k.FIELD_HEIGHT : Int) := ⟨hi1, by omega⟩
    have b : i < r2 ∧ r2 < (k.FIELD_HEIGHT : Int) := ⟨by omega, by omega⟩
    simpa [a, b] using this
  · intro i w hi2 hi1 hi3 hw0 hw1
    have hn : ¬ completeRow k f i := by
      rcases hnc i (by omega) (by omega) with h | h
      · exact h
      · exact absurd ⟨by omega, by omega⟩ h
    have := hkept i w hi2 (by omega) hn hw0 hw1
    rw [hcnt i] at this
    have a : ¬ (i < r1 ∧ r1 < (k.FIELD_HEIGHT : Int)) := by omega
    have b : i < r2 ∧ r2 < (k.FIELD_HEIGHT : Int) := ⟨by omega, by omega⟩
    simpa [a, b] using this
  · intro i w hi1 hi2 hw0 hw1
    have hn : ¬ completeRow k f i := by
      rcases hnc i (by omega) (by omega) with h | h
      · exact h
      · exact absurd ⟨by omega, by omega⟩ h
    have := hkept i w (by omega) hi2 hn hw0 hw1
    rw [hcnt i] at this
    have a : ¬ (i < r1 ∧ r1 < (k.FIELD_HEIGHT : Int)) := by omega
    have b : ¬ (i < r2 ∧ r2 < (k.FIELD_HEIGHT : Int)) := by omega
    simpa [a, b] using this

theorem exFieldTwo_sharedVoid : exFieldTwo.sharedVoid exConsts20 := by
  intro h w h2 w2 hb hb2 hne he
  exfalso
  rw [inBoard_iff] at hb hb2
  simp only [exConsts20] at hb hb2
  simp only [exFieldTwo] at he
  apply hne
  have : h = h2 ∧ w = w2 := by omega
  rw [this.1, this.2]

set_option maxRecDepth 8000 in
/-- Instance of C9 (amended): rows 5 and 9 of the 20-row example board are complete; after
`attemptDescent` rows 0 and 1 are Void, rows 2 to 4 appear at rows 4 to 6, rows 6 to 8
appear at rows 7 to 9, and rows 10 to 19 stay. -/
theorem C9_two_rows_cleared_witness :
    ∃ g, attemptDescent exConsts20 21 exFieldTwo = .ok g ∧
      (∀ w, 0 ≤ w → w < (exConsts20.FIELD_WIDTH : Int) →
        g.cellAt 0 w = voidCell exConsts20 ∧ g.cellAt 1 w = voidCell exConsts20) ∧
      (∀ i w, 2 ≤ i → i < 5 → 0 ≤ w → w < (exConsts20.FIELD_WIDTH : Int) →
        g.cellAt (i + 2) w = exFieldTwo.cellAt i w) ∧
      (∀ i w, 2 ≤ i → 5 < i → i < 9 → 0 ≤ w → w < (exConsts20.FIELD_WIDTH : Int) →
        g.cellAt (i + 1) w = exFieldTwo.cellAt i w) ∧
      (∀ i w, 9 < i → i < (exConsts20.FIELD_HEIGHT : Int) → 0 ≤ w →
        w < (exConsts20.FIELD_WIDTH : Int) → g.cellAt i w = exFieldTwo.cellAt i w) :=
  C9_two_rows_cleared exConsts20 21 exFieldTwo 5 9 exFieldTwo_sharedVoid (by decide)
    (by decide) (by decide) (by decide) (by decide) (by decide) (by decide)

set_option maxRecDepth 8000 in
/-- C9 as stated fails: on the 20-row example board with rows 5 and 9 complete, row 7 lies
above row 9 and is not cleared, and its slot in column 0 is Fixed; after `attemptDescent`
the slot `(9, 0)`, two rows further down, is Void, while the old row 7 is found one row
further down, at row 8. -/
theorem C9_counterexample :
    (∀ i : Nat, i < exConsts20.FIELD_HEIGHT →
      (completeRow exConsts20 exFieldTwo (i : Int) ↔ (i = 5 ∨ i = 9))) ∧
    exFieldTwo.cellAt 7 0 = ⟨.Fixed, 3⟩ ∧
    cellAfter (attemptDescent exConsts20 21 exFieldTwo) 9 0 = some ⟨.VOID, 0⟩ ∧
    cellAfter (attemptDescent exConsts20 21 exFieldTwo) 8 0 = some ⟨.Fixed, 3⟩ := by
  refine ⟨by decide, by decide, by rfl, by rfl⟩

set_option maxRecDepth 8000 in
/-- C1 fails on the code: on the 20 × 10 example board only the bottom row 19 is complete
and the top row 0 holds a Fixed cell in column 0.  After `attemptDescent` the old row 0
should be found at row 1, but the slot `(1, 0)` is Void: `copyLine` stores the pointers of
row 0 in row 1, and the final `eraseLine(0)` resets the cells behind them.  The rows
further down are moved as the claim says (old `(1, 0)` is found at `(2, 0)`). -/
theorem C1_top_row_lost :
    getCompleteHorizontalLines exConsts20 exFieldTop = .ok [19] ∧
    exFieldTop.cellAt 0 0 = ⟨.Fixed, 3⟩ ∧
    cellAfter (attemptDescent exConsts20 21 exFieldTop) 1 0 = some ⟨.VOID, 0⟩ ∧
    cellAfter (attemptDescent exConsts20 21 exFieldTop) 2 0 = some ⟨.Fixed, 3⟩ := by
  refine ⟨by rfl, by decide, by rfl, by rfl⟩

/-! ### C16, C20, C11, C17: complete rows and the descent loop -/

theorem completeLines_pairwise (k : Consts) (f : Field) :
    (((List.range k.FIELD_HEIGHT).filter
      (fun (h : Nat) => decide (completeRow k f (h : Int)))).map Int.ofNat).Pairwise
      (fun a b => a < b) := by
  rw [List.pairwise_map]
  have h1 : (List.range k.FIELD_HEIGHT).Pairwise (fun a b => a < b) := List.pairwise_lt_range _
  have h2 := List.Pairwise.filter (fun (h : Nat) => decide (completeRow k f (h : Int))) h1
  exact h2.imp (fun h => by simpa using h)

/-- C16: for every board, `getCompleteHorizontalLines` returns a list that contains exactly
the row indices `h` in `[0, FIELD_HEIGHT)` whose `FIELD_WIDTH` cells are all Fixed, in
strictly increasing order (so each once); a row with a cell that is Void, Falling or
DropPreview is not in the list. -/
theorem C16_complete_lines_exact (k : Consts) (f : Field) :
    ∃ lines, getCompleteHorizontalLines k f = .ok lines ∧
      (∀ h : Int, h ∈ lines ↔
        0 ≤ h ∧ h < (k.FIELD_HEIGHT : Int) ∧
          ∀ w : Nat, w < k.FIELD_WIDTH → (f.cellAt h (w : Int)).state = .Fixed) ∧
      lines.Pairwise (fun a b => a < b) ∧ lines.Nodup ∧
      (∀ h : Int, ∀ w : Nat, w < k.FIELD_WIDTH → (f.cellAt h (w : Int)).state ≠ .Fixed →
        h ∉ lines) := by
  refine ⟨_, getCompleteHorizontalLines_eq k f, ?_, completeLines_pairwise k f, ?_, ?_⟩
  · intro h
    rw [mem_completeLines]
    rfl
  · exact (completeLines_pairwise k f).imp (fun h => ne_of_lt h)
  · intro h w hw hne hmem
    rw [mem_completeLines] at hmem
    exact hne (hmem.2.2 w hw)

theorem getHardDropMino_at_bottom (k : Consts) (fuel : Nat) (f : Field) (m : Mino)
    (hb : atBottom k f m = .ok true) (hfuel : 0 < fuel) :
    getHardDropMino k fuel f (some m) = .ok f.curMino := by
  obtain ⟨n, rfl⟩ : ∃ n, fuel = n + 1 := ⟨fuel - 1, by omega⟩
  simp [getHardDropMino, hardDropLoop, hb]

/-- C20: for every field and every candidate piece `m` that is already at-bottom,
`getHardDropMino(m)` returns the current piece of the field (nil when there is none),
whatever `m` is; so when curMino and dropPredMino are nil, as after a lock,
`setDropPredMino(m)` returns the field unchanged: no preview is installed for `m`, and
`addMino(m)` goes on to `setMino(m, Falling)` on that unchanged field. -/
theorem C20_at_bottom_candidate_no_preview (k : Consts) (fuel : Nat) (f : Field) (m : Mino)
    (hb : atBottom k f m = .ok true) (hfuel : 0 < fuel) :
    getHardDropMino k fuel f (some m) = .ok f.curMino ∧
    (f.curMino = none → f.dropPredMino = none →
      setDropPredMino k fuel f (some m) = .ok f ∧
      addMino k fuel f (some m) = setMino k f (some m) .Falling) := by
  have h1 := getHardDropMino_at_bottom k fuel f m hb hfuel
  refine ⟨h1, ?_⟩
  intro hc hp
  have h2 : setDropPredMino k fuel f (some m) = .ok f := by
    simp [setDropPredMino, h1, hc, hp, setMino]
  exact ⟨h2, by simp [addMino, h2]⟩

/-- Instance of C20: on the 4 × 3 example field, which has no current piece and no preview,
the piece in column 1, rows 2 and 3, overlaps the Fixed slot `(3, 1)`; no preview is
installed for it. -/
theorem C20_at_bottom_candidate_witness :
    atBottom exConsts exField exMinoLow = .ok true ∧
    getHardDropMino exConsts 1 exField (some exMinoLow) = .ok exField.curMino ∧
    (exField.curMino = none → exField.dropPredMino = none →
      setDropPredMino exConsts 1 exField (some exMinoLow) = .ok exField ∧
      addMino exConsts 1 exField (some exMinoLow) =
        setMino exConsts exField (some exMinoLow) .Falling) :=
  ⟨rfl, C20_at_bottom_candidate_no_preview exConsts 1 exField exMinoLow rfl (by decide)⟩

/-- C11: for every board and every candidate piece `m` with at least one cell, all columns
in `[0, FIELD_WIDTH)`, that is not at-bottom: there is exactly one depth `d` such that `m`
moved down by `0 .. d` rows is never at-bottom and `m` moved down by `d + 1` rows is
at-bottom; with fuel `d + 2` or more `getHardDropMino(m)` returns `m` moved down by `d`
rows, which is legal: the last piece of the descent that was not at-bottom. -/
theorem C11_hard_drop_projection (k : Consts) (f : Field) (m : Mino) (hne : m.coords ≠ [])
    (hc : ∀ c ∈ m.coords, 0 ≤ c.w ∧ c.w < (k.FIELD_WIDTH : Int))
    (hb : atBottom k f m = .ok false) :
    ∃ d : Nat,
      (∀ j : Nat, j ≤ d → atBottom k f (m.shift (j : Int) 0) = .ok false) ∧
      atBottom k f (m.shift ((d : Int) + 1) 0) = .ok true ∧
      (∀ e : Nat, (∀ j : Nat, j ≤ e → atBottom k f (m.shift (j : Int) 0) = .ok false) →
        atBottom k f (m.shift ((e : Int) + 1) 0) = .ok true → e = d) ∧
      (∀ fuel, d + 2 ≤ fuel →
        getHardDropMino k fuel f (some m) = .ok (some (m.shift (d : Int) 0))) ∧
      legalMove k f (m.shift (d : Int) 0) = .ok true := by
  have hl : legalMove k f m = .ok true := (legal_iff_cols_not_bottom k f m).mpr ⟨hc, hb⟩
  obtain ⟨d, hlow, hhit⟩ := exists_depth k f m hne hl
  refine ⟨d, hlow, hhit, ?_, ?_, ?_⟩
  · intro e helow ehit
    by_contra hned
    rcases Nat.lt_or_gt_of_ne hned with h | h
    · have := hlow (e + 1) (by omega)
      push_cast at this
      rw [ehit] at this
      cases this
    · have := helow (d + 1) (by omega)
      push_cast at this
      rw [hhit] at this
      cases this
  · intro fuel hfuel
    have := hardDropLoop_depth k f m d hlow hhit d 0 f.curMino fuel (by omega) hfuel
    simpa [getHardDropMino, shift_zero] using this
  · exact (legal_iff_cols_not_bottom k f _).mpr ⟨colsInRange_shift k m _ hc, hlow d (le_refl _)⟩

/-- Instance of C11: on the 4 × 3 example field the single cell `(0, 1)` descends to
`(2, 1)`, above the Fixed slot `(3, 1)`. -/
theorem C11_hard_drop_projection_witness :
    ∃ d : Nat,
      (∀ j : Nat, j ≤ d →
        atBottom exConsts exField ((⟨[⟨0, 1⟩], 6⟩ : Mino).shift (j : Int) 0) = .ok false) ∧
      atBottom exConsts exField ((⟨[⟨0, 1⟩], 6⟩ : Mino).shift ((d : Int) + 1) 0) = .ok true ∧
      (∀ e : Nat,
        (∀ j : Nat, j ≤ e →
          atBottom exConsts exField ((⟨[⟨0, 1⟩], 6⟩ : Mino).shift (j : Int) 0) = .ok false) →
        atBottom exConsts exField ((⟨[⟨0, 1⟩], 6⟩ : Mino).shift ((e : Int) + 1) 0) = .ok true →
        e = d) ∧
      (∀ fuel, d + 2 ≤ fuel →
        getHardDropMino exConsts fuel exField (some ⟨[⟨0, 1⟩], 6⟩) =
          .ok (some ((⟨[⟨0, 1⟩], 6⟩ : Mino).shift (d : Int) 0))) ∧
      legalMove exConsts exField ((⟨[⟨0, 1⟩], 6⟩ : Mino).shift (d : Int) 0) = .ok true :=
  C11_hard_drop_projection exConsts exField ⟨[⟨0, 1⟩], 6⟩ (by decide) (by decide) rfl

theorem setMino_ok (k : Consts) (f : Field) (m : Option Mino) (s : State) (hs : s ≠ .VOID)
    (hf : f.fresh k) (hv : minoOnBoard k m) :
    ∃ g, setMino k f m s = .ok g ∧ g.fresh k := by
  cases m with
  | none => exact ⟨f, rfl, hf⟩
  | some m =>
    have hv2 : visibleOnBoard k m.coords := hv
    cases s with
    | VOID => exact absurd rfl hs
    | Falling =>
      obtain ⟨g, hg, hfr, _⟩ :=
        setCoords_spec k .Falling m.color m.coords { f with curMino := some m } hv2 hf
      exact ⟨g, hg, hfr⟩
    | DropPred =>
      obtain ⟨g, hg, hfr, _⟩ :=
        setCoords_spec k .DropPred k.colorDropPred m.coords { f with dropPredMino := some m }
          hv2 hf
      exact ⟨g, hg, hfr⟩
    | Fixed =>
      obtain ⟨g, hg, hfr, _⟩ :=
        setCoords_spec k .Fixed m.color m.coords
          { f with curMino := none, dropPredMino := none } hv2 hf
      exact ⟨g, hg, hfr⟩

theorem setDropPredMino_ok (k : Consts) (fuel : Nat) (f : Field) (m r : Option Mino)
    (hwf : f.WF k) (hdrop : getHardDropMino k fuel f m = .ok r) (hr : minoOnBoard k r) :
    ∃ g, setDropPredMino k fuel f m = .ok g := by
  obtain ⟨hfresh, _, hpon⟩ := hwf
  unfold setDropPredMino
  rw [hdrop]
  cases hpred : f.dropPredMino with
  | none =>
    obtain ⟨g, hg, _⟩ := setMino_ok k f r .DropPred (by decide) hfresh hr
    exact ⟨g, hg⟩
  | some old =>
    rw [hpred] at hpon
    have hvo : visibleOnBoard k old.coords := hpon
    obtain ⟨f1, hf1, _⟩ := blankCoords_spec k old.coords f hvo
    have hfresh1 := blankCoords_fresh k old.coords f f1 hvo hf1 hfresh
    obtain ⟨g, hg, _⟩ := setMino_ok k f1 r .DropPred (by decide) hfresh1 hr
    refine ⟨g, ?_⟩
    simp only [blank, hf1]
    exact hg

/-- C17: for every board and every piece with at least one cell and all columns in
`[0, FIELD_WIDTH)`, the descent loop of `getHardDropMino` ends: with enough fuel it returns
a piece, without a read outside the board.  Hence, on a well-formed field, the preview
computation `setDropPredMino` returns, and `attempt(MoveHardDrop)` returns when the piece
is the current piece. -/
theorem C17_descent_terminates (k : Consts) (f : Field) (m : Mino) (hne : m.coords ≠ [])
    (hc : ∀ c ∈ m.coords, 0 ≤ c.w ∧ c.w < (k.FIELD_WIDTH : Int)) :
    ∃ N, ∀ fuel, N ≤ fuel →
      (∃ r, getHardDropMino k fuel f (some m) = .ok r) ∧
      (f.WF k → ∃ g, setDropPredMino k fuel f (some m) = .ok g) ∧
      (f.WF k → f.curMino = some m → ∃ g, attempt k fuel f .MoveHardDrop = .ok g) := by
  have hbe := atBottom_eq k f m hc
  by_cases hb : ∃ c ∈ m.coords, c.bottomOn k f
  · -- at-bottom at once: the loop body never runs
    have hbt : atBottom k f m = .ok true := by rw [hbe]; simp [hb]
    refine ⟨1, fun fuel hfuel => ?_⟩
    have hdrop := getHardDropMino_at_bottom k fuel f m hbt (by omega)
    refine ⟨⟨_, hdrop⟩, ?_, ?_⟩
    · intro hwf
      exact setDropPredMino_ok k fuel f (some m) f.curMino hwf hdrop hwf.2.1
    · intro hwf hcur
      obtain ⟨hfresh, hon, _⟩ := hwf
      rw [hcur] at hon
      have hv : visibleOnBoard k m.coords := hon
      obtain ⟨f1, hf1, _⟩ := blankCoords_spec k m.coords f hv
      have hfresh1 := blankCoords_fresh k m.coords f f1 hv hf1 hfresh
      obtain ⟨f2, hf2, hfresh2, hcur2, _⟩ :=
        setCoords_spec k .Falling m.color m.coords { f1 with curMino := some m } hv hfresh1
      have hc2 : f2.curMino = some m := hcur2
      obtain ⟨g, hg, _⟩ := setMino_ok k f2 (some m) .Fixed (by decide) hfresh2 hv
      refine ⟨g, ?_⟩
      rw [hcur] at hdrop
      simp only [attempt, if_true, hcur, hdrop, moveMino, blank, hf1, setMino]
      rw [hf2]
      simp only [hc2]
      simpa [setMino] using hg
  · have hbf : atBottom k f m = .ok false := by rw [hbe]; simp [hb]
    have hl : legalMove k f m = .ok true := (legal_iff_cols_not_bottom k f m).mpr ⟨hc, hbf⟩
    obtain ⟨d, hq, _, hdrop⟩ := getHardDropMino_legal k f m hne hl
    refine ⟨d + 2, fun fuel hfuel => ?_⟩
    refine ⟨⟨_, hdrop fuel hfuel⟩, ?_, ?_⟩
    · intro hwf
      exact setDropPredMino_ok k fuel f (some m) _ hwf (hdrop fuel hfuel)
        (legal_visibleOnBoard k f _ hq)
    · intro hwf hcur
      obtain ⟨g, hg, _⟩ := hardDrop_locks k fuel f m _ hwf hcur hl (hdrop fuel hfuel) hq
      exact ⟨g, hg⟩

/-- Instance of C17: the single-cell current piece of the 4 × 3 example field. -/
theorem C17_descent_terminates_witness :
    ∃ N, ∀ fuel, N ≤ fuel →
      (∃ r, getHardDropMino exConsts fuel exFieldFalling (some ⟨[⟨0, 1⟩], 6⟩) = .ok r) ∧
      (exFieldFalling.WF exConsts →
        ∃ g, setDropPredMino exConsts fuel exFieldFalling (some ⟨[⟨0, 1⟩], 6⟩) = .ok g) ∧
      (exFieldFalling.WF exConsts → exFieldFalling.curMino = some ⟨[⟨0, 1⟩], 6⟩ →
        ∃ g, attempt exConsts fuel exFieldFalling .MoveHardDrop = .ok g) :=
  C17_descent_terminates exConsts exFieldFalling ⟨[⟨0, 1⟩], 6⟩ (by decide) (by decide)

/-! ### C15: the cursors of `dropRemains` -/

/-- One pass through the body of the copy loop from a state that satisfies `CopyInv`. -/
theorem copyLoop_step (k : Consts) (eMap : Int → Bool) (f1 : Field) (total : Nat)
    (htotal : k.FIELD_HEIGHT < total) (src dst : Int) (g : Field)
    (hinv : CopyInv k eMap f1 src dst g) :
    ∃ g2 s1, copyLine k g dst src = .ok g2 ∧ skipErased k eMap total (src - 1) = .ok s1 ∧
      s1 < src ∧
      ((0 ≤ s1 ∧ voidFill k total s1 (dst - 1) g2 = .ok (dst - 1, g2) ∧
          CopyInv k eMap f1 s1 (dst - 1) g2) ∨
       (s1 = -1 ∧ ∃ g3, voidFill k total s1 (dst - 1) g2 = .ok (-1, g3))) := by
  obtain ⟨hs0, hsd, hdH, hes, hdst, hheap, hnext, hcur, hpred, hrows, hkept⟩ := hinv
  obtain ⟨g2, hg2, hheap2, hnext2, hcur2, hpred2, hother2, hrow2⟩ :=
    copyLine_spec k g dst src ⟨by omega, hdH⟩ ⟨hs0, by omega⟩
  obtain ⟨s1, hs1, hs1lo, hs1hi, hs1kept, hs1gap⟩ :=
    skipErased_spec k eMap total (src - 1) (by omega) (by omega) (by omega)
  refine ⟨g2, s1, hg2, hs1, by omega, ?_⟩
  have hgap : ∀ r : Int, s1 < r → r < src → eMap r = true :=
    fun r h1 h2 => hs1gap r h1 (by omega)
  have hcnt := cntAbove_gap eMap k.FIELD_HEIGHT s1 src hs1lo (by omega) (by omega) hes hgap
  by_cases hs1neg : s1 < 0
  · right
    have hs1e : s1 = -1 := by omega
    subst hs1e
    obtain ⟨g3, hg3, _⟩ :=
      voidFill_spec k (-1) (by omega) total (dst - 1) g2 (by omega) (by omega) (by omega)
    exact ⟨rfl, g3, hg3⟩
  · left
    have hs1nn : 0 ≤ s1 := by omega
    have hvf : voidFill k total s1 (dst - 1) g2 = .ok (dst - 1, g2) := by
      obtain ⟨t2, rfl⟩ : ∃ x, total = x + 1 := ⟨total - 1, by omega⟩
      exact voidFill_skip k t2 s1 (dst - 1) g2 hs1nn
    refine ⟨hs1nn, hvf, hs1nn, by omega, by omega, hs1kept hs1nn, by omega,
      by rw [hheap2, hheap], by rw [hnext2, hnext], by rw [hcur2, hcur],
      by rw [hpred2, hpred], ?_, ?_⟩
    · intro r w hr
      rw [hother2 r w (by omega)]
      exact hrows r w (by omega)
    · intro i w hi1 hi2 hie hw0 hw1
      by_cases hlt : i < src
      · have := hgap i hi1 hlt
        rw [this] at hie; cases hie
      · by_cases heq : i = src
        · subst heq
          rw [← hdst, hrow2 w hw0 hw1]
          exact hrows i w (by omega)
        · have hstrict := cntAbove_strict eMap k.FIELD_HEIGHT src i (by omega) hi2 hie
          rw [hother2 _ w (by omega)]
          exact hkept i w (by omega) hi2 hie hw0 hw1

theorem copyLoopCursors_lt (k : Consts) (eMap : Int → Bool) (f1 : Field) (total : Nat)
    (htotal : k.FIELD_HEIGHT < total) :
    ∀ (fuel : Nat) (src dst : Int) (g : Field), CopyInv k eMap f1 src dst g →
      ∀ p ∈ copyLoopCursors k eMap total fuel src dst g, p.1 < p.2 := by
  intro fuel
  induction fuel with
  | zero => intro src dst g _ p hp; simp [copyLoopCursors] at hp
  | succ fuel ih =>
    intro src dst g hinv p hp
    obtain ⟨g2, s1, hg2, hs1, _, hnext⟩ := copyLoop_step k eMap f1 total htotal src dst g hinv
    have hs0 := hinv.1
    have hsd := hinv.2.1
    have hcond : 0 ≤ src ∧ 0 ≤ dst := ⟨hs0, by omega⟩
    have hnot : ¬ src < 0 := by omega
    unfold copyLoopCursors at hp
    simp only [hcond, and_self, if_true, hnot, if_false, hg2, hs1, List.mem_cons] at hp
    rcases hp with rfl | hp
    · exact hsd
    · rcases hnext with ⟨_, hvf, hinv2⟩ | ⟨hs1e, g3, hvf⟩
      · rw [hvf] at hp
        exact ih s1 (dst - 1) g2 hinv2 p hp
      · rw [hvf] at hp
        subst hs1e
        cases fuel with
        | zero => simp [copyLoopCursors] at hp
        | succ n => simp [copyLoopCursors] at hp

/-- The state in which `dropRemains` reaches its copy loop, for a non-empty list of rows of
the board: either no kept row lies above the lowest erased row, or the read row `s` found
and the write row `d`, the largest erased row, satisfy `CopyInv`. -/
theorem dropRemains_entry (k : Consts) (f : Field) (lines : List Int)
    (hl : ∀ l ∈ lines, 0 ≤ l ∧ l < (k.FIELD_HEIGHT : Int)) (hne : lines ≠ []) :
    ∃ eMap f1 t, erasedMap k lines = .ok eMap ∧ eraseLines k f lines = .ok f1 ∧
      nFixedLine eMap k.FIELD_HEIGHT 0 = t ∧ t < k.FIELD_HEIGHT ∧
      ((k.FIELD_HEIGHT : Int) ≤ copySrcL k eMap (k.FIELD_HEIGHT - t) ∨
        ∃ (s : Nat) (d : Int), copySrcL k eMap (k.FIELD_HEIGHT - t) = (s : Int) ∧
          (lines.insertionSort (fun a b => a ≤ b)).getLast? = some d ∧ d ∈ lines ∧
          (∀ l ∈ lines, l ≤ d) ∧ CopyInv k eMap f1 (s : Int) d f1) := by
  obtain ⟨f1, hf1, hboard1, hnext1, hcur1, hpred1, hheap1⟩ := eraseLines_spec k lines hl f
  obtain ⟨eMap, heMap, hmem⟩ := erasedMap_spec k lines hl
  obtain ⟨t, htH, hnf, hlow, hhit⟩ := nFixedLine_spec eMap k.FIELD_HEIGHT 0
  obtain ⟨l0, hl0⟩ := List.exists_mem_of_ne_nil _ hne
  have hl0r := hl l0 hl0
  have hfalse : ∀ i, eMap i = false ↔ i ∉ lines := by
    intro i
    rw [← hmem i]
    cases eMap i <;> simp
  have htlt : t < k.FIELD_HEIGHT := by
    by_contra hge
    have := hlow l0.toNat (by omega) (by omega)
    rw [Int.toNat_of_nonneg hl0r.1] at this
    exact ((hfalse l0).mp this) hl0
  have hetrue := hhit htlt
  have hkeptlow : ∀ i : Int, (k.FIELD_HEIGHT : Int) - t ≤ i → i < (k.FIELD_HEIGHT : Int) →
      eMap i = false := by
    intro i h1 h2
    have := hlow i.toNat (by omega) (by omega)
    rwa [Int.toNat_of_nonneg (by omega)] at this
  have hcntlow : ∀ i : Int, (k.FIELD_HEIGHT : Int) - t - 1 ≤ i →
      cntAbove eMap k.FIELD_HEIGHT i = 0 := by
    intro i hi
    apply cntAbove_zero_of
    intro r h1 h2
    exact hkeptlow r (by omega) (by omega)
  have htop : ∀ i, cntAbove eMap k.FIELD_HEIGHT i = cntAbove eMap (k.FIELD_HEIGHT - t) i := by
    intro i
    exact cntAbove_top eMap (k.FIELD_HEIGHT - t) i k.FIELD_HEIGHT (by omega)
      (fun r h1 h2 => hlow r h1 h2)
  refine ⟨eMap, f1, t, heMap, hf1, by simpa using hnf, htlt, ?_⟩
  rcases copySrcL_spec k eMap (k.FIELD_HEIGHT - t) (by omega) with
    ⟨hsrc, _⟩ | ⟨s, hs, hsrc, hskept, hsgap⟩
  · left; rw [hsrc]
  · right
    obtain ⟨d, hd, hdmem, hdmax⟩ := sorted_last_max lines hne
    have hdr := hl d hdmem
    have hde : d = (k.FIELD_HEIGHT : Int) - t - 1 := by
      have h1 : (((k.FIELD_HEIGHT - t - 1 : Nat) : Int)) ∈ lines := (hmem _).mp hetrue
      have h2 := hdmax _ h1
      have h3 : ¬ ((k.FIELD_HEIGHT : Int) - t ≤ d) := by
        intro hge
        have := hkeptlow d hge hdr.2
        exact ((hfalse d).mp this) hdmem
      omega
    have hsgapInt : ∀ r : Int, (s : Int) < r → r < ((k.FIELD_HEIGHT - t : Nat) : Int) →
        eMap r = true := by
      intro r h1 h2
      have := hsgap r.toNat (by omega) (by omega)
      rwa [Int.toNat_of_nonneg (by omega)] at this
    have hsd : (s : Int) < d := by
      have : (s : Int) ≠ d := by
        intro h
        rw [← h] at hdmem
        exact ((hfalse _).mp hskept) hdmem
      omega
    refine ⟨s, d, hsrc, hd, hdmem, hdmax, by omega, hsd, hdr.2, hskept, ?_, rfl, rfl, rfl, rfl,
      fun _ _ _ => rfl, ?_⟩
    · rw [htop]
      have := cntAbove_full eMap (k.FIELD_HEIGHT - t) (s : Int) (by omega) (by omega) hsgapInt
      omega
    · intro i w hi0 hi1 hie hw0 hw1
      have hige : (k.FIELD_HEIGHT : Int) - t ≤ i := by
        by_contra hlt
        have := hsgapInt i hi0 (by omega)
        rw [this] at hie; cases hie
      rw [hcntlow i (by omega)]
      simp

/-- C15: for every board and every non-empty list of row indices in `[0, FIELD_HEIGHT)`
passed to `dropRemains`: with fuel above the board height the call returns a field, so the
branch `panic("Fail to drop line: copying")` is not taken; whenever the fail-fast test is
reached, the read cursor is strictly smaller than the write cursor, which is the largest
row of the list; and every time the body of the copy loop is entered the read cursor is
strictly smaller than the write cursor. -/
theorem C15_copy_cursors_ordered (k : Consts) (fuel : Nat) (f : Field) (lines : List Int)
    (hl : ∀ l ∈ lines, 0 ≤ l ∧ l < (k.FIELD_HEIGHT : Int)) (hne : lines ≠ [])
    (hfuel : k.FIELD_HEIGHT < fuel) :
    (∃ g, dropRemains k fuel f lines = .ok g) ∧
    (∀ s d, dropRemainsCheck k f lines = some (s, d) →
      s < d ∧ d ∈ lines ∧ ∀ l ∈ lines, l ≤ d) ∧
    (∀ p ∈ dropRemainsCursors k fuel f lines, p.1 < p.2) := by
  obtain ⟨_, _, g, _, _, hg, _⟩ := dropRemains_spec k fuel f lines hl hne hfuel
  obtain ⟨eMap, f1, t, heMap, hf1, hnf, htlt, hcase⟩ := dropRemains_entry k f lines hl hne
  have hlen : ¬ lines.length = 0 := by
    intro h; exact hne (List.length_eq_zero.mp h)
  have hnotge2 : ¬ k.FIELD_HEIGHT ≤ t := by omega
  refine ⟨⟨g, hg⟩, ?_, ?_⟩
  · intro s d hcheck
    unfold dropRemainsCheck at hcheck
    simp only [hf1, hlen, if_false, heMap, hnf, hnotge2] at hcheck
    rcases hcase with hge | ⟨s0, d0, hsrc, hd, hdmem, hdmax, hinv⟩
    · simp [hge] at hcheck
    · have h1 : ¬ (k.FIELD_HEIGHT : Int) ≤ (s0 : Int) := by
        have := hinv.2.1; have := hinv.2.2.1; omega
      simp only [hsrc, h1, if_false, hd, Option.some.injEq, Prod.mk.injEq] at hcheck
      obtain ⟨rfl, rfl⟩ := hcheck
      exact ⟨hinv.2.1, hdmem, hdmax⟩
  · intro p hp
    unfold dropRemainsCursors at hp
    simp only [hf1, hlen, if_false, heMap, hnf, hnotge2] at hp
    rcases hcase with hge | ⟨s0, d0, hsrc, hd, hdmem, hdmax, hinv⟩
    · simp [hge] at hp
    · have h1 : ¬ (k.FIELD_HEIGHT : Int) ≤ (s0 : Int) := by
        have := hinv.2.1; have := hinv.2.2.1; omega
      have h2 : ¬ d0 ≤ (s0 : Int) := by have := hinv.2.1; omega
      simp only [hsrc, h1, if_false, hd, h2] at hp
      exact copyLoopCursors_lt k eMap f1 fuel hfuel fuel _ _ f1 hinv p hp

set_option maxRecDepth 8000 in
/-- Instance of C15: `dropRemains` on rows 5 and 9 of the 20-row example board; the loop
body is entered with the cursor pairs `(8, 9)`, `(7, 8)`, `(6, 7)`, `(4, 6)`, ..., `(0, 2)`. -/
theorem C15_copy_cursors_witness :
    (∃ g, dropRemains exConsts20 21 exFieldTwo [5, 9] = .ok g) ∧
    (∀ s d, dropRemainsCheck exConsts20 exFieldTwo [5, 9] = some (s, d) →
      s < d ∧ d ∈ [5, 9] ∧ ∀ l ∈ [5, 9], l ≤ d) ∧
    (∀ p ∈ dropRemainsCursors exConsts20 21 exFieldTwo [5, 9], p.1 < p.2) :=
  C15_copy_cursors_ordered exConsts20 21 exFieldTwo [5, 9] (by decide) (by decide) (by decide)

/-! ### C19: no complete row after a line clear -/

theorem cntAbove_step (eMap : Int → Bool) (j : Nat) :
    ∀ n : Nat, j < n →
      (cntAbove eMap n ((j : Int) - 1) : Int) =
        cntAbove eMap n (j : Int) + (if eMap (j : Int) = true then 1 else 0) := by
  intro n
  induction n with
  | zero => intro h; omega
  | succ n ih =>
    intro hj
    simp only [cntAbove]
    by_cases hjn : j < n
    · have := ih hjn
      have a : (j : Int) - 1 < (n : Int) := by omega
      have b : (j : Int) < (n : Int) := by omega
      simp only [a, b, true_and]
      push_cast
      omega
    · have hjn2 : j = n := by omega
      subst hjn2
      have h0 : cntAbove eMap j ((j : Int) - 1) = 0 :=
        cntAbove_zero_of eMap j _ (fun r h1 h2 => by omega)
      have h1 : cntAbove eMap j (j : Int) = 0 :=
        cntAbove_zero_of eMap j _ (fun r h1 h2 => by omega)
      have a : (j : Int) - 1 < (j : Int) := by omega
      have b : ¬ (j : Int) < (j : Int) := by omega
      simp only [h0, h1, a, b, true_and, false_and, if_false]
      split <;> simp

/-- Every row from the number of erased rows on is the landing row of a kept row. -/
theorem landing_surjective (eMap : Int → Bool) (n : Nat) :
    ∀ j : Nat, j ≤ n → ∀ t : Int, (cntAbove eMap n (-1) : Int) ≤ t →
      t ≤ (j : Int) - 1 + cntAbove eMap n ((j : Int) - 1) →
      ∃ i : Nat, i < j ∧ eMap (i : Int) = false ∧ (i : Int) + cntAbove eMap n (i : Int) = t := by
  intro j
  induction j with
  | zero =>
    intro _ t h1 h2
    simp only [Nat.cast_zero, zero_sub] at h2
    omega
  | succ j ih =>
    intro hj t h1 h2
    have hstep := cntAbove_step eMap j n (by omega)
    have e : ((j + 1 : Nat) : Int) - 1 = (j : Int) := by push_cast; omega
    rw [e] at h2
    by_cases he : eMap (j : Int) = true
    · simp only [he, if_true] at hstep
      obtain ⟨i, hi, hie, hit⟩ := ih (by omega) t h1 (by omega)
      exact ⟨i, by omega, hie, hit⟩
    · simp only [he, if_false] at hstep
      by_cases ht : t = (j : Int) + cntAbove eMap n (j : Int)
      · exact ⟨j, by omega, by simpa using he, ht.symm⟩
      · obtain ⟨i, hi, hie, hit⟩ := ih (by omega) t h1 (by omega)
        exact ⟨i, by omega, hie, hit⟩

theorem attemptDescent_of_no_complete (k : Consts) (fuel : Nat) (f : Field)
    (hnone : ∀ h : Nat, h < k.FIELD_HEIGHT → ¬ completeRow k f (h : Int)) :
    getCompleteHorizontalLines k f = .ok [] ∧ attemptDescent k fuel f = .ok f := by
  have hnil : (List.range k.FIELD_HEIGHT).filter
      (fun (h : Nat) => decide (completeRow k f (h : Int))) = [] := by
    rw [List.filter_eq_nil_iff]
    intro h hh
    simp only [decide_eq_true_eq]
    exact hnone h (List.mem_range.mp hh)
  have hlines : getCompleteHorizontalLines k f = .ok [] := by
    rw [getCompleteHorizontalLines_eq, hnil]; rfl
  refine ⟨hlines, ?_⟩
  unfold attemptDescent
  rw [hlines]
  simp

theorem attemptDescent_no_complete (k : Consts) (fuel : Nat) (f : Field)
    (hW : 0 < k.FIELD_WIDTH) (hfuel : k.FIELD_HEIGHT < fuel) :
    ∃ g, attemptDescent k fuel f = .ok g ∧
      ∀ h : Nat, h < k.FIELD_HEIGHT → ¬ completeRow k g (h : Int) := by
  obtain ⟨g, hg, _, _, _, hkept, htop, hvoid, hkeep⟩ := attemptDescent_spec k fuel f hfuel
  refine ⟨g, hg, ?_⟩
  intro h hh hcomp
  have hKle := cntAbove_le (completeMap k f) k.FIELD_HEIGHT (-1) (by omega)
  by_cases hK : (h : Int) < (cntAbove (completeMap k f) k.FIELD_HEIGHT (-1) : Int)
  · -- one of the top rows: its column 0 is Void
    have hc := hcomp 0 hW
    unfold Field.cellAt at hc
    rw [htop (h : Int) _ (by omega) hK] at hc
    have hv := hvoid (f.board ((h : Int), ((0 : Nat) : Int)))
      ⟨(h : Int), by omega, by omega, Or.inr hK, 0, hW, rfl⟩
    rw [hv] at hc
    simp [voidCell] at hc
  · -- the landing row of a kept row
    have hlast : (cntAbove (completeMap k f) k.FIELD_HEIGHT
        (((k.FIELD_HEIGHT : Nat) : Int) - 1) : Int) = 0 := by
      have := cntAbove_zero_of (completeMap k f) k.FIELD_HEIGHT
        (((k.FIELD_HEIGHT : Nat) : Int) - 1) (fun r h1 h2 => by omega)
      simp [this]
    obtain ⟨i, hi, hie, hit⟩ :=
      landing_surjective (completeMap k f) k.FIELD_HEIGHT k.FIELD_HEIGHT (le_refl _) (h : Int)
        (by omega) (by omega)
    have hnc : ¬ completeRow k f (i : Int) := by
      intro hc
      have := (completeMap_iff k f (i : Int)).mpr ⟨by omega, by omega, hc⟩
      rw [this] at hie; cases hie
    -- a cell of row `i` that is not Fixed
    have hex : ∃ w : Nat, w < k.FIELD_WIDTH ∧ (f.cellAt (i : Int) (w : Int)).state ≠ .Fixed := by
      by_contra hall
      apply hnc
      intro w hw
      by_contra hne
      exact hall ⟨w, hw, hne⟩
    obtain ⟨w, hw, hne⟩ := hex
    have hc := hcomp w hw
    unfold Field.cellAt at hc hne
    rw [← hit, hkept (i : Int) (w : Int) (by omega) (by omega) hnc (by omega) (by omega)] at hc
    by_cases hp : ∃ r : Int, 0 ≤ r ∧ r < (k.FIELD_HEIGHT : Int) ∧
        (completeRow k f r ∨ r < (cntAbove (completeMap k f) k.FIELD_HEIGHT (-1) : Int)) ∧
        ∃ w2 : Nat, w2 < k.FIELD_WIDTH ∧ f.board (r, (w2 : Int)) = f.board ((i : Int), (w : Int))
    · rw [hvoid _ hp] at hc
      simp [voidCell] at hc
    · rw [hkeep _ hp] at hc
      exact hne hc

/-- C19: for every board with at least one column, after `attemptDescent` (with fuel above
the board height) no row is complete: `getCompleteHorizontalLines` returns the empty list,
and running `attemptDescent` a second time returns the board unchanged. -/
theorem C19_descent_idempotent (k : Consts) (fuel : Nat) (f : Field)
    (hW : 0 < k.FIELD_WIDTH) (hfuel : k.FIELD_HEIGHT < fuel) :
    ∃ g, attemptDescent k fuel f = .ok g ∧
      (∀ h : Nat, h < k.FIELD_HEIGHT →
        ∃ w : Nat, w < k.FIELD_WIDTH ∧ (g.cellAt (h : Int) (w : Int)).state ≠ .Fixed) ∧
      getCompleteHorizontalLines k g = .ok [] ∧
      attemptDescent k fuel g = .ok g := by
  obtain ⟨g, hg, hnone⟩ := attemptDescent_no_complete k fuel f hW hfuel
  obtain ⟨h1, h2⟩ := attemptDescent_of_no_complete k fuel g hnone
  refine ⟨g, hg, ?_, h1, h2⟩
  intro h hh
  by_contra hall
  apply hnone h hh
  intro w hw
  by_contra hne
  exact hall ⟨w, hw, hne⟩

/-- Instance of C19: the 20-row example board with rows 5 and 9 complete. -/
theorem C19_descent_idempotent_witness :
    ∃ g, attemptDescent exConsts20 21 exFieldTwo = .ok g ∧
      (∀ h : Nat, h < exConsts20.FIELD_HEIGHT →
        ∃ w : Nat, w < exConsts20.FIELD_WIDTH ∧
          (g.cellAt (h : Int) (w : Int)).state ≠ .Fixed) ∧
      getCompleteHorizontalLines exConsts20 g = .ok [] ∧
      attemptDescent exConsts20 21 g = .ok g :=
  C19_descent_idempotent exConsts20 21 exFieldTwo (by decide) (by decide)

/-! ### C18: Fixed cells under `attempt` -/

theorem bottomCoords_false (k : Consts) (f : Field) (cs : List Coord)
    (h : bottomCoords k f cs = .ok false) : visibleOnBoard k cs ∧ offFixed f cs := by
  induction cs with
  | nil =>
    exact ⟨fun c hc => absurd hc (List.not_mem_nil c), fun c hc => absurd hc (List.not_mem_nil c)⟩
  | cons c cs ih =>
    unfold bottomCoords at h
    by_cases h3 : c.h < 0
    · simp only [Coord.isExceedTop, h3, decide_True, if_true] at h
      obtain ⟨hv, ho⟩ := ih h
      constructor
      · intro x hx h0
        rcases List.mem_cons.mp hx with rfl | hx
        · omega
        · exact hv x hx h0
      · intro x hx h0
        rcases List.mem_cons.mp hx with rfl | hx
        · omega
        · exact ho x hx h0
    · simp only [Coord.isExceedTop, h3, decide_False, Bool.false_eq_true, if_false,
        Coord.getHeight, Coord.getWidth] at h
      by_cases h2 : (k.FIELD_HEIGHT : Int) ≤ c.h
      · simp [h2] at h
      · simp only [h2, if_false] at h
        by_cases hb : inBoard k c.h c.w = true
        · rw [getCell_ok k f _ _ hb] at h
          simp only at h
          by_cases h4 : (f.heap (f.board (c.h, c.w))).state = .Fixed
          · simp [h4] at h
          · simp only [h4, if_false] at h
            obtain ⟨hv, ho⟩ := ih h
            constructor
            · intro x hx h0
              rcases List.mem_cons.mp hx with rfl | hx
              · exact hb
              · exact hv x hx h0
            · intro x hx h0
              rcases List.mem_cons.mp hx with rfl | hx
              · exact h4
              · exact ho x hx h0
        · have hb2 : inBoard k c.h c.w = false := by simpa using hb
          rw [getCell_err k f _ _ hb2] at h
          simp at h

/-- What the descent loop can return: the piece handed in as `prev` when the first piece is
at-bottom, and otherwise a translate of the first piece that is not at-bottom. -/
theorem hardDropLoop_result (k : Consts) (f : Field) :
    ∀ (fuel : Nat) (m : Mino) (prev r : Option Mino),
      hardDropLoop k f fuel m prev = .ok r →
      (atBottom k f m = .ok true ∧ r = prev) ∨
      (atBottom k f m = .ok false ∧
        ∃ j : Nat, r = some (m.shift (j : Int) 0) ∧
          atBottom k f (m.shift (j : Int) 0) = .ok false) := by
  intro fuel
  induction fuel with
  | zero => intro m prev r h; simp [hardDropLoop] at h
  | succ fuel ih =>
    intro m prev r h
    unfold hardDropLoop at h
    rcases hb : atBottom k f m with e | b
    · rw [hb] at h; simp at h
    · rw [hb] at h
      cases b
      · simp only at h
        right
        refine ⟨rfl, ?_⟩
        rcases ih _ _ _ h with ⟨_, hr⟩ | ⟨_, j, hr, hj⟩
        · refine ⟨0, ?_, ?_⟩
          · simpa [shift_zero] using hr
          · simpa [shift_zero] using hb
        · refine ⟨j + 1, ?_, ?_⟩
          · rw [hr, move_drop, shift_shift]; congr 2; push_cast; ring
          · rw [move_drop, shift_shift] at hj
            have e : (1 : Int) + (j : Int) = ((j + 1 : Nat) : Int) := by push_cast; ring
            rw [e] at hj; exact hj
      · simp only [Except.ok.injEq] at h
        exact Or.inl ⟨rfl, h.symm⟩

theorem atBottom_false_onBoard (k : Consts) (f : Field) (m : Mino)
    (h : atBottom k f m = .ok false) : visibleOnBoard k m.coords ∧ offFixed f m.coords :=
  bottomCoords_false k f m.coords h

/-- The outcomes of `attempt` for a move other than a hard drop: the current piece is
locked, or the field is returned as it was, or a legal candidate is accepted. -/
theorem attempt_cases (k : Consts) (fuel : Nat) (f g : Field) (p : Mino) (mv : Move)
    (hmv : mv ≠ .MoveHardDrop) (hcur : f.curMino = some p)
    (hres : attempt k fuel f mv = .ok g) :
    (mv = .MoveDrop ∧ atBottom k f (p.move k mv) = .ok true ∧
      setMino k f (some p) .Fixed = .ok g) ∨
    g = f ∨
    (∃ q, legalMove k f q = .ok true ∧ acceptMove k fuel f q = .ok g) := by
  unfold attempt at hres
  simp only [hmv, if_false, hcur] at hres
  rcases hb : (if mv = .MoveDrop then atBottom k f (p.move k mv) else .ok false) with e | b
  · rw [hb] at hres; simp at hres
  · rw [hb] at hres
    cases b
    · -- not locking
      simp only at hres
      rcases hl : legalMove k f (p.move k mv) with e | b
      · rw [hl] at hres; simp at hres
      · rw [hl] at hres
        cases b
        · simp only at hres
          by_cases hrot : mv = .RotLeft ∨ mv = .RotRight
          · simp only [hrot, if_true] at hres
            rcases hce : checkExceedSide k (p.move k mv) with ⟨ex, n⟩
            rw [hce] at hres
            cases ex
            · simp only at hres
              rcases hl2 : legalMove k f (slide k .MoveRight n (p.move k mv)) with e | b
              · rw [hl2] at hres; simp at hres
              · rw [hl2] at hres
                cases b
                · simp only [Except.ok.injEq] at hres
                  exact Or.inr (Or.inl hres.symm)
                · exact Or.inr (Or.inr ⟨_, hl2, hres⟩)
            · simp only at hres
              rcases hl2 : legalMove k f (slide k .MoveLeft n (p.move k mv)) with e | b
              · rw [hl2] at hres; simp at hres
              · rw [hl2] at hres
                cases b
                · simp only [Except.ok.injEq] at hres
                  exact Or.inr (Or.inl hres.symm)
                · exact Or.inr (Or.inr ⟨_, hl2, hres⟩)
            · simp only [Except.ok.injEq] at hres
              exact Or.inr (Or.inl hres.symm)
          · simp only [hrot, if_false, Except.ok.injEq] at hres
            exact Or.inr (Or.inl hres.symm)
        · exact Or.inr (Or.inr ⟨_, hl, hres⟩)
    · -- locking soft drop
      simp only at hres
      left
      by_cases hd : mv = .MoveDrop
      · simp only [hd, if_true] at hb
        exact ⟨hd, by rw [hd]; exact hb, hres⟩
      · simp [hd] at hb

/-- An accepted move keeps the Fixed cells and the well-formedness of the field. -/
theorem acceptMove_inv (k : Consts) (fuel : Nat) (f g : Field) (p q : Mino)
    (hwf : f.WF k) (hcur : f.curMino = some p) (hop : offFixed f p.coords)
    (hoo : ∀ old, f.dropPredMino = some old → offFixed f old.coords)
    (hq : legalMove k f q = .ok true) (hres : acceptMove k fuel f q = .ok g) :
    sameFixed k f g ∧ g.WF k ∧ g.curMino = some q ∧
      ∃ r, g.dropPredMino = some r ∧ legalMove k f r = .ok true ∧
        getHardDropMino k fuel f (some q) = .ok (some r) := by
  have hqc := (legal_iff_cols_not_bottom k f q).mp hq
  rcases hd : getHardDropMino k fuel f (some q) with e | r0
  · simp [acceptMove, setDropPredMino, hd] at hres
  · have hd2 : hardDropLoop k f fuel q f.curMino = .ok r0 := by
      simpa [getHardDropMino] using hd
    rcases hardDropLoop_result k f fuel q f.curMino r0 hd2 with ⟨hbt, _⟩ | ⟨_, j, hr, hj⟩
    · rw [hqc.2] at hbt; cases hbt
    · subst hr
      have hrl : legalMove k f (q.shift (j : Int) 0) = .ok true :=
        (legal_iff_cols_not_bottom k f _).mpr ⟨colsInRange_shift k q _ hqc.1, hj⟩
      obtain ⟨g2, hg2, hwf2, hcur2, hpred2, hsame⟩ :=
        acceptMove_spec k fuel f p q _ hwf hcur hq hd hrl
      rw [hres] at hg2
      cases hg2
      exact ⟨hsame hop hoo, hwf2, hcur2, _, hpred2, hrl, rfl⟩

/-- C18: for every well-formed field in which neither the current piece nor the preview
piece has a coordinate on a Fixed cell, and for every move (translation, soft drop, hard
drop, rotation with any rotated candidate): in the field that `attempt` returns every slot
that was Fixed is Fixed with the same colour; if the piece was not locked (curMino is not
nil) the Fixed slots and their colours are exactly those of the field before; and the
returned field is again well-formed with neither piece on a Fixed cell. -/
theorem C18_fixed_cells_preserved (k : Consts) (fuel : Nat) (f g : Field) (mv : Move)
    (hwf : f.WF k)
    (hop : ∀ p, f.curMino = some p → offFixed f p.coords)
    (hoo : ∀ q, f.dropPredMino = some q → offFixed f q.coords)
    (hres : attempt k fuel f mv = .ok g) :
    (∀ h w c, inBoard k h w = true → f.fixedView h w = some c → g.fixedView h w = some c) ∧
    (g.curMino ≠ none → sameFixed k f g) ∧
    g.WF k ∧
    (∀ p, g.curMino = some p → offFixed g p.coords) ∧
    (∀ q, g.dropPredMino = some q → offFixed g q.coords) := by
  -- a lock of the piece `n`, drawn on slots that are not Fixed
  have hlock : ∀ (f2 : Field) (n : Mino), f2.fresh k → visibleOnBoard k n.coords →
      offFixed f n.coords → sameFixed k f f2 → setMino k f2 (some n) .Fixed = .ok g →
      (∀ h w c, inBoard k h w = true → f.fixedView h w = some c → g.fixedView h w = some c) ∧
      (g.curMino ≠ none → sameFixed k f g) ∧ g.WF k ∧
      (∀ p, g.curMino = some p → offFixed g p.coords) ∧
      (∀ q, g.dropPredMino = some q → offFixed g q.coords) := by
    intro f2 n hfr hv hon hs hset
    obtain ⟨g2, hg2, hgcur, hgpred, hview⟩ := setMino_fixed_spec k f2 n hfr hv
    obtain ⟨g3, hg3, hfr3⟩ := setMino_ok k f2 (some n) .Fixed (by decide) hfr hv
    rw [hset] at hg2 hg3
    cases hg2
    cases hg3
    refine ⟨?_, fun hne => absurd hgcur hne, ⟨hfr3, ?_, ?_⟩, ?_, ?_⟩
    rotate_left
    · rw [hgcur]; trivial
    · rw [hgpred]; trivial
    · intro p hp; rw [hgcur] at hp; cases hp
    · intro q hq; rw [hgpred] at hq; cases hq
    intro h w c hb hfx
    rw [hview h w hb, hs h w hb]
    have hnot : (⟨h, w⟩ : Coord) ∉ n.coords := by
      intro hm
      have h0 : 0 ≤ h := by rw [inBoard_iff] at hb; exact hb.1
      have := (fixedView_none_iff f h w).mpr (hon ⟨h, w⟩ hm h0)
      rw [this] at hfx; cases hfx
    rw [if_neg hnot]
    exact hfx
  cases hcur : f.curMino with
  | none =>
    exfalso
    by_cases hm : mv = .MoveHardDrop
    · simp [attempt, hm, hcur, getHardDropMino] at hres
    · simp [attempt, hm, hcur] at hres
  | some p =>
    have hopp := hop p hcur
    have hvp : visibleOnBoard k p.coords := by
      have := hwf.2.1; rw [hcur] at this; exact this
    by_cases hm : mv = .MoveHardDrop
    · -- hard drop
      subst hm
      simp only [attempt, if_true, hcur] at hres
      rcases hd : getHardDropMino k fuel f (some p) with e | r0
      · rw [hd] at hres; simp at hres
      · rw [hd] at hres
        simp only at hres
        have hd2 : hardDropLoop k f fuel p (some p) = .ok r0 := by
          simpa [getHardDropMino, hcur] using hd
        -- the piece that is locked
        have hn : ∃ n, r0 = some n ∧ visibleOnBoard k n.coords ∧ offFixed f n.coords := by
          rcases hardDropLoop_result k f fuel p (some p) r0 hd2 with ⟨_, hr⟩ | ⟨_, j, hr, hj⟩
          · exact ⟨p, hr, hvp, hopp⟩
          · exact ⟨_, hr, (atBottom_false_onBoard k f _ hj).1, (atBottom_false_onBoard k f _ hj).2⟩
        obtain ⟨n, rfl, hvn, hon⟩ := hn
        obtain ⟨f1, hf1, _, _, _, _, _⟩ := blankCoords_spec k p.coords f hvp
        have hfresh1 := blankCoords_fresh k p.coords f f1 hvp hf1 hwf.1
        have s1 : sameFixed k f f1 := blank_sameFixed k f f1 p hvp hopp hf1
        obtain ⟨f2, hf2, hfresh2, hcur2, _, _, _, _, _⟩ :=
          setCoords_spec k .Falling n.color n.coords { f1 with curMino := some n } hvn hfresh1
        have s2 : sameFixed k f1 f2 :=
          setCoords_sameFixed k .Falling n.color n.coords { f1 with curMino := some n } f2
            (by decide) hvn hfresh1 (offFixed_of_sameFixed k f f1 n.coords s1 hvn hon) hf2
        have hc2 : f2.curMino = some n := hcur2
        simp only [moveMino, blank, hf1, setMino] at hres
        rw [hf2] at hres
        simp only [hc2] at hres
        exact hlock f2 n hfresh2 hvn hon (sameFixed_trans k f f1 f2 s1 s2) hres
    · rcases attempt_cases k fuel f g p mv hm hcur hres with ⟨_, _, hset⟩ | rfl | ⟨q, hq, hacc⟩
      · exact hlock f p hwf.1 hvp hopp (sameFixed_refl k f) hset
      · exact ⟨fun _ _ _ _ h => h, fun _ => sameFixed_refl k g, hwf, hop, hoo⟩
      · obtain ⟨hs, hwfg, hgcur, r, hgpred, hrl, _⟩ :=
          acceptMove_inv k fuel f g p q hwf hcur hopp hoo hq hacc
        refine ⟨?_, fun _ => hs, hwfg, ?_, ?_⟩
        · intro h w c hb hfx
          rw [hs h w hb]; exact hfx
        · intro p2 hp2
          rw [hgcur] at hp2
          cases hp2
          exact offFixed_of_sameFixed k f g _ hs (legal_visibleOnBoard k f _ hq)
            (legal_offFixed k f _ hq)
        · intro q2 hq2
          rw [hgpred] at hq2
          cases hq2
          exact offFixed_of_sameFixed k f g _ hs (legal_visibleOnBoard k f _ hrl)
            (legal_offFixed k f _ hrl)

/-- Instance of C18: a soft drop of the single-cell piece of the 4 × 3 example field is
accepted; the Fixed slot `(3, 1)` is kept and no other slot becomes Fixed. -/
theorem C18_fixed_cells_preserved_witness :
    exFieldFalling.WF exConsts ∧
    attempt exConsts 6 exFieldFalling .MoveDrop =
      .ok (fieldAfter (attempt exConsts 6 exFieldFalling .MoveDrop) exFieldFalling) ∧
    (fieldAfter (attempt exConsts 6 exFieldFalling .MoveDrop) exFieldFalling).curMino ≠ none ∧
    sameFixed exConsts exFieldFalling
      (fieldAfter (attempt exConsts 6 exFieldFalling .MoveDrop) exFieldFalling) ∧
    (fieldAfter (attempt exConsts 6 exFieldFalling .MoveDrop) exFieldFalling).WF exConsts :=
  have hop : ∀ p, exFieldFalling.curMino = some p → offFixed exFieldFalling p.coords := by
    intro p hp
    have : p = ⟨[⟨0, 1⟩], 6⟩ := by simpa [exFieldFalling] using hp.symm
    subst this
    unfold offFixed
    decide
  have hoo : ∀ q, exFieldFalling.dropPredMino = some q → offFixed exFieldFalling q.coords := by
    intro q hq
    have : q = ⟨[⟨2, 1⟩], 6⟩ := by simpa [exFieldFalling] using hq.symm
    subst this
    unfold offFixed
    decide
  have h := C18_fixed_cells_preserved exConsts 6 exFieldFalling
    (fieldAfter (attempt exConsts 6 exFieldFalling .MoveDrop) exFieldFalling) .MoveDrop
    (by decide) hop hoo rfl
  ⟨by decide, rfl, by decide, h.2.1 (by decide), h.2.2.1⟩

/-! ### C13: the Falling cells after an accepted move -/

/-- In `attempt`, a move other than a hard drop whose candidate, naive or slid, is legal
continues with `acceptMove` on that candidate. -/
theorem attempt_accept (k : Consts) (fuel : Nat) (f : Field) (p q : Mino) (mv : Move)
    (hmv : mv ≠ .MoveHardDrop) (hcur : f.curMino = some p)
    (hleg : legalMove k f q = .ok true)
    (hq : q = p.move k mv ∨
      ((mv = .RotLeft ∨ mv = .RotRight) ∧ legalMove k f (p.move k mv) = .ok false ∧
        (checkExceedSide k (p.move k mv)).1 ≠ .noExceedSide ∧
        q = slidCandidate k (p.move k mv))) :
    attempt k fuel f mv = acceptMove k fuel f q := by
  rcases hq with rfl | ⟨hrot, hill, hex, rfl⟩
  · have hb := ((legal_iff_cols_not_bottom k f _).mp hleg).2
    have hcond : (if mv = .MoveDrop then atBottom k f (p.move k mv) else .ok false) =
        .ok false := by
      split
      · exact hb
      · rfl
    simp only [attempt, hmv, if_false, hcur, hcond, hleg]
  · rw [attempt_rot_slide k fuel f p mv hrot hcur hill hex, hleg]

/-- After `blank(m)` no slot of `m` on the board is Falling, and no slot has become
Falling. -/
theorem blankCoords_no_falling (k : Consts) (cs : List Coord) (f g : Field)
    (hv : visibleOnBoard k cs) (hg : blankCoords k cs f = .ok g) :
    ∀ h w, (g.cellAt h w).state = .Falling →
      (f.cellAt h w).state = .Falling ∧ ¬ (0 ≤ h ∧ (⟨h, w⟩ : Coord) ∈ cs) := by
  obtain ⟨g1, hg1, hboard, _, _, _, hheap⟩ := blankCoords_spec k cs f hv
  rw [hg] at hg1
  cases hg1
  intro h w hfall
  unfold Field.cellAt at hfall ⊢
  rw [hboard, hheap] at hfall
  by_cases hx : ∃ c ∈ cs, 0 ≤ c.h ∧ f.board (c.h, c.w) = f.board (h, w)
  · rw [if_pos hx] at hfall
    cases hfall
  · rw [if_neg hx] at hfall
    refine ⟨hfall, ?_⟩
    rintro ⟨h0, hm⟩
    exact hx ⟨⟨h, w⟩, hm, h0, rfl⟩

/-- The cells after an accepted move on a field whose Falling slots are the visible
coordinates of the current piece. -/
theorem acceptMove_falling (k : Consts) (fuel : Nat) (f : Field) (p q r : Mino)
    (hwf : f.WF k) (hcur : f.curMino = some p)
    (hfall : ∀ h w, inBoard k h w = true →
      ((f.cellAt h w).state = .Falling ↔ (⟨h, w⟩ : Coord) ∈ p.coords))
    (hq : legalMove k f q = .ok true)
    (hdrop : getHardDropMino k fuel f (some q) = .ok (some r))
    (hr : legalMove k f r = .ok true) :
    ∃ g, acceptMove k fuel f q = .ok g ∧ g.curMino = some q ∧ g.dropPredMino = some r ∧
      (∀ c ∈ q.coords, 0 ≤ c.h → g.cellAt c.h c.w = ⟨.Falling, q.color⟩) ∧
      (∀ h w, inBoard k h w = true →
        ((g.cellAt h w).state = .Falling ↔ (⟨h, w⟩ : Coord) ∈ q.coords)) := by
  obtain ⟨hfresh, hon, hpon⟩ := hwf
  rw [hcur] at hon
  have hvp : visibleOnBoard k p.coords := hon
  have hvr := legal_visibleOnBoard k f r hr
  have hvq := legal_visibleOnBoard k f q hq
  -- step 1: blank the old preview, if any
  have step1 : ∃ f1, (match f.dropPredMino with
        | none => (.ok f : Except Fault Field)
        | some old => blank k f old) = .ok f1 ∧ f1.fresh k ∧ f1.curMino = some p ∧
        ∀ h w, (f1.cellAt h w).state = .Falling → (f.cellAt h w).state = .Falling := by
    cases hpred : f.dropPredMino with
    | none => exact ⟨f, rfl, hfresh, hcur, fun _ _ h => h⟩
    | some old =>
      rw [hpred] at hpon
      have hvo : visibleOnBoard k old.coords := hpon
      obtain ⟨f1, hf1, _, _, hc, _, _⟩ := blankCoords_spec k old.coords f hvo
      exact ⟨f1, hf1, blankCoords_fresh k old.coords f f1 hvo hf1 hfresh, by rw [hc, hcur],
        fun h w hf => (blankCoords_no_falling k old.coords f f1 hvo hf1 h w hf).1⟩
  obtain ⟨f1, hf1, hfresh1, hcur1, hfall1⟩ := step1
  -- step 2: draw the new preview
  obtain ⟨f2, hf2, hfresh2, hcur2, hpred2, _, _, hcell2, _⟩ :=
    setCoords_spec k .DropPred k.colorDropPred r.coords { f1 with dropPredMino := some r }
      hvr hfresh1
  -- step 3: blank the current piece
  obtain ⟨f3, hf3, _, _, hcur3, hpred3, _⟩ := blankCoords_spec k p.coords f2 hvp
  have hfresh3 := blankCoords_fresh k p.coords f2 f3 hvp hf3 hfresh2
  have hnofall3 : ∀ h w, inBoard k h w = true → (f3.cellAt h w).state ≠ .Falling := by
    intro h w hb hfl
    obtain ⟨hfl2, hnot⟩ := blankCoords_no_falling k p.coords f2 f3 hvp hf3 h w hfl
    rw [hcell2 h w hb] at hfl2
    by_cases hm : (⟨h, w⟩ : Coord) ∈ r.coords
    · rw [if_pos hm] at hfl2
      cases hfl2
    · rw [if_neg hm] at hfl2
      have hin := (hfall h w hb).mp (hfall1 h w hfl2)
      have h0 : 0 ≤ h := by rw [inBoard_iff] at hb; exact hb.1
      exact hnot ⟨h0, hin⟩
  -- step 4: draw the accepted piece
  obtain ⟨g, hg, _, hcurg, hpredg, _, _, hcellg, _⟩ :=
    setCoords_spec k .Falling q.color q.coords { f3 with curMino := some q } hvq hfresh3
  have hsd : setDropPredMino k fuel f (some q) = .ok f2 := by
    unfold setDropPredMino
    rw [hdrop]
    cases hpred : f.dropPredMino with
    | none =>
      rw [hpred] at hf1
      cases hf1
      simpa [setMino] using hf2
    | some old =>
      rw [hpred] at hf1
      simp only at hf1 ⊢
      rw [hf1]
      simpa [setMino] using hf2
  refine ⟨g, ?_, hcurg, ?_, ?_, ?_⟩
  · unfold acceptMove
    rw [hsd]
    have : f2.curMino = some p := by rw [hcur2]; exact hcur1
    simp only [this, moveMino, blank, hf3, setMino]
    exact hg
  · rw [hpredg]
    show f3.dropPredMino = some r
    rw [hpred3, hpred2]
  · intro c hc h0
    rw [hcellg c.h c.w (hvq c hc h0), if_pos hc]
  · intro h w hb
    rw [hcellg h w hb]
    by_cases hm : (⟨h, w⟩ : Coord) ∈ q.coords
    · simp [hm]
    · rw [if_neg hm]
      constructor
      · intro hfl; exact absurd hfl (hnofall3 h w hb)
      · intro hin; exact absurd hin hm

/-- C13: for every well-formed field in which the Falling slots are exactly the coordinates
with row at least 0 of the current piece `p`, and every move other than a hard drop whose
accepted candidate `q` (the naive candidate, or the slid candidate of a rotation) is legal
and has at least one cell: with enough fuel `attempt` returns a field in which curMino is
`q`, dropPredMino is `getHardDropMino(q)`, every coordinate of `q` with row at least 0
holds a Falling cell of the colour of `q`, and the Falling slots are exactly those
coordinates. -/
theorem C13_falling_cells_follow_piece (k : Consts) (f : Field) (p q : Mino) (mv : Move)
    (hwf : f.WF k) (hcur : f.curMino = some p)
    (hfall : ∀ h w, inBoard k h w = true →
      ((f.cellAt h w).state = .Falling ↔ (⟨h, w⟩ : Coord) ∈ p.coords))
    (hmv : mv ≠ .MoveHardDrop) (hne : q.coords ≠ [])
    (hleg : legalMove k f q = .ok true)
    (hq : q = p.move k mv ∨
      ((mv = .RotLeft ∨ mv = .RotRight) ∧ legalMove k f (p.move k mv) = .ok false ∧
        (checkExceedSide k (p.move k mv)).1 ≠ .noExceedSide ∧
        q = slidCandidate k (p.move k mv))) :
    ∃ N, ∀ fuel, N ≤ fuel →
      ∃ g r, attempt k fuel f mv = .ok g ∧ g.curMino = some q ∧
        getHardDropMino k fuel f (some q) = .ok (some r) ∧ g.dropPredMino = some r ∧
        (∀ c ∈ q.coords, 0 ≤ c.h → g.cellAt c.h c.w = ⟨.Falling, q.color⟩) ∧
        (∀ h w, inBoard k h w = true →
          ((g.cellAt h w).state = .Falling ↔ (⟨h, w⟩ : Coord) ∈ q.coords)) := by
  obtain ⟨d, hr, _, hdrop⟩ := getHardDropMino_legal k f q hne hleg
  refine ⟨d + 2, fun fuel hfuel => ?_⟩
  obtain ⟨g, hg, hgcur, hgpred, hcells, hexact⟩ :=
    acceptMove_falling k fuel f p q _ hwf hcur hfall hleg (hdrop fuel hfuel) hr
  refine ⟨g, _, ?_, hgcur, hdrop fuel hfuel, hgpred, hcells, hexact⟩
  rw [attempt_accept k fuel f p q mv hmv hcur hleg hq]
  exact hg

theorem exFieldFalling_falling (h w : Int) (hb : inBoard exConsts h w = true) :
    (exFieldFalling.cellAt h w).state = .Falling ↔
      (⟨h, w⟩ : Coord) ∈ (⟨[⟨0, 1⟩], 6⟩ : Mino).coords := by
  rw [inBoard_iff] at hb
  simp only [exConsts] at hb
  obtain ⟨h0, h1, w0, w1⟩ := hb
  have h1a : h < 4 := by simpa using h1
  have w1a : w < 3 := by simpa using w1
  interval_cases h <;> interval_cases w <;> decide

/-- Instance of C13: a soft drop of the single-cell piece of the 4 × 3 example field; the
piece moves from `(0, 1)` to `(1, 1)`, which is then the only Falling slot. -/
theorem C13_falling_cells_witness :
    ∃ N, ∀ fuel, N ≤ fuel →
      ∃ g r, attempt exConsts fuel exFieldFalling .MoveDrop = .ok g ∧
        g.curMino = some ⟨[⟨1, 1⟩], 6⟩ ∧
        getHardDropMino exConsts fuel exFieldFalling (some ⟨[⟨1, 1⟩], 6⟩) = .ok (some r) ∧
        g.dropPredMino = some r ∧
        (∀ c ∈ (⟨[⟨1, 1⟩], 6⟩ : Mino).coords, 0 ≤ c.h →
          g.cellAt c.h c.w = ⟨.Falling, (⟨[⟨1, 1⟩], 6⟩ : Mino).color⟩) ∧
        (∀ h w, inBoard exConsts h w = true →
          ((g.cellAt h w).state = .Falling ↔
            (⟨h, w⟩ : Coord) ∈ (⟨[⟨1, 1⟩], 6⟩ : Mino).coords)) :=
  C13_falling_cells_follow_piece exConsts exFieldFalling ⟨[⟨0, 1⟩], 6⟩ ⟨[⟨1, 1⟩], 6⟩
    .MoveDrop (by decide) rfl exFieldFalling_falling (by decide) (by decide) rfl (Or.inl rfl)

/-! ### C12: the side and the count of the slide correction -/

theorem hMap_fold (sel : Coord → Bool) (coords : List Coord) :
    ∀ acc : List Int, acc.Nodup →
      (coords.foldl (fun acc coord => if sel coord then acc.insert coord.getHeight else acc)
        acc).Nodup ∧
      ∀ x, x ∈ coords.foldl
          (fun acc coord => if sel coord then acc.insert coord.getHeight else acc) acc ↔
        (x ∈ acc ∨ ∃ c ∈ coords, sel c = true ∧ c.h = x) := by
  induction coords with
  | nil => intro acc hn; exact ⟨hn, by simp⟩
  | cons c cs ih =>
    intro acc hn
    simp only [List.foldl_cons]
    by_cases hs : sel c = true
    · simp only [hs, if_true]
      obtain ⟨h1, h2⟩ := ih (acc.insert c.getHeight) (hn.insert)
      refine ⟨h1, fun x => ?_⟩
      rw [h2 x]
      simp only [List.mem_insert_iff, Coord.getHeight, List.mem_cons, exists_eq_or_imp, hs,
        true_and]
      constructor
      · rintro ((h | h) | h)
        · exact Or.inr (Or.inl h.symm)
        · exact Or.inl h
        · exact Or.inr (Or.inr h)
      · rintro (h | h | h)
        · exact Or.inl (Or.inr h)
        · exact Or.inl (Or.inl h.symm)
        · exact Or.inr h
    · simp only [hs, Bool.false_eq_true, if_false]
      obtain ⟨h1, h2⟩ := ih acc hn
      refine ⟨h1, fun x => ?_⟩
      rw [h2 x]
      simp [hs]

/-- The size of `hMap` is the number of distinct rows among the selected coordinates. -/
theorem hMap_length (sel : Coord → Bool) (coords : List Coord) :
    (hMap sel coords).length = ((coords.filter sel).map (fun c => c.h)).toFinset.card := by
  obtain ⟨hn, hmem⟩ := hMap_fold sel coords [] List.nodup_nil
  unfold hMap
  rw [← List.toFinset_card_of_nodup hn]
  congr 1
  ext x
  simp only [List.mem_toFinset, hmem, List.not_mem_nil, false_or, List.mem_map, List.mem_filter]
  constructor
  · rintro ⟨c, hc, hs, rfl⟩; exact ⟨c, ⟨hc, hs⟩, rfl⟩
  · rintro ⟨c, ⟨hc, hs⟩, rfl⟩; exact ⟨c, hc, hs, rfl⟩

/-- The flags of `checkExceedSide` are decided by the first coordinate with row ≥ 0 that
exceeds a side. -/
theorem exceedFlags_first (k : Consts) (pre post : List Coord) (c0 : Coord)
    (hpre : ∀ c ∈ pre, 0 ≤ c.h → 0 ≤ c.w ∧ c.w < (k.FIELD_WIDTH : Int)) (h0 : 0 ≤ c0.h) :
    (c0.w < 0 → exceedFlags k (pre ++ c0 :: post) = (true, false)) ∧
    ((k.FIELD_WIDTH : Int) ≤ c0.w → exceedFlags k (pre ++ c0 :: post) = (false, true)) := by
  induction pre with
  | nil =>
    have h3 : ¬ c0.h < 0 := by omega
    constructor
    · intro hw
      simp [exceedFlags, Coord.isExceedTop, Coord.getWidth, h3, hw]
    · intro hw
      have : ¬ c0.w < 0 := by omega
      simp [exceedFlags, Coord.isExceedTop, Coord.getWidth, h3, hw, this]
  | cons c cs ih =>
    have ih := ih (fun x hx => hpre x (List.mem_cons_of_mem _ hx))
    have hc := hpre c (List.mem_cons_self _ _)
    simp only [List.cons_append]
    unfold exceedFlags
    by_cases h3 : c.h < 0
    · simp only [Coord.isExceedTop, h3, decide_True, if_true]
      exact ih
    · have := hc (by omega)
      have a : ¬ c.w < 0 := by omega
      have b : ¬ (k.FIELD_WIDTH : Int) ≤ c.w := by omega
      simp only [Coord.isExceedTop, h3, decide_False, Bool.false_eq_true, if_false,
        Coord.getWidth, a, b]
      exact ih

theorem attempt_rot_noexceed (k : Consts) (fuel : Nat) (f : Field) (p : Mino) (mv : Move)
    (hmv : mv = .RotLeft ∨ mv = .RotRight) (hcur : f.curMino = some p)
    (hill : legalMove k f (p.move k mv) = .ok false)
    (hex : (checkExceedSide k (p.move k mv)).1 = .noExceedSide) :
    attempt k fuel f mv = .ok f := by
  have hne : mv ≠ .MoveHardDrop := by rcases hmv with h | h <;> simp [h]
  have hnd : mv ≠ .MoveDrop := by rcases hmv with h | h <;> simp [h]
  simp only [attempt, hne, hnd, if_false, hcur, hill, hmv, if_true]
  rcases hce : checkExceedSide k (p.move k mv) with ⟨ex, n⟩
  rw [hce] at hex
  simp only at hex
  subst hex
  rfl

/-- A rotation whose candidate is illegal and is reported as exceeding a side is decided by
the slid candidate. -/
theorem rot_slide_outcome (k : Consts) (f : Field) (p : Mino) (mv : Move)
    (hwf : f.WF k) (hcur : f.curMino = some p) (hmv : mv = .RotLeft ∨ mv = .RotRight)
    (hill : legalMove k f (p.move k mv) = .ok false)
    (hex : (checkExceedSide k (p.move k mv)).1 ≠ .noExceedSide)
    (hne : (p.move k mv).coords ≠ []) :
    slideOutcome k f mv (slidCandidate k (p.move k mv)) := by
  have hatt := fun fuel => attempt_rot_slide k fuel f p mv hmv hcur hill hex
  constructor
  · intro hleg
    have hne2 := slidCandidate_ne_nil k _ hne
    obtain ⟨d, hq, _, hdrop⟩ := getHardDropMino_legal k f _ hne2 hleg
    refine ⟨d + 2, fun fuel hfuel => ?_⟩
    obtain ⟨g, hg, _, hgcur, _, _⟩ :=
      acceptMove_spec k fuel f p _ _ hwf hcur hleg (hdrop fuel hfuel) hq
    refine ⟨g, ?_, hgcur⟩
    rw [hatt fuel, hleg]
    exact hg
  · intro hleg fuel
    rw [hatt fuel, hleg]

/-- C12 (amended): for every well-formed field and every rotation of the current piece,
let `c` be the rotated candidate and look at the first coordinate of `c`, in the order of
its coordinate list, that has row at least 0 and exceeds a side.  If it exceeds the left
side, `attempt` slides `c` right by `n` columns, where `n` is the number of distinct rows
among all coordinates of `c` with column below 0; if it exceeds the right side, `attempt`
slides `c` left by the number of distinct rows among all coordinates of `c` with column at
least `FIELD_WIDTH`.  If the slid piece is legal it becomes the current piece, otherwise
the field is unchanged.  If no coordinate with row at least 0 exceeds a side and `c` is
illegal, the field is unchanged and nothing is slid. -/
theorem C12_slide_side_and_count (k : Consts) (f : Field) (p : Mino) (mv : Move)
    (hwf : f.WF k) (hcur : f.curMino = some p) (hmv : mv = .RotLeft ∨ mv = .RotRight) :
    (∀ pre c0 post, (p.move k mv).coords = pre ++ c0 :: post →
      (∀ c ∈ pre, 0 ≤ c.h → 0 ≤ c.w ∧ c.w < (k.FIELD_WIDTH : Int)) → 0 ≤ c0.h →
      (c0.w < 0 →
        slideOutcome k f mv
          ((p.move k mv).shift 0
            ((((p.move k mv).coords.filter (fun c => decide (c.w < 0))).map
              (fun c => c.h)).toFinset.card : Int))) ∧
      ((k.FIELD_WIDTH : Int) ≤ c0.w →
        slideOutcome k f mv
          ((p.move k mv).shift 0
            (-((((p.move k mv).coords.filter
                (fun c => decide ((k.FIELD_WIDTH : Int) ≤ c.w))).map
              (fun c => c.h)).toFinset.card : Int))))) ∧
    ((∀ c ∈ (p.move k mv).coords, 0 ≤ c.h → 0 ≤ c.w ∧ c.w < (k.FIELD_WIDTH : Int)) →
      legalMove k f (p.move k mv) = .ok false → ∀ fuel, attempt k fuel f mv = .ok f) := by
  constructor
  · intro pre c0 post hsplit hpre h0
    have hmem : c0 ∈ (p.move k mv).coords := by rw [hsplit]; simp
    have hne : (p.move k mv).coords ≠ [] := List.ne_nil_of_mem hmem
    have hflags := exceedFlags_first k pre post c0 hpre h0
    rw [← hsplit] at hflags
    have hill : c0.w < 0 ∨ (k.FIELD_WIDTH : Int) ≤ c0.w →
        legalMove k f (p.move k mv) = .ok false := by
      intro hside
      rw [legalMove_eq]
      have : ¬ ∀ c ∈ (p.move k mv).coords, c.legalOn k f := by
        intro hall
        have := hall c0 hmem
        unfold Coord.legalOn at this
        omega
      simp [this]
    constructor
    · intro hw
      have hfl := hflags.1 hw
      have hce : checkExceedSide k (p.move k mv) =
          (.exceedLeft, (hMap (fun c => decide (c.getWidth < 0)) (p.move k mv).coords).length) := by
        simp [checkExceedSide, hfl]
      have hout := rot_slide_outcome k f p mv hwf hcur hmv (hill (Or.inl hw))
        (by rw [hce]; simp) hne
      have hs : slidCandidate k (p.move k mv) =
          (p.move k mv).shift 0
            ((((p.move k mv).coords.filter (fun c => decide (c.w < 0))).map
              (fun c => c.h)).toFinset.card : Int) := by
        unfold slidCandidate
        rw [hce]
        simp only
        rw [slide_right, hMap_length]
        rfl
      rw [hs] at hout
      exact hout
    · intro hw
      have hfl := hflags.2 hw
      have hce : checkExceedSide k (p.move k mv) =
          (.exceedRight,
            (hMap (fun c => decide ((k.FIELD_WIDTH : Int) ≤ c.getWidth))
              (p.move k mv).coords).length) := by
        simp [checkExceedSide, hfl]
      have hout := rot_slide_outcome k f p mv hwf hcur hmv (hill (Or.inr hw))
        (by rw [hce]; simp) hne
      have hs : slidCandidate k (p.move k mv) =
          (p.move k mv).shift 0
            (-((((p.move k mv).coords.filter
                (fun c => decide ((k.FIELD_WIDTH : Int) ≤ c.w))).map
              (fun c => c.h)).toFinset.card : Int)) := by
        unfold slidCandidate
        rw [hce]
        simp only
        rw [slide_left, hMap_length]
        rfl
      rw [hs] at hout
      exact hout
  · intro hnone hill fuel
    exact attempt_rot_noexceed k fuel f p mv hmv hcur hill
      ((checkExceedSide_none_iff k _).mpr hnone)

/-- Instance of C12 (amended): the candidate of Fig2 on the 4 × 5 example field without
Fixed cells; the first visible coordinate that exceeds a side is `(1, -1)`, on the left,
and one row exceeds, so the candidate is slid one column to the right. -/
theorem C12_slide_side_and_count_witness :
    slideOutcome exConstsRot exFieldRotFree .RotLeft
      ((exMinoL.move exConstsRot .RotLeft).shift 0
        ((((exMinoL.move exConstsRot .RotLeft).coords.filter (fun c => decide (c.w < 0))).map
          (fun c => c.h)).toFinset.card : Int)) :=
  ((C12_slide_side_and_count exConstsRot exFieldRotFree exMinoL .RotLeft (by decide) rfl
      (Or.inl rfl)).1 [⟨0, 1⟩] ⟨1, -1⟩ [⟨1, 0⟩, ⟨1, 1⟩] rfl (by decide) (by decide)).1
    (by decide)

/-- C12 as stated fails: on the 4 × 5 example field the rotated candidate is illegal and
its coordinate `(-1, -1)` exceeds the left side; it is the only exceeding coordinate, so
the count of distinct exceeding rows is 1, and the candidate moved one column to the right
is legal.  But that coordinate is above the board, `checkExceedSide` reports no exceeded
side, and `attempt` returns the field unchanged, with the unrotated piece still current. -/
theorem C12_counterexample :
    exFieldHigh.curMino = some exMinoHigh ∧
    exMinoHigh.move exConstsHigh .RotLeft = exMinoHighRot ∧
    legalMove exConstsHigh exFieldHigh exMinoHighRot = .ok false ∧
    (∃ c ∈ exMinoHighRot.coords, c.w < 0) ∧
    ((exMinoHighRot.coords.filter (fun c => decide (c.w < 0))).map
      (fun c => c.h)).toFinset.card = 1 ∧
    legalMove exConstsHigh exFieldHigh (exMinoHighRot.shift 0 1) = .ok true ∧
    (∀ fuel, attempt exConstsHigh fuel exFieldHigh .RotLeft = .ok exFieldHigh) ∧
    exFieldHigh.curMino ≠ some (exMinoHighRot.shift 0 1) := by
  refine ⟨rfl, rfl, rfl, by decide, by decide, rfl, ?_, by decide⟩
  intro fuel
  exact attempt_rot_noexceed exConstsHigh fuel exFieldHigh exMinoHigh .RotLeft (Or.inl rfl) rfl
    rfl rfl
/-! ### C14: the preview after an accepted move -/

set_option maxRecDepth 8000 in
/-- C14 fails on the code: on the 20 × 10 example field the DropPreview slots are exactly
the slots of the preview piece that the current S-shaped piece does not cover.
`attempt(MoveLeft)` is accepted; the new current piece is the piece one column to the left
and its drop projection lies one row lower, so slot `(18, 2)` belongs to the projection
and not to the new piece.  That slot is Void afterwards instead of DropPreview:
`setDropPredMino` draws it, and `moveMino` then blanks the old footprint of the piece,
which contains it. -/
theorem C14_preview_cell_erased :
    exFieldS.curMino = some exMinoS ∧ exFieldS.dropPredMino = some exMinoSPred ∧
    (∀ h : Nat, h < exConsts20.FIELD_HEIGHT → ∀ w : Nat, w < exConsts20.FIELD_WIDTH →
      ((exFieldS.cellAt (h : Int) (w : Int)).state = .DropPred ↔
        ((⟨(h : Int), (w : Int)⟩ : Coord) ∈ exMinoSPred.coords ∧
          (⟨(h : Int), (w : Int)⟩ : Coord) ∉ exMinoS.coords))) ∧
    attempt exConsts20 30 exFieldS .MoveLeft =
      .ok (fieldAfter (attempt exConsts20 30 exFieldS .MoveLeft) exFieldS) ∧
    (fieldAfter (attempt exConsts20 30 exFieldS .MoveLeft) exFieldS).curMino =
      some (exMinoS.shift 0 (-1)) ∧
    getHardDropMino exConsts20 30 (fieldAfter (attempt exConsts20 30 exFieldS .MoveLeft) exFieldS)
      (some (exMinoS.shift 0 (-1))) = .ok (some (exMinoS.shift 1 (-1))) ∧
    (fieldAfter (attempt exConsts20 30 exFieldS .MoveLeft) exFieldS).dropPredMino =
      some (exMinoS.shift 1 (-1)) ∧
    (⟨18, 2⟩ : Coord) ∈ (exMinoS.shift 1 (-1)).coords ∧
    (⟨18, 2⟩ : Coord) ∉ (exMinoS.shift 0 (-1)).coords ∧
    cellAfter (attempt exConsts20 30 exFieldS .MoveLeft) 18 2 = some ⟨.VOID, 0⟩ := by
  refine ⟨rfl, rfl, by decide, rfl, by rfl, by rfl, by rfl, by decide, by decide, by rfl⟩

/-! ### C5: the single slid position of a rotation -/

/-- Whenever `acceptMove` returns on a legal candidate, the candidate is the current piece
of the returned field. -/
theorem acceptMove_curMino (k : Consts) (fuel : Nat) (f g : Field) (p q : Mino)
    (hwf : f.WF k) (hcur : f.curMino = some p)
    (hq : legalMove k f q = .ok true) (hres : acceptMove k fuel f q = .ok g) :
    g.curMino = some q := by
  have hqc := (legal_iff_cols_not_bottom k f q).mp hq
  rcases hd : getHardDropMino k fuel f (some q) with e | r0
  · simp [acceptMove, setDropPredMino, hd] at hres
  · have hd2 : hardDropLoop k f fuel q f.curMino = .ok r0 := by
      simpa [getHardDropMino] using hd
    rcases hardDropLoop_result k f fuel q f.curMino r0 hd2 with ⟨hbt, _⟩ | ⟨_, j, hr, hj⟩
    · rw [hqc.2] at hbt; cases hbt
    · subst hr
      have hrl : legalMove k f (q.shift (j : Int) 0) = .ok true :=
        (legal_iff_cols_not_bottom k f _).mpr ⟨colsInRange_shift k q _ hqc.1, hj⟩
      obtain ⟨g2, hg2, _, hcur2, _, _⟩ :=
        acceptMove_spec k fuel f p q _ hwf hcur hq hd hrl
      rw [hres] at hg2
      cases hg2
      exact hcur2

/-- A rotation whose candidate has a coordinate with row at least 0 beyond a side wall:
the candidate is illegal, and whenever `attempt` returns a field, that field is the input
field or has the slid candidate as its current piece. -/
theorem rot_slide_only (k : Consts) (fuel : Nat) (f g : Field) (p : Mino) (mv : Move)
    (hwf : f.WF k) (hcur : f.curMino = some p) (hmv : mv = .RotLeft ∨ mv = .RotRight)
    (hill : legalMove k f (p.move k mv) = .ok false)
    (hex : (checkExceedSide k (p.move k mv)).1 ≠ .noExceedSide)
    (hres : attempt k fuel f mv = .ok g) :
    g = f ∨ g.curMino = some (slidCandidate k (p.move k mv)) := by
  rw [attempt_rot_slide k fuel f p mv hmv hcur hill hex] at hres
  rcases hl : legalMove k f (slidCandidate k (p.move k mv)) with e | b
  · rw [hl] at hres; simp at hres
  · rw [hl] at hres
    cases b
    · simp only [Except.ok.injEq] at hres
      exact Or.inl hres.symm
    · exact Or.inr (acceptMove_curMino k fuel f g p _ hwf hcur hl hres)

theorem illegal_of_exceed (k : Consts) (f : Field) (m : Mino) (c0 : Coord)
    (hmem : c0 ∈ m.coords) (hside : c0.w < 0 ∨ (k.FIELD_WIDTH : Int) ≤ c0.w) :
    legalMove k f m = .ok false := by
  rw [legalMove_eq]
  have : ¬ ∀ c ∈ m.coords, c.legalOn k f := by
    intro hall
    have := hall c0 hmem
    unfold Coord.legalOn at this
    omega
  simp [this]

/-- C5 (amended): for every well-formed field and every rotation (RotLeft or RotRight) of
the current piece whose rotated candidate `c` has a coordinate with row at least 0 beyond a
side wall, let `c0` be the first such coordinate in the order of the coordinate list of
`c`.  `attempt` tries exactly one slid position `s`, toward the interior: if `c0` is left
of the wall, `s` is `c` moved right by the number of distinct rows among the coordinates
of `c` with column below 0; if `c0` is right of the wall, `s` is `c` moved left by the
number of distinct rows among the coordinates of `c` with column at least `FIELD_WIDTH`.
If `s` is legal, `attempt` (with enough fuel for the preview loop) accepts the rotation and
curMino becomes `s`; if `s` is not legal, the field is returned unchanged.  No other
translation is tried: whenever `attempt` returns a field, it is the input field or its
curMino is `s`. -/
theorem C5_rotation_slide_exact (k : Consts) (f : Field) (p : Mino) (mv : Move) (c0 : Coord)
    (hwf : f.WF k) (hcur : f.curMino = some p) (hmv : mv = .RotLeft ∨ mv = .RotRight)
    (hfirst : (p.move k mv).coords.find?
      (fun c => decide (0 ≤ c.h ∧ (c.w < 0 ∨ (k.FIELD_WIDTH : Int) ≤ c.w))) = some c0) :
    ∃ s : Mino,
      (c0.w < 0 →
        s = (p.move k mv).shift 0
          ((((p.move k mv).coords.filter (fun c => decide (c.w < 0))).map
            (fun c => c.h)).toFinset.card : Int)) ∧
      ((k.FIELD_WIDTH : Int) ≤ c0.w →
        s = (p.move k mv).shift 0
          (-((((p.move k mv).coords.filter
              (fun c => decide ((k.FIELD_WIDTH : Int) ≤ c.w))).map
            (fun c => c.h)).toFinset.card : Int))) ∧
      (c0.w < 0 ∨ (k.FIELD_WIDTH : Int) ≤ c0.w) ∧
      (legalMove k f s = .ok true →
        ∃ N, ∀ fuel, N ≤ fuel → ∃ g, attempt k fuel f mv = .ok g ∧ g.curMino = some s) ∧
      (legalMove k f s = .ok false → ∀ fuel, attempt k fuel f mv = .ok f) ∧
      (∀ fuel g, attempt k fuel f mv = .ok g → g = f ∨ g.curMino = some s) := by
  obtain ⟨hp0, pre, post, hsplit, hpre⟩ := List.find?_eq_some.mp hfirst
  have h0 : 0 ≤ c0.h ∧ (c0.w < 0 ∨ (k.FIELD_WIDTH : Int) ≤ c0.w) := by simpa using hp0
  have hside := h0.2
  have hmem : c0 ∈ (p.move k mv).coords := List.mem_of_find?_eq_some hfirst
  have hpre2 : ∀ c ∈ pre, 0 ≤ c.h → 0 ≤ c.w ∧ c.w < (k.FIELD_WIDTH : Int) := by
    intro c hc hh
    have := hpre c hc
    simp only [Bool.not_eq_true', decide_eq_false_iff_not] at this
    constructor <;> by_contra hcon <;> exact this ⟨hh, by omega⟩
  have hflags := exceedFlags_first k pre post c0 hpre2 h0.1
  rw [← hsplit] at hflags
  -- the side and the count that `checkExceedSide` reports
  have hceL : c0.w < 0 → checkExceedSide k (p.move k mv) =
      (.exceedLeft, (hMap (fun c => decide (c.getWidth < 0)) (p.move k mv).coords).length) := by
    intro hw
    simp [checkExceedSide, hflags.1 hw]
  have hceR : (k.FIELD_WIDTH : Int) ≤ c0.w → checkExceedSide k (p.move k mv) =
      (.exceedRight,
        (hMap (fun c => decide ((k.FIELD_WIDTH : Int) ≤ c.getWidth))
          (p.move k mv).coords).length) := by
    intro hw
    simp [checkExceedSide, hflags.2 hw]
  have hnone : (checkExceedSide k (p.move k mv)).1 ≠ .noExceedSide := by
    rcases hside with hw | hw
    · rw [hceL hw]; simp
    · rw [hceR hw]; simp
  -- the slid candidate of `attempt`
  have hL : c0.w < 0 →
      slidCandidate k (p.move k mv) =
        (p.move k mv).shift 0
          ((((p.move k mv).coords.filter (fun c => decide (c.w < 0))).map
            (fun c => c.h)).toFinset.card : Int) := by
    intro hw
    unfold slidCandidate
    rw [hceL hw]
    simp only
    rw [slide_right, hMap_length]
    rfl
  have hR : (k.FIELD_WIDTH : Int) ≤ c0.w →
      slidCandidate k (p.move k mv) =
        (p.move k mv).shift 0
          (-((((p.move k mv).coords.filter
              (fun c => decide ((k.FIELD_WIDTH : Int) ≤ c.w))).map
            (fun c => c.h)).toFinset.card : Int)) := by
    intro hw
    unfold slidCandidate
    rw [hceR hw]
    simp only
    rw [slide_left, hMap_length]
    rfl
  have hill := illegal_of_exceed k f (p.move k mv) c0 hmem hside
  have hout := rot_slide_outcome k f p mv hwf hcur hmv hill hnone (List.ne_nil_of_mem hmem)
  exact ⟨slidCandidate k (p.move k mv), hL, hR, hside, hout.1, hout.2,
    fun fuel g hres => rot_slide_only k fuel f g p mv hwf hcur hmv hill hnone hres⟩
/-- Instance of C5 (amended): on the 4 × 5 example field without the Fixed cell at `(0, 2)`
the first coordinate of the candidate of Fig2 beyond a wall is `(1, -1)`, on the left, and
one row lies left of the wall; the candidate moved one column to the right is legal, and
the rotation is accepted with that piece. -/
theorem C5_rotation_slide_witness :
    exFieldRotFree.WF exConstsRot ∧
    (exMinoL.move exConstsRot .RotLeft).coords.find?
      (fun c => decide (0 ≤ c.h ∧ (c.w < 0 ∨ (exConstsRot.FIELD_WIDTH : Int) ≤ c.w))) =
        some ⟨1, -1⟩ ∧
    legalMove exConstsRot exFieldRotFree (exMinoLRot.shift 0 1) = .ok true ∧
    ∃ N, ∀ fuel, N ≤ fuel → ∃ g, attempt exConstsRot fuel exFieldRotFree .RotLeft = .ok g ∧
      g.curMino = some (exMinoLRot.shift 0 1) := by
  obtain ⟨s, hL, _, _, hacc, _, _⟩ :=
    C5_rotation_slide_exact exConstsRot exFieldRotFree exMinoL .RotLeft ⟨1, -1⟩ (by decide) rfl
      (Or.inl rfl) (by decide)
  have hs : s = exMinoLRot.shift 0 1 := by
    rw [hL (by decide)]
    decide
  subst hs
  exact ⟨by decide, by decide, rfl, hacc rfl⟩

end Getris
